import Mathlib

/-!
# Copy-source models of the Data Factory pipelines client and the analytics item validator

A shallow embedding of

* `pipelines/model_azurepostgresqlsource.go`, `model_magentosource.go`,
  `model_microsoftaccesssource.go` and `model_postgresqlv2source.go`: the four
  copy-source variants, their `CopySource()` projection and their `MarshalJSON()`;
* the part of Go's `encoding/json` that `MarshalJSON()` runs through
  (`json.Marshal`, `json.Unmarshal` into a `map[string]interface{}`), with the
  number literals of JSON in full and the finite values of `float64`;
* `validate/analytics_user_item_id_test.go`: the test table of the validator
  `AnalyticsUserItemID`, with the validator itself modelled from the spec.

Byte slices are lists of characters: text is Unicode text throughout, so the
replacement of invalid UTF-8 by U+FFFD that Go's encoder performs has no
counterpart here.
-/

set_option autoImplicit false

/-! ## JSON documents -/

/-- The exponent of a number literal: the letter (`e`, or `E` when `upper`), the
sign if one is written (`some true` is `-`, `some false` is `+`), and the digits,
of which there is at least one. -/
structure Exponent where
  upper : Bool
  sign : Option Bool
  digit : Fin 10
  digits : List (Fin 10)

/-- What follows the integer part of a number literal that is no integer
literal: a fraction (a point and at least one digit), after which an exponent
may come, or an exponent alone. -/
inductive NumberTail where
  | frac (digit : Fin 10) (digits : List (Fin 10)) (exp : Option Exponent)
  | exp (e : Exponent)

/-- A JSON document as `encoding/json` writes and reads it.  A number is kept as
its literal: `num` is an integer literal, a sign and the decimal integer that
follows it; `dec` is a literal with a fraction or an exponent, the sign, the
integer part and what follows it. -/
inductive Json where
  | null
  | bool (b : Bool)
  | num (neg : Bool) (mag : Nat)
  | dec (neg : Bool) (mag : Nat) (tail : NumberTail)
  | str (s : String)
  | arr (xs : List Json)
  | obj (ms : List (String × Json))

namespace Json

/-- The character of a decimal digit `d < 10`. -/
def digitChar (d : Nat) : Char := Char.ofNat (48 + d)

/-- Decimal digits of `n`, most significant first, with `fuel` division steps. -/
def natDigitsF : Nat → Nat → List Char
  | 0, n => [digitChar (n % 10)]
  | fuel + 1, n =>
    if n < 10 then [digitChar n] else natDigitsF fuel (n / 10) ++ [digitChar (n % 10)]

/-- The decimal digits of `n` (`strconv.AppendInt` in base ten, for a magnitude). -/
def natDigits (n : Nat) : List Char := natDigitsF n n

/-- The characters of a list of digits. -/
def renderDigits (ds : List (Fin 10)) : List Char := ds.map (fun d => digitChar d.val)

/-- The characters of a written sign. -/
def renderSign : Option Bool → List Char
  | none => []
  | some true => ['-']
  | some false => ['+']

/-- The text of an exponent. -/
def renderExponent (e : Exponent) : List Char :=
  (if e.upper then 'E' else 'e') :: (renderSign e.sign ++ renderDigits (e.digit :: e.digits))

/-- The text of what follows the integer part of a number. -/
def renderTail : NumberTail → List Char
  | .frac d ds none => '.' :: renderDigits (d :: ds)
  | .frac d ds (some e) => '.' :: (renderDigits (d :: ds) ++ renderExponent e)
  | .exp e => renderExponent e

/-- The lower-case hexadecimal digit of `n < 16` (the table `hex` of the encoder). -/
def hexDigit (n : Nat) : Char :=
  if n < 10 then Char.ofNat (48 + n) else Char.ofNat (87 + n)

/-- The encoder's escaping of one character of a string (`appendString` with
`escapeHTML` set, which is what `json.Marshal` uses): the quote and the backslash
get a backslash, the control characters with a short form get it, the other
control characters and `<`, `>`, `&` become `\u00XX`, and U+2028, U+2029 are
escaped; everything else is written as it is. -/
def escapeChar (c : Char) : List Char :=
  if c = '"' then ['\\', '"']
  else if c = '\\' then ['\\', '\\']
  else if c = '\x08' then ['\\', 'b']
  else if c = '\x0c' then ['\\', 'f']
  else if c = '\n' then ['\\', 'n']
  else if c = '\r' then ['\\', 'r']
  else if c = '\t' then ['\\', 't']
  else if c.toNat < 32 ∨ c = '<' ∨ c = '>' ∨ c = '&' then
    ['\\', 'u', '0', '0', hexDigit (c.toNat / 16), hexDigit (c.toNat % 16)]
  else if c = '\u2028' then ['\\', 'u', '2', '0', '2', '8']
  else if c = '\u2029' then ['\\', 'u', '2', '0', '2', '9']
  else [c]

/-- The escaped characters of a string, without the surrounding quotes. -/
def escapeChars : List Char → List Char
  | [] => []
  | c :: cs => escapeChar c ++ escapeChars cs

/-- A string literal: the escaped characters between two quotes. -/
def renderString (s : String) : List Char :=
  '"' :: (escapeChars s.data ++ ['"'])

mutual
/-- The compact text of a document, as `json.Marshal` writes it: no white space,
members and elements separated by a comma. -/
def render : Json → List Char
  | .null => ['n', 'u', 'l', 'l']
  | .bool true => ['t', 'r', 'u', 'e']
  | .bool false => ['f', 'a', 'l', 's', 'e']
  | .num neg mag => if neg then '-' :: natDigits mag else natDigits mag
  | .dec neg mag tail =>
    (if neg then '-' :: natDigits mag else natDigits mag) ++ renderTail tail
  | .str s => renderString s
  | .arr xs => '[' :: (renderElems xs ++ [']'])
  | .obj ms => '{' :: (renderMembers ms ++ ['}'])
/-- The elements of an array, comma separated. -/
def renderElems : List Json → List Char
  | [] => []
  | [x] => render x
  | x :: y :: xs => render x ++ ',' :: renderElems (y :: xs)
/-- The members of an object, comma separated, each `"name":value`. -/
def renderMembers : List (String × Json) → List Char
  | [] => []
  | [(k, v)] => renderString k ++ ':' :: render v
  | (k, v) :: m :: ms => renderString k ++ ':' :: (render v ++ ',' :: renderMembers (m :: ms))
end

mutual
/-- Nesting depth of a document: the number of arrays and objects that are open
at its deepest point. -/
def depth : Json → Nat
  | .arr xs => depthElems xs + 1
  | .obj ms => depthMembers ms + 1
  | _ => 0
/-- The largest depth among the elements of an array. -/
def depthElems : List Json → Nat
  | [] => 0
  | x :: xs => max (depth x) (depthElems xs)
/-- The largest depth among the member values of an object. -/
def depthMembers : List (String × Json) → Nat
  | [] => 0
  | (_, v) :: ms => max (depth v) (depthMembers ms)
end

/-! ### The decoder's scanner -/

/-- Error of the scanner at the end of the input. -/
def errEOF : String := "unexpected end of JSON input"
/-- Error of the scanner on more than `maxNestingDepth` open arrays and objects. -/
def errDepth : String := "exceeded max depth"
/-- Error of the scanner on a character that cannot start or continue a value. -/
def errChar : String := "invalid character looking for beginning of value"
/-- Error of the scanner inside one of the literals `null`, `true`, `false`. -/
def errLiteral : String := "invalid character in literal"
/-- Error of the scanner on a control character inside a string. -/
def errControl : String := "invalid character in string literal"
/-- Error of the scanner on a bad escape sequence. -/
def errEscape : String := "invalid character in string escape code"
/-- Error of the scanner on a sign that no digit follows. -/
def errNumber : String := "invalid character in numeric literal"
/-- Error of the scanner on a decimal point that no digit follows. -/
def errPoint : String := "invalid character after decimal point in numeric literal"
/-- Error of the scanner on an exponent without digits. -/
def errExponent : String := "invalid character in exponent of numeric literal"
/-- Error of the scanner after an array element. -/
def errAfterElement : String := "invalid character after array element"
/-- Error of the scanner where the name of a member should start. -/
def errObjectKey : String := "invalid character looking for beginning of object key string"
/-- Error of the scanner after the name of a member. -/
def errAfterKey : String := "invalid character after object key"
/-- Error of the scanner after a member. -/
def errAfterPair : String := "invalid character after object key:value pair"
/-- Error of the scanner after the document. -/
def errAfterTop : String := "invalid character after top-level value"
/-- Result of the recursion bound running out; `parse` starts with more fuel than
the input has characters, which is never used up. -/
def errFuel : String := "scanner out of fuel"

/-- The white space of JSON. -/
def isSpace (c : Char) : Bool := c = ' ' || c = '\t' || c = '\r' || c = '\n'

/-- Drops leading white space. -/
def skipSpace : List Char → List Char
  | [] => []
  | c :: cs => if isSpace c then skipSpace cs else c :: cs

/-- Whether `c` is one of `0` to `9`. -/
def isDigit (c : Char) : Bool := decide (48 ≤ c.toNat) && decide (c.toNat ≤ 57)

/-- Reads the digits at the front of the input into the accumulator. -/
def readDigits : Nat → List Char → Nat × List Char
  | acc, [] => (acc, [])
  | acc, c :: cs =>
    if isDigit c then readDigits (10 * acc + (c.toNat - 48)) cs else (acc, c :: cs)

/-- The digit that a digit character stands for. -/
def digitOf (c : Char) : Fin 10 := ⟨(c.toNat - 48) % 10, Nat.mod_lt _ (by decide)⟩

/-- Reads the digits at the front of the input, one by one. -/
def readDigitList : List Char → List (Fin 10) × List Char
  | [] => ([], [])
  | c :: cs =>
    if isDigit c then (digitOf c :: (readDigitList cs).1, (readDigitList cs).2)
    else ([], c :: cs)

/-- Scans an exponent after its letter: a sign if there is one, and at least one
digit. -/
def parseExponent (upper : Bool) : List Char → Except String (Exponent × List Char)
  | [] => .error errEOF
  | c :: cs =>
    if c = '+' ∨ c = '-' then
      match cs with
      | [] => .error errEOF
      | c1 :: cs1 =>
        if isDigit c1 then
          .ok ({ upper := upper, sign := some (decide (c = '-')), digit := digitOf c1,
                 digits := (readDigitList cs1).1 }, (readDigitList cs1).2)
        else .error errExponent
    else if isDigit c then
      .ok ({ upper := upper, sign := none, digit := digitOf c,
             digits := (readDigitList cs).1 }, (readDigitList cs).2)
    else .error errExponent

/-- After the fraction of a number: an exponent, or the end of the literal. -/
def finishFraction (neg : Bool) (mag : Nat) (d : Fin 10) (ds : List (Fin 10)) :
    List Char → Except String (Json × List Char)
  | [] => .ok (.dec neg mag (.frac d ds none), [])
  | c :: cs =>
    if c = 'e' ∨ c = 'E' then
      match parseExponent (decide (c = 'E')) cs with
      | .ok (e, r) => .ok (.dec neg mag (.frac d ds (some e)), r)
      | .error err => .error err
    else .ok (.dec neg mag (.frac d ds none), c :: cs)

/-- After the integer part of a number: a fraction, an exponent, or the end of
the literal. -/
def finishNumber (neg : Bool) (mag : Nat) : List Char → Except String (Json × List Char)
  | [] => .ok (.num neg mag, [])
  | c :: cs =>
    if c = '.' then
      match cs with
      | [] => .error errEOF
      | c1 :: cs1 =>
        if isDigit c1 then
          finishFraction neg mag (digitOf c1) (readDigitList cs1).1 (readDigitList cs1).2
        else .error errPoint
    else if c = 'e' ∨ c = 'E' then
      match parseExponent (decide (c = 'E')) cs with
      | .ok (e, r) => .ok (.dec neg mag (.exp e), r)
      | .error err => .error err
    else .ok (.num neg mag, c :: cs)

/-- Scans the integer part of a number: a single `0`, or a non-zero digit and the
digits after it. -/
def parseNumber (neg : Bool) : List Char → Except String (Json × List Char)
  | [] => .error errEOF
  | c :: cs =>
    if c = '0' then finishNumber neg 0 cs
    else if isDigit c then
      finishNumber neg (readDigits 0 (c :: cs)).1 (readDigits 0 (c :: cs)).2
    else .error errNumber

/-- Value of a hexadecimal digit, in either case. -/
def hexVal (c : Char) : Option Nat :=
  if 48 ≤ c.toNat ∧ c.toNat ≤ 57 then some (c.toNat - 48)
  else if 97 ≤ c.toNat ∧ c.toNat ≤ 102 then some (c.toNat - 87)
  else if 65 ≤ c.toNat ∧ c.toNat ≤ 70 then some (c.toNat - 55)
  else none

/-- Value of four hexadecimal digits (`getu4`). -/
def hex4 (a b c d : Char) : Option Nat :=
  match hexVal a, hexVal b, hexVal c, hexVal d with
  | some x, some y, some z, some w => some (((x * 16 + y) * 16 + z) * 16 + w)
  | _, _, _, _ => none

/-- The character of a one-letter escape. -/
def unescapeSimple (c : Char) : Option Char :=
  if c = '"' then some '"'
  else if c = '\\' then some '\\'
  else if c = '/' then some '/'
  else if c = 'b' then some '\x08'
  else if c = 'f' then some '\x0c'
  else if c = 'n' then some '\n'
  else if c = 'r' then some '\r'
  else if c = 't' then some '\t'
  else none

/-- Puts a decoded character in front of the rest of a string. -/
def pushChar (c : Char) :
    Except String (List Char × List Char) → Except String (List Char × List Char)
  | .ok (s, rest) => .ok (c :: s, rest)
  | .error e => .error e

/-- Scans a string after its opening quote and decodes the escapes (`unquote`):
a `\uXXXX` in the surrogate range is joined with a following low surrogate, and a
surrogate without its partner decodes to U+FFFD.  The first argument bounds the
recursion. -/
def parseStringBody : Nat → List Char → Except String (List Char × List Char)
  | 0, _ => .error errFuel
  | _ + 1, [] => .error errEOF
  | fuel + 1, c :: rest =>
    if c = '"' then .ok ([], rest)
    else if c = '\\' then
      match rest with
      | [] => .error errEOF
      | e :: rest1 =>
        if e = 'u' then
          match rest1 with
          | h1 :: h2 :: h3 :: h4 :: rest2 =>
            match hex4 h1 h2 h3 h4 with
            | none => .error errEscape
            | some u =>
              if u < 0xD800 ∨ 0xE000 ≤ u then
                pushChar (Char.ofNat u) (parseStringBody fuel rest2)
              else if 0xDC00 ≤ u then pushChar '\uFFFD' (parseStringBody fuel rest2)
              else
                match rest2 with
                | b1 :: b2 :: l1 :: l2 :: l3 :: l4 :: rest3 =>
                  if b1 = '\\' ∧ b2 = 'u' then
                    match hex4 l1 l2 l3 l4 with
                    | some lo =>
                      if 0xDC00 ≤ lo ∧ lo < 0xE000 then
                        pushChar (Char.ofNat (0x10000 + (u - 0xD800) * 0x400 + (lo - 0xDC00)))
                          (parseStringBody fuel rest3)
                      else pushChar '\uFFFD' (parseStringBody fuel rest2)
                    | none => pushChar '\uFFFD' (parseStringBody fuel rest2)
                  else pushChar '\uFFFD' (parseStringBody fuel rest2)
                | _ => pushChar '\uFFFD' (parseStringBody fuel rest2)
          | _ => .error errEscape
        else
          match unescapeSimple e with
          | some ch => pushChar ch (parseStringBody fuel rest1)
          | none => .error errEscape
    else if c.toNat < 32 then .error errControl
    else pushChar c (parseStringBody fuel rest)

/-- Removes the characters of a literal from the front of the input. -/
def dropLiteral : List Char → List Char → Option (List Char)
  | [], cs => some cs
  | _ :: _, [] => none
  | l :: ls, c :: cs => if l = c then dropLiteral ls cs else none

/-- The decoder's limit on open arrays and objects (`maxNestingDepth`). -/
def maxNestingDepth : Nat := 10000

mutual
/-- Scans one value.  `depth` is the number of arrays and objects that may still
be opened. -/
def parseValue : Nat → Nat → List Char → Except String (Json × List Char)
  | 0, _, _ => .error errFuel
  | fuel + 1, depth, cs =>
    match skipSpace cs with
    | [] => .error errEOF
    | c :: rest =>
      if c = 'n' then
        match dropLiteral ['u', 'l', 'l'] rest with
        | some r => .ok (.null, r)
        | none => .error errLiteral
      else if c = 't' then
        match dropLiteral ['r', 'u', 'e'] rest with
        | some r => .ok (.bool true, r)
        | none => .error errLiteral
      else if c = 'f' then
        match dropLiteral ['a', 'l', 's', 'e'] rest with
        | some r => .ok (.bool false, r)
        | none => .error errLiteral
      else if c = '"' then
        match parseStringBody fuel rest with
        | .ok (s, r) => .ok (.str (String.mk s), r)
        | .error e => .error e
      else if c = '-' then parseNumber true rest
      else if isDigit c then parseNumber false (c :: rest)
      else if c = '[' then
        match depth with
        | 0 => .error errDepth
        | d + 1 =>
          match skipSpace rest with
          | [] => .error errEOF
          | c1 :: rest1 =>
            if c1 = ']' then .ok (.arr [], rest1)
            else
              match parseElems fuel d (c1 :: rest1) with
              | .ok (xs, r) => .ok (.arr xs, r)
              | .error e => .error e
      else if c = '{' then
        match depth with
        | 0 => .error errDepth
        | d + 1 =>
          match skipSpace rest with
          | [] => .error errEOF
          | c1 :: rest1 =>
            if c1 = '}' then .ok (.obj [], rest1)
            else
              match parseMembers fuel d (c1 :: rest1) with
              | .ok (ms, r) => .ok (.obj ms, r)
              | .error e => .error e
      else .error errChar
/-- Scans the elements of an array up to and including its closing bracket. -/
def parseElems : Nat → Nat → List Char → Except String (List Json × List Char)
  | 0, _, _ => .error errFuel
  | fuel + 1, depth, cs =>
    match parseValue fuel depth cs with
    | .error e => .error e
    | .ok (x, r) =>
      match skipSpace r with
      | [] => .error errEOF
      | c :: r1 =>
        if c = ',' then
          match parseElems fuel depth r1 with
          | .ok (xs, r2) => .ok (x :: xs, r2)
          | .error e => .error e
        else if c = ']' then .ok ([x], r1)
        else .error errAfterElement
/-- Scans the members of an object up to and including its closing brace. -/
def parseMembers : Nat → Nat → List Char → Except String (List (String × Json) × List Char)
  | 0, _, _ => .error errFuel
  | fuel + 1, depth, cs =>
    match skipSpace cs with
    | [] => .error errEOF
    | q :: r0 =>
      if q = '"' then
        match parseStringBody fuel r0 with
        | .error e => .error e
        | .ok (k, r1) =>
          match skipSpace r1 with
          | [] => .error errEOF
          | c1 :: r2 =>
            if c1 = ':' then
              match parseValue fuel depth r2 with
              | .error e => .error e
              | .ok (v, r3) =>
                match skipSpace r3 with
                | [] => .error errEOF
                | c2 :: r4 =>
                  if c2 = ',' then
                    match parseMembers fuel depth r4 with
                    | .ok (ms, r5) => .ok ((String.mk k, v) :: ms, r5)
                    | .error e => .error e
                  else if c2 = '}' then .ok ([(String.mk k, v)], r4)
                  else .error errAfterPair
            else .error errAfterKey
      else .error errObjectKey
end

/-- Scans a whole document with the decoder's depth limit: one value, then only
white space (`checkValid`). -/
def parse (cs : List Char) : Except String Json :=
  match parseValue (cs.length + 1) maxNestingDepth cs with
  | .error e => .error e
  | .ok (j, rest) =>
    match skipSpace rest with
    | [] => .ok j
    | _ :: _ => .error errAfterTop

end Json

/-! ## Go values and `encoding/json` -/

/-- The Go values of this development: what an `interface{}` of the copy-source
structs holds, what `json.Unmarshal` stores into an `interface{}`, and the
struct and pointer shapes of the structs themselves.

* `nil` is the nil interface;
* `int` is a value of an integer kind (`int64` in the structs);
* `float64 neg mag` is the float64 of sign `neg` and integral magnitude `mag`
  (what the decoder stores for an integer literal);
* `fraction neg m k` is the float64 of sign `neg` and magnitude `m / 2 ^ k`:
  every finite float64 that is no integer is one of these, with `m` odd below
  `2 ^ 53` and `k` from 1 to 1074 (NaN and the infinities, which `json.Marshal`
  refuses, are not among the values);
* `slice` is a non-nil `[]interface{}`;
* `map` is a non-nil `map[string]interface{}`: the list gives the assignments
  that build it, in order, so a later entry replaces an earlier one of its key;
* `ptr none` is a nil pointer, `ptr (some v)` a pointer to `v`;
* `struct` lists the exported fields in declaration order, each with the name of
  its `json` tag, whether the tag says `omitempty`, and its value;
* `unsupported t` is a value of a type that `json.Marshal` refuses (a channel, a
  function, a complex number), `t` being the name of the type. -/
inductive GoValue where
  | nil
  | bool (b : Bool)
  | int (i : Int)
  | float64 (neg : Bool) (mag : Nat)
  | fraction (neg : Bool) (m k : Nat)
  | str (s : String)
  | slice (xs : List GoValue)
  | map (kvs : List (String × GoValue))
  | ptr (p : Option GoValue)
  | struct (fields : List (String × Bool × GoValue))
  | unsupported (typeName : String)

/-- What a Go function that returns `([]byte, error)` can do: return the bytes
with a nil error, return nil bytes with an error, or panic. -/
inductive GoResult where
  | ok (bytes : String)
  | error (msg : String)
  | panic (msg : String)
  deriving DecidableEq, Repr

namespace json

/-- Order of the keys of a map in the encoder's output: byte-wise order of the
UTF-8 text, which is the order of the code points, character by character. -/
def keyLt : List Char → List Char → Bool
  | [], [] => false
  | [], _ :: _ => true
  | _ :: _, [] => false
  | a :: as, b :: bs =>
    if a.toNat < b.toNat then true else if a.toNat = b.toNat then keyLt as bs else false

/-- The assignment `m[k] = v` on a map kept as the list of its entries in key
order: an entry of the key is replaced, a new key goes to its place. -/
def mapSet {α : Type} (k : String) (v : α) : List (String × α) → List (String × α)
  | [] => [(k, v)]
  | (k1, v1) :: rest =>
    if k = k1 then (k, v) :: rest
    else if keyLt k.data k1.data then (k, v) :: (k1, v1) :: rest
    else (k1, v1) :: mapSet k v rest

/-- The map built by a list of assignments, its entries in key order. -/
def mapOfList {α : Type} (kvs : List (String × α)) : List (String × α) :=
  kvs.foldl (fun acc kv => mapSet kv.1 kv.2 acc) []

/-- Number of binary digits of `n`, with `fuel` halving steps. -/
def bitLenF : Nat → Nat → Nat
  | 0, _ => 0
  | fuel + 1, n => if n = 0 then 0 else bitLenF fuel (n / 2) + 1

/-- Number of binary digits of `n`. -/
def bitLen (n : Nat) : Nat := bitLenF n n

/-- The float64 nearest to the integer `n`, ties to the even mantissa: `n` is
kept when it has at most 53 binary digits and is rounded to its 53 leading
digits otherwise (`strconv.ParseFloat` on an integer literal). -/
def roundFloat64 (n : Nat) : Nat :=
  if bitLen n ≤ 53 then n
  else
    let sh := bitLen n - 53
    let q := n / 2 ^ sh
    let r := n % 2 ^ sh
    if 2 ^ (sh - 1) < r ∨ (r = 2 ^ (sh - 1) ∧ q % 2 = 1) then (q + 1) * 2 ^ sh else q * 2 ^ sh

/-- For the power of ten `p`: the multiple of `p` next to `v` that `roundFloat64`
takes to `v`, the nearer one when both neighbours do (the even one on a tie). -/
def pickShortest (v p : Nat) : Option Nat :=
  let lo := v / p * p
  let hi := lo + p
  if roundFloat64 lo = v ∧ roundFloat64 hi = v then
    if v - lo < hi - v then some lo
    else if hi - v < v - lo then some hi
    else if (lo / p) % 2 = 0 then some lo else some hi
  else if roundFloat64 lo = v then some lo
  else if roundFloat64 hi = v then some hi
  else none

/-- Tries the powers of ten `p`, `p / 10`, ... down to one. -/
def shortestF : Nat → Nat → Nat → Nat
  | 0, v, _ => v
  | fuel + 1, v, p =>
    match pickShortest v p with
    | some d => d
    | none => shortestF fuel v (p / 10)

/-- The decimal of the float64 of integral value `v` (`strconv.AppendFloat` with
precision `-1`): the integer with the fewest significant digits that still reads
back as `v`, padded with zeros.  `integralJson` lays its digits out. -/
def formatFloat (v : Nat) : Nat :=
  if v = 0 then 0
  else shortestF (Json.natDigits v).length v (10 ^ ((Json.natDigits v).length - 1))

/-- The bound of the float64 range, `2 ^ 1024`, in digits. -/
def float64Bound : Nat :=
  179769313486231590772930519078902473361797697894230657273430081157732675805500963132708477322407536021120113879871393357658789768814416622492847430639474124377767893424865485276302219601246094119453082952085005768838150682342462881473913110540827237163350510684586298239947245938479716304835356329624224137216

/-- The digits of a number, most significant first. -/
def digitsOf (n : Nat) : List (Fin 10) := (Json.natDigits n).map Json.digitOf

/-- The number that digits stand for, read after the number `acc`. -/
def valueOf (acc : Nat) (ds : List (Fin 10)) : Nat := ds.foldl (fun a d => 10 * a + d.val) acc

/-- The magnitude of a finite float64: an integer, or `m / 2 ^ k`. -/
inductive Mag where
  | int (n : Nat)
  | frac (m k : Nat)
  deriving DecidableEq

/-- The magnitude `m / 2 ^ k` in lowest terms. -/
def reduceMag : Nat → Nat → Mag
  | m, 0 => .int m
  | m, k + 1 =>
    if m = 0 then .int 0 else if m % 2 = 0 then reduceMag (m / 2) k else .frac m (k + 1)

/-- The least number that is too large for a float64 before rounding: halfway
between the largest float64 and `2 ^ 1024`, that is `2 ^ 1024 - 2 ^ 970`. -/
def float64Overflow : Nat :=
  179769313486231580793728971405303415079934132710037826936173778980444968292764750946649017977587207096330286416692887910946555547851940402630657488671505820681908902000708383676273854845817711531764475730270069855571366959622842914819860834936475292719074168444365510704342711559699508093042880177904174497792

/-- Whether `num / den` is at least `2 ^ e`. -/
def ratioGe (num den : Nat) (e : Int) : Bool :=
  if 0 ≤ e then decide (den * 2 ^ e.toNat ≤ num) else decide (den ≤ num * 2 ^ (-e).toNat)

/-- The exponent of the largest power of two that is at most `num / den`, for
positive `num` and `den`: the difference of the bit lengths, or one less. -/
def ratioLog2 (num den : Nat) : Int :=
  if ratioGe num den ((bitLen num : Int) - (bitLen den : Int)) then
    (bitLen num : Int) - (bitLen den : Int)
  else (bitLen num : Int) - (bitLen den : Int) - 1

/-- The float64 nearest to `num / den` (for a positive `den`), ties to the even
mantissa, and nothing when that is beyond the largest float64
(`strconv.ParseFloat`): the quotient by `2 ^ e` is rounded to an integer, where
`e` leaves 53 binary digits, and is not below the exponent -1074 of the smallest
float64. -/
def roundRatio (num den : Nat) : Option Mag :=
  if den * float64Overflow ≤ num then none
  else if num = 0 then some (.int 0)
  else
    let e : Int := max (ratioLog2 num den - 52) (-1074)
    let a := if 0 ≤ e then num else num * 2 ^ (-e).toNat
    let b := if 0 ≤ e then den * 2 ^ e.toNat else den
    let q := a / b
    let r := a % b
    let q1 := if b < 2 * r ∨ (2 * r = b ∧ q % 2 = 1) then q + 1 else q
    if 0 ≤ e then some (.int (q1 * 2 ^ e.toNat)) else some (reduceMag q1 (-e).toNat)

/-- The float64 that the decoder stores for the decimal `sig * 10 ^ e10`, and
nothing when the decimal is beyond the largest float64. -/
def decimalMag (sig : Nat) (e10 : Int) : Option Mag :=
  if 0 ≤ e10 then
    if roundFloat64 (sig * 10 ^ e10.toNat) < float64Bound then
      some (.int (roundFloat64 (sig * 10 ^ e10.toNat)))
    else none
  else roundRatio sig (10 ^ (-e10).toNat)

/-- The digits without the zeros at their end. -/
def stripZeros (ds : List (Fin 10)) : List (Fin 10) :=
  (ds.reverse.dropWhile (fun d => d = 0)).reverse

/-- The decimal `d * 10 ^ x` with the zeros at the end of `d` moved into the
exponent. -/
def normDecimal (d : Nat) (x : Int) : Nat × Int :=
  (valueOf 0 (stripZeros (digitsOf d)),
    x + (((digitsOf d).length - (stripZeros (digitsOf d)).length : Nat) : Int))

/-- Number of zeros between the decimal point and the first digit of
`m / 2 ^ k < 1`: the least `j` with `2 ^ k ≤ m * 10 ^ (j + 1)`, found in `fuel`
steps from `j` on. -/
def leadingZeros : Nat → Nat → Nat → Nat → Nat
  | 0, _, _, j => j
  | fuel + 1, m, k, j =>
    if 2 ^ k ≤ m * 10 ^ (j + 1) then j else leadingZeros fuel m k (j + 1)

/-- Position of the decimal point of `m / 2 ^ k`: the least `p` with
`m / 2 ^ k < 10 ^ p`. -/
def decimalPoint (m k : Nat) : Int :=
  if 2 ^ k ≤ m then ((Json.natDigits (m / 2 ^ k)).length : Int)
  else - (leadingZeros 400 m k 0 : Int)

/-- Whether `d` is positive and the decoder reads the decimal `d * 10 ^ x`, as
the encoder writes it, back as `target`. -/
def readsBack (target : Mag) (d : Nat) (x : Int) : Bool :=
  decide (1 ≤ d) && decide (decimalMag (normDecimal d x).1 (normDecimal d x).2 = some target)

/-- For the power of ten `10 ^ x`: the multiple of it next to `m / 2 ^ k` that
reads back as `m / 2 ^ k`, the nearer one when both neighbours do (the even one
on a tie). -/
def pickDecimal (m k : Nat) (x : Int) : Option Nat :=
  let a := if x ≤ 0 then m * 10 ^ (-x).toNat else m
  let b := if x ≤ 0 then 2 ^ k else 2 ^ k * 10 ^ x.toNat
  let lo := a / b
  let r := a % b
  if readsBack (reduceMag m k) lo x ∧ readsBack (reduceMag m k) (lo + 1) x then
    if 2 * r < b then some lo
    else if b < 2 * r then some (lo + 1)
    else if lo % 2 = 0 then some lo else some (lo + 1)
  else if readsBack (reduceMag m k) lo x then some lo
  else if readsBack (reduceMag m k) (lo + 1) x then some (lo + 1)
  else none

/-- Tries the powers of ten `10 ^ x`, `10 ^ (x - 1)`, ...; after `fuel` of them
the exact decimal `m * 5 ^ k * 10 ^ (-k)` is taken. -/
def shortestRatioF : Nat → Nat → Nat → Int → Nat × Int
  | 0, m, k, _ => (m * 5 ^ k, -(k : Int))
  | fuel + 1, m, k, x =>
    match pickDecimal m k x with
    | some d => (d, x)
    | none => shortestRatioF fuel m k (x - 1)

/-- The decimal with the fewest digits that the decoder reads back as
`m / 2 ^ k` (`strconv.AppendFloat` with precision `-1`): one digit is tried
first, and 17 digits always suffice. -/
def shortestRatio (m k : Nat) : Nat × Int :=
  shortestRatioF 17 m k (decimalPoint m k - 1)

/-- A number literal from its integer part, the digits of its fraction and its
exponent. -/
def mkNumber (neg : Bool) (mag : Nat) (frac : List (Fin 10)) (exp : Option Exponent) :
    Json :=
  match frac, exp with
  | [], none => .num neg mag
  | [], some e => .dec neg mag (.exp e)
  | d :: ds, e => .dec neg mag (.frac d ds e)

/-- The exponent that the encoder writes: `e`, the sign, and the digits of the
magnitude (`strconv` writes two digits at least, and the encoder takes the zero
in front of a single digit away). -/
def mkExponent (x : Int) : Exponent :=
  match digitsOf x.natAbs with
  | d :: ds => { upper := false, sign := some (decide (x < 0)), digit := d, digits := ds }
  | [] => { upper := false, sign := some (decide (x < 0)), digit := 0, digits := [] }

/-- The literal that the encoder writes for the decimal `d * 10 ^ x`: with
`expForm` one digit, the other digits as fraction and the exponent (format `e`),
otherwise the digits with the decimal point in its place (format `f`). -/
def floatJson (neg : Bool) (expForm : Bool) (d : Nat) (x : Int) : Json :=
  let ds := stripZeros (digitsOf d)
  let dp : Int := x + ((digitsOf d).length : Int)
  if expForm then
    match ds with
    | [] => .num neg 0
    | d1 :: rest => mkNumber neg d1.val rest (some (mkExponent (dp - 1)))
  else if dp ≤ 0 then mkNumber neg 0 (List.replicate (-dp).toNat 0 ++ ds) none
  else if dp < (ds.length : Int) then
    mkNumber neg (valueOf 0 (ds.take dp.toNat)) (ds.drop dp.toNat) none
  else .num neg (valueOf 0 ds * 10 ^ (dp.toNat - ds.length))

/-- Whether `m / 2 ^ k` is below the float64 next to `1e-6`, which is
`4722366482869645 / 2 ^ 72`: the encoder writes such values, and those from
`1e21` on, in format `e`. -/
def belowCutoff (m k : Nat) : Bool := decide (m * 2 ^ 72 < 4722366482869645 * 2 ^ k)

/-- The literal that the encoder writes for a float64 of integral magnitude
(`floatEncoder.encode`): below `1e21` the digits of `formatFloat` (format `f`),
from `1e21` on one digit, the other significant digits as fraction, and the
exponent (format `e`), as in `1e+21` and `1.7976931348623157e+308`. -/
def integralJson (neg : Bool) (mag : Nat) : Json :=
  if mag < 1000000000000000000000 then .num neg (formatFloat mag)
  else floatJson neg true (formatFloat mag) 0

/-- The literal that the encoder writes for the float64 of magnitude
`m / 2 ^ k` (`floatEncoder.encode`): the shortest decimal that reads back as the
value, in format `e` below `1e-6` and in format `f` otherwise, as in `0.5`,
`123.456` and `1e-7`. -/
def fractionJson (neg : Bool) (m k : Nat) : Json :=
  match reduceMag m k with
  | .int n => integralJson neg n
  | .frac m1 k1 =>
    floatJson neg (belowCutoff m1 k1) (shortestRatio m1 k1).1 (shortestRatio m1 k1).2

/-- Error of `json.Marshal` on a value of a type it does not encode. -/
def errUnsupported (typeName : String) : String := "json: unsupported type: " ++ typeName

/-- Error of `json.Unmarshal` on a number that no float64 holds. -/
def errRange (neg : Bool) (mag : Nat) : String :=
  "json: cannot unmarshal number " ++ String.mk (Json.render (.num neg mag)) ++
    " into Go value of type float64"

/-- Error of `json.Unmarshal` into a map on a document that is no object. -/
def errNotObject : String :=
  "json: cannot unmarshal value into Go value of type map[string]interface {}"

/-- The encoder's `isEmptyValue`, which decides `omitempty`: false, zero, the
empty string, an empty slice or map, a nil pointer and the nil interface. -/
def isEmptyValue : GoValue → Bool
  | .nil => true
  | .bool b => !b
  | .int i => decide (i = 0)
  | .float64 _ mag => decide (mag = 0)
  | .fraction _ m _ => decide (m = 0)
  | .str s => decide (s = "")
  | .slice xs => xs.isEmpty
  | .map kvs => kvs.isEmpty
  | .ptr p => p.isNone
  | .struct _ => false
  | .unsupported _ => false

/-- The elements of an array in order, up to the first one that failed. -/
def sequenceElems : List (Except String Json) → Except String (List Json)
  | [] => .ok []
  | .error e :: _ => .error e
  | .ok j :: rest =>
    match sequenceElems rest with
    | .ok js => .ok (j :: js)
    | .error e => .error e

/-- The members of an object in order, up to the first one that failed. -/
def sequenceMembers : List (String × Except String Json) → Except String (List (String × Json))
  | [] => .ok []
  | (_, .error e) :: _ => .error e
  | (k, .ok j) :: rest =>
    match sequenceMembers rest with
    | .ok ms => .ok ((k, j) :: ms)
    | .error e => .error e

mutual
/-- The document that `json.Marshal` writes for a value, or its error.  The
entries of a map are written in key order, the fields of a struct in declaration
order without the empty `omitempty` ones; the first value that fails, in the
order of writing, gives the error. -/
def marshalValue : GoValue → Except String Json
  | .nil => .ok .null
  | .bool b => .ok (.bool b)
  | .int i => .ok (.num (decide (i < 0)) i.natAbs)
  | .float64 neg mag => .ok (integralJson neg mag)
  | .fraction neg m k => .ok (fractionJson neg m k)
  | .str s => .ok (.str s)
  | .slice xs =>
    match sequenceElems (marshalList xs) with
    | .ok js => .ok (.arr js)
    | .error e => .error e
  | .map kvs =>
    match sequenceMembers (mapOfList (marshalEntries kvs)) with
    | .ok ms => .ok (.obj ms)
    | .error e => .error e
  | .ptr none => .ok .null
  | .ptr (some v) => marshalValue v
  | .struct fields =>
    match sequenceMembers (marshalFields fields) with
    | .ok ms => .ok (.obj ms)
    | .error e => .error e
  | .unsupported t => .error (errUnsupported t)
/-- The encodings of the elements of a slice. -/
def marshalList : List GoValue → List (Except String Json)
  | [] => []
  | x :: xs => marshalValue x :: marshalList xs
/-- The encodings of the values that a map is built from. -/
def marshalEntries : List (String × GoValue) → List (String × Except String Json)
  | [] => []
  | (k, v) :: kvs => (k, marshalValue v) :: marshalEntries kvs
/-- The encodings of the fields of a struct that are written. -/
def marshalFields : List (String × Bool × GoValue) → List (String × Except String Json)
  | [] => []
  | (name, omitempty, v) :: fs =>
    if omitempty && isEmptyValue v then marshalFields fs
    else (name, marshalValue v) :: marshalFields fs
end

/-- The number that the decoder stores into an `interface{}` for an integer
literal: the nearest float64, an error when that is beyond the largest one. -/
def convertNumber (neg : Bool) (mag : Nat) : Except String GoValue :=
  if roundFloat64 mag < float64Bound then .ok (.float64 neg (roundFloat64 mag))
  else .error (errRange neg mag)

/-- The digits of the fraction of a number literal. -/
def fracDigits : NumberTail → List (Fin 10)
  | .frac d ds _ => d :: ds
  | .exp _ => []

/-- The value of an exponent. -/
def exponentValue (e : Exponent) : Int :=
  if e.sign = some true then -(valueOf 0 (e.digit :: e.digits) : Int)
  else (valueOf 0 (e.digit :: e.digits) : Int)

/-- The value of the exponent of a number literal, zero when there is none. -/
def exponentOf : NumberTail → Int
  | .frac _ _ none => 0
  | .frac _ _ (some e) => exponentValue e
  | .exp e => exponentValue e

/-- The number that the decoder stores into an `interface{}` for a literal with a
fraction or an exponent: the nearest float64 (`strconv.ParseFloat`), an error
when the literal is beyond the largest one. -/
def convertDecimal (neg : Bool) (mag : Nat) (tail : NumberTail) : Except String GoValue :=
  match decimalMag (valueOf mag (fracDigits tail))
      (exponentOf tail - ((fracDigits tail).length : Int)) with
  | some (.int n) => .ok (.float64 neg n)
  | some (.frac m k) => .ok (.fraction neg m k)
  | none =>
    .error ("json: cannot unmarshal number " ++ String.mk (Json.render (.dec neg mag tail)) ++
      " into Go value of type float64")

mutual
/-- The value that the decoder stores into an `interface{}` for a document
(`valueInterface`): nil, a bool, a float64, a string, a `[]interface{}` or a
`map[string]interface{}`. -/
def toGo : Json → Except String GoValue
  | .null => .ok .nil
  | .bool b => .ok (.bool b)
  | .num neg mag => convertNumber neg mag
  | .dec neg mag tail => convertDecimal neg mag tail
  | .str s => .ok (.str s)
  | .arr xs =>
    match toGoList xs with
    | .ok gs => .ok (.slice gs)
    | .error e => .error e
  | .obj ms =>
    match toGoMembers ms [] with
    | .ok kvs => .ok (.map kvs)
    | .error e => .error e
/-- The values of the elements of an array. -/
def toGoList : List Json → Except String (List GoValue)
  | [] => .ok []
  | x :: xs =>
    match toGo x with
    | .error e => .error e
    | .ok g =>
      match toGoList xs with
      | .ok gs => .ok (g :: gs)
      | .error e => .error e
/-- The map that the members of an object are assigned to, one after the other,
starting from `acc`. -/
def toGoMembers : List (String × Json) → List (String × GoValue) →
    Except String (List (String × GoValue))
  | [], acc => .ok acc
  | (k, v) :: ms, acc =>
    match toGo v with
    | .error e => .error e
    | .ok g => toGoMembers ms (mapSet k g acc)
end

/-- The function `json.Marshal`: the bytes of the encoding, or the error. -/
def Marshal (v : GoValue) : Except String String :=
  match marshalValue v with
  | .ok j => .ok (String.mk (Json.render j))
  | .error e => .error e

/-- The function `json.Unmarshal` with a nil `map[string]interface{}` as target:
the bytes are scanned as a whole first, an object is decoded into a new map,
`null` leaves the map nil (`none`), and any other document is an error. -/
def Unmarshal (data : String) : Except String (Option (List (String × GoValue))) :=
  match Json.parse data.data with
  | .error e => .error e
  | .ok .null => .ok none
  | .ok (.obj ms) =>
    match toGoMembers ms [] with
    | .ok kvs => .ok (some kvs)
    | .error e => .error e
  | .ok _ => .error errNotObject

end json

namespace json

mutual
/-- Whether a dynamic value is plain JSON data: nil, a boolean, an integer of one
of Go's integer kinds, a float64 (an integral one that a float64 holds, or
`m / 2 ^ k` with `m` below `2 ^ 53` and `k` up to 1074: all of them are finite), a
string, a slice or a map with string keys of such values. -/
def isPlainJSON : GoValue → Bool
  | .nil => true
  | .bool _ => true
  | .int i => decide (-9223372036854775808 ≤ i ∧ i < 18446744073709551616)
  | .float64 _ mag => decide (roundFloat64 mag = mag ∧ mag < float64Bound)
  | .fraction _ m k => decide (m < 9007199254740992 ∧ k ≤ 1074)
  | .str _ => true
  | .slice xs => isPlainList xs
  | .map kvs => isPlainEntries kvs
  | .ptr _ => false
  | .struct _ => false
  | .unsupported _ => false
/-- Whether the elements of a slice are plain JSON data. -/
def isPlainList : List GoValue → Bool
  | [] => true
  | x :: xs => isPlainJSON x && isPlainList xs
/-- Whether the values of a map are plain JSON data. -/
def isPlainEntries : List (String × GoValue) → Bool
  | [] => true
  | (_, v) :: kvs => isPlainJSON v && isPlainEntries kvs
end

mutual
/-- How deep the slices and maps of a value are nested: 0 for a scalar, 1 for a
slice or map of scalars. -/
def nesting : GoValue → Nat
  | .slice xs => nestingList xs + 1
  | .map kvs => nestingEntries kvs + 1
  | _ => 0
/-- The largest nesting among the elements of a slice. -/
def nestingList : List GoValue → Nat
  | [] => 0
  | x :: xs => max (nesting x) (nestingList xs)
/-- The largest nesting among the values of a map. -/
def nestingEntries : List (String × GoValue) → Nat
  | [] => 0
  | (_, v) :: kvs => max (nesting v) (nestingEntries kvs)
end

/-- The empty slice inside `n` slices of one element: `[]`, `[[]]`, `[[[]]]`, ... -/
def nestedSlice : Nat → GoValue
  | 0 => .slice []
  | n + 1 => .slice [nestedSlice n]

end json

/-! ## The copy-source variants (`pipelines`) -/

namespace pipelines

/-- Modelled from the spec: the declaration of `BaseCopySourceImpl` is not among
the sources.  It is the embedded base of the copy-source union; its five fields
are the ones that the composite literal in every `CopySource()` names, with the
types of the fields they are filled from. -/
structure BaseCopySourceImpl where
  DisableMetricsCollection : Option Bool
  MaxConcurrentConnections : Option Int
  SourceRetryCount : Option Int
  SourceRetryWait : Option GoValue
  Type_ : String

/-- The struct `AzurePostgreSqlSource`.  A field of type `*interface{}` is `none`
for the nil pointer and `some v` for a pointer to an interface that holds `v`;
`*bool` and `*int64` likewise (an `int64` is an integer from `-2 ^ 63` up to
`2 ^ 63 - 1`).  The field `Type` is spelt `Type_`. -/
structure AzurePostgreSqlSource where
  AdditionalColumns : Option GoValue
  Query : Option GoValue
  QueryTimeout : Option GoValue
  DisableMetricsCollection : Option Bool
  MaxConcurrentConnections : Option Int
  SourceRetryCount : Option Int
  SourceRetryWait : Option GoValue
  Type_ : String

/-- The struct `MagentoSource`. -/
structure MagentoSource where
  AdditionalColumns : Option GoValue
  Query : Option GoValue
  QueryTimeout : Option GoValue
  DisableMetricsCollection : Option Bool
  MaxConcurrentConnections : Option Int
  SourceRetryCount : Option Int
  SourceRetryWait : Option GoValue
  Type_ : String

/-- The struct `MicrosoftAccessSource`, which has no `QueryTimeout`. -/
structure MicrosoftAccessSource where
  AdditionalColumns : Option GoValue
  Query : Option GoValue
  DisableMetricsCollection : Option Bool
  MaxConcurrentConnections : Option Int
  SourceRetryCount : Option Int
  SourceRetryWait : Option GoValue
  Type_ : String

/-- The struct `PostgreSqlV2Source`. -/
structure PostgreSqlV2Source where
  AdditionalColumns : Option GoValue
  Query : Option GoValue
  QueryTimeout : Option GoValue
  DisableMetricsCollection : Option Bool
  MaxConcurrentConnections : Option Int
  SourceRetryCount : Option Int
  SourceRetryWait : Option GoValue
  Type_ : String

/-- The method `AzurePostgreSqlSource.CopySource`. -/
def AzurePostgreSqlSource.CopySource (s : AzurePostgreSqlSource) : BaseCopySourceImpl :=
  { DisableMetricsCollection := s.DisableMetricsCollection
    MaxConcurrentConnections := s.MaxConcurrentConnections
    SourceRetryCount := s.SourceRetryCount
    SourceRetryWait := s.SourceRetryWait
    Type_ := s.Type_ }

/-- The method `MagentoSource.CopySource`. -/
def MagentoSource.CopySource (s : MagentoSource) : BaseCopySourceImpl :=
  { DisableMetricsCollection := s.DisableMetricsCollection
    MaxConcurrentConnections := s.MaxConcurrentConnections
    SourceRetryCount := s.SourceRetryCount
    SourceRetryWait := s.SourceRetryWait
    Type_ := s.Type_ }

/-- The method `MicrosoftAccessSource.CopySource`. -/
def MicrosoftAccessSource.CopySource (s : MicrosoftAccessSource) : BaseCopySourceImpl :=
  { DisableMetricsCollection := s.DisableMetricsCollection
    MaxConcurrentConnections := s.MaxConcurrentConnections
    SourceRetryCount := s.SourceRetryCount
    SourceRetryWait := s.SourceRetryWait
    Type_ := s.Type_ }

/-- The method `PostgreSqlV2Source.CopySource`. -/
def PostgreSqlV2Source.CopySource (s : PostgreSqlV2Source) : BaseCopySourceImpl :=
  { DisableMetricsCollection := s.DisableMetricsCollection
    MaxConcurrentConnections := s.MaxConcurrentConnections
    SourceRetryCount := s.SourceRetryCount
    SourceRetryWait := s.SourceRetryWait
    Type_ := s.Type_ }

/-- The value `wrapper(s)` that `AzurePostgreSqlSource.MarshalJSON` hands to
`json.Marshal`: the fields of the struct with their `json` tags, and none of its
methods. -/
def AzurePostgreSqlSource.wrapper (s : AzurePostgreSqlSource) : GoValue :=
  .struct [
    ("additionalColumns", true, .ptr s.AdditionalColumns),
    ("query", true, .ptr s.Query),
    ("queryTimeout", true, .ptr s.QueryTimeout),
    ("disableMetricsCollection", true, .ptr (s.DisableMetricsCollection.map .bool)),
    ("maxConcurrentConnections", true, .ptr (s.MaxConcurrentConnections.map .int)),
    ("sourceRetryCount", true, .ptr (s.SourceRetryCount.map .int)),
    ("sourceRetryWait", true, .ptr s.SourceRetryWait),
    ("type", false, .str s.Type_)]

/-- The value `wrapper(s)` of `MagentoSource.MarshalJSON`. -/
def MagentoSource.wrapper (s : MagentoSource) : GoValue :=
  .struct [
    ("additionalColumns", true, .ptr s.AdditionalColumns),
    ("query", true, .ptr s.Query),
    ("queryTimeout", true, .ptr s.QueryTimeout),
    ("disableMetricsCollection", true, .ptr (s.DisableMetricsCollection.map .bool)),
    ("maxConcurrentConnections", true, .ptr (s.MaxConcurrentConnections.map .int)),
    ("sourceRetryCount", true, .ptr (s.SourceRetryCount.map .int)),
    ("sourceRetryWait", true, .ptr s.SourceRetryWait),
    ("type", false, .str s.Type_)]

/-- The value `wrapper(s)` of `MicrosoftAccessSource.MarshalJSON`. -/
def MicrosoftAccessSource.wrapper (s : MicrosoftAccessSource) : GoValue :=
  .struct [
    ("additionalColumns", true, .ptr s.AdditionalColumns),
    ("query", true, .ptr s.Query),
    ("disableMetricsCollection", true, .ptr (s.DisableMetricsCollection.map .bool)),
    ("maxConcurrentConnections", true, .ptr (s.MaxConcurrentConnections.map .int)),
    ("sourceRetryCount", true, .ptr (s.SourceRetryCount.map .int)),
    ("sourceRetryWait", true, .ptr s.SourceRetryWait),
    ("type", false, .str s.Type_)]

/-- The value `wrapper(s)` of `PostgreSqlV2Source.MarshalJSON`. -/
def PostgreSqlV2Source.wrapper (s : PostgreSqlV2Source) : GoValue :=
  .struct [
    ("additionalColumns", true, .ptr s.AdditionalColumns),
    ("query", true, .ptr s.Query),
    ("queryTimeout", true, .ptr s.QueryTimeout),
    ("disableMetricsCollection", true, .ptr (s.DisableMetricsCollection.map .bool)),
    ("maxConcurrentConnections", true, .ptr (s.MaxConcurrentConnections.map .int)),
    ("sourceRetryCount", true, .ptr (s.SourceRetryCount.map .int)),
    ("sourceRetryWait", true, .ptr s.SourceRetryWait),
    ("type", false, .str s.Type_)]

/-- The panic of Go's runtime on `m[k] = v` for a nil map `m`. -/
def panicNilMap : String := "assignment to entry in nil map"

/-- The method `AzurePostgreSqlSource.MarshalJSON`. -/
def AzurePostgreSqlSource.MarshalJSON (s : AzurePostgreSqlSource) : GoResult :=
  match json.Marshal (AzurePostgreSqlSource.wrapper s) with
  | .error err => .error ("marshaling AzurePostgreSqlSource: " ++ err)
  | .ok encoded =>
    match json.Unmarshal encoded with
    | .error err => .error ("unmarshaling AzurePostgreSqlSource: " ++ err)
    | .ok none => .panic panicNilMap
    | .ok (some decoded) =>
      match json.Marshal (.map (json.mapSet "type" (.str "AzurePostgreSqlSource") decoded)) with
      | .error err => .error ("re-marshaling AzurePostgreSqlSource: " ++ err)
      | .ok encoded => .ok encoded

/-- The method `MagentoSource.MarshalJSON`. -/
def MagentoSource.MarshalJSON (s : MagentoSource) : GoResult :=
  match json.Marshal (MagentoSource.wrapper s) with
  | .error err => .error ("marshaling MagentoSource: " ++ err)
  | .ok encoded =>
    match json.Unmarshal encoded with
    | .error err => .error ("unmarshaling MagentoSource: " ++ err)
    | .ok none => .panic panicNilMap
    | .ok (some decoded) =>
      match json.Marshal (.map (json.mapSet "type" (.str "MagentoSource") decoded)) with
      | .error err => .error ("re-marshaling MagentoSource: " ++ err)
      | .ok encoded => .ok encoded

/-- The method `MicrosoftAccessSource.MarshalJSON`. -/
def MicrosoftAccessSource.MarshalJSON (s : MicrosoftAccessSource) : GoResult :=
  match json.Marshal (MicrosoftAccessSource.wrapper s) with
  | .error err => .error ("marshaling MicrosoftAccessSource: " ++ err)
  | .ok encoded =>
    match json.Unmarshal encoded with
    | .error err => .error ("unmarshaling MicrosoftAccessSource: " ++ err)
    | .ok none => .panic panicNilMap
    | .ok (some decoded) =>
      match json.Marshal (.map (json.mapSet "type" (.str "MicrosoftAccessSource") decoded)) with
      | .error err => .error ("re-marshaling MicrosoftAccessSource: " ++ err)
      | .ok encoded => .ok encoded

/-- The method `PostgreSqlV2Source.MarshalJSON`. -/
def PostgreSqlV2Source.MarshalJSON (s : PostgreSqlV2Source) : GoResult :=
  match json.Marshal (PostgreSqlV2Source.wrapper s) with
  | .error err => .error ("marshaling PostgreSqlV2Source: " ++ err)
  | .ok encoded =>
    match json.Unmarshal encoded with
    | .error err => .error ("unmarshaling PostgreSqlV2Source: " ++ err)
    | .ok none => .panic panicNilMap
    | .ok (some decoded) =>
      match json.Marshal (.map (json.mapSet "type" (.str "PostgreSqlV2Source") decoded)) with
      | .error err => .error ("re-marshaling PostgreSqlV2Source: " ++ err)
      | .ok encoded => .ok encoded

/-- The interface `CopySource`, as the union of the four implementations that
are among the sources. -/
inductive CopySource where
  | azurePostgreSql (s : AzurePostgreSqlSource)
  | magento (s : MagentoSource)
  | microsoftAccess (s : MicrosoftAccessSource)
  | postgreSqlV2 (s : PostgreSqlV2Source)

/-- The name of the struct type of a copy source. -/
def CopySource.variantName : CopySource → String
  | .azurePostgreSql _ => "AzurePostgreSqlSource"
  | .magento _ => "MagentoSource"
  | .microsoftAccess _ => "MicrosoftAccessSource"
  | .postgreSqlV2 _ => "PostgreSqlV2Source"

/-- Method call `s.MarshalJSON()` through the interface. -/
def CopySource.MarshalJSON : CopySource → GoResult
  | .azurePostgreSql s => s.MarshalJSON
  | .magento s => s.MarshalJSON
  | .microsoftAccess s => s.MarshalJSON
  | .postgreSqlV2 s => s.MarshalJSON

/-- Method call `s.CopySource()` through the interface. -/
def CopySource.toBase : CopySource → BaseCopySourceImpl
  | .azurePostgreSql s => s.CopySource
  | .magento s => s.CopySource
  | .microsoftAccess s => s.CopySource
  | .postgreSqlV2 s => s.CopySource

/-- The value that `MarshalJSON` of a copy source hands to `json.Marshal`. -/
def CopySource.wrapper : CopySource → GoValue
  | .azurePostgreSql s => s.wrapper
  | .magento s => s.wrapper
  | .microsoftAccess s => s.wrapper
  | .postgreSqlV2 s => s.wrapper

/-- The body that the four `MarshalJSON` methods share, with the name of the
struct as a parameter: encode the wrapped struct, decode the bytes into a map,
set its `type` entry and encode the map. -/
def marshalWithType (name : String) (wrapped : GoValue) : GoResult :=
  match json.Marshal wrapped with
  | .error err => .error ("marshaling " ++ name ++ ": " ++ err)
  | .ok encoded =>
    match json.Unmarshal encoded with
    | .error err => .error ("unmarshaling " ++ name ++ ": " ++ err)
    | .ok none => .panic panicNilMap
    | .ok (some decoded) =>
      match json.Marshal (.map (json.mapSet "type" (.str name) decoded)) with
      | .error err => .error ("re-marshaling " ++ name ++ ": " ++ err)
      | .ok encoded => .ok encoded

/-- The text `present` when the flag is set, nothing otherwise. -/
def memberIf (present : Bool) (name : String) : List String :=
  if present then [name] else []

/-- The members that the spec expects in the output of `MarshalJSON`: `type`
always, and each optional member exactly when its pointer field is non-nil
(`MicrosoftAccessSource` has no `queryTimeout`). -/
def CopySource.expectedMembers : CopySource → List String
  | .azurePostgreSql s =>
    ["type"] ++ memberIf s.AdditionalColumns.isSome "additionalColumns" ++
      memberIf s.Query.isSome "query" ++ memberIf s.QueryTimeout.isSome "queryTimeout" ++
      memberIf s.DisableMetricsCollection.isSome "disableMetricsCollection" ++
      memberIf s.MaxConcurrentConnections.isSome "maxConcurrentConnections" ++
      memberIf s.SourceRetryCount.isSome "sourceRetryCount" ++
      memberIf s.SourceRetryWait.isSome "sourceRetryWait"
  | .magento s =>
    ["type"] ++ memberIf s.AdditionalColumns.isSome "additionalColumns" ++
      memberIf s.Query.isSome "query" ++ memberIf s.QueryTimeout.isSome "queryTimeout" ++
      memberIf s.DisableMetricsCollection.isSome "disableMetricsCollection" ++
      memberIf s.MaxConcurrentConnections.isSome "maxConcurrentConnections" ++
      memberIf s.SourceRetryCount.isSome "sourceRetryCount" ++
      memberIf s.SourceRetryWait.isSome "sourceRetryWait"
  | .microsoftAccess s =>
    ["type"] ++ memberIf s.AdditionalColumns.isSome "additionalColumns" ++
      memberIf s.Query.isSome "query" ++
      memberIf s.DisableMetricsCollection.isSome "disableMetricsCollection" ++
      memberIf s.MaxConcurrentConnections.isSome "maxConcurrentConnections" ++
      memberIf s.SourceRetryCount.isSome "sourceRetryCount" ++
      memberIf s.SourceRetryWait.isSome "sourceRetryWait"
  | .postgreSqlV2 s =>
    ["type"] ++ memberIf s.AdditionalColumns.isSome "additionalColumns" ++
      memberIf s.Query.isSome "query" ++ memberIf s.QueryTimeout.isSome "queryTimeout" ++
      memberIf s.DisableMetricsCollection.isSome "disableMetricsCollection" ++
      memberIf s.MaxConcurrentConnections.isSome "maxConcurrentConnections" ++
      memberIf s.SourceRetryCount.isSome "sourceRetryCount" ++
      memberIf s.SourceRetryWait.isSome "sourceRetryWait"


/-- The zero value of `AzurePostgreSqlSource`: every pointer nil, `Type` empty. -/
def AzurePostgreSqlSource.zero : AzurePostgreSqlSource :=
  { AdditionalColumns := none, Query := none, QueryTimeout := none,
    DisableMetricsCollection := none, MaxConcurrentConnections := none,
    SourceRetryCount := none, SourceRetryWait := none, Type_ := "" }

/-- The zero value of `MagentoSource`. -/
def MagentoSource.zero : MagentoSource :=
  { AdditionalColumns := none, Query := none, QueryTimeout := none,
    DisableMetricsCollection := none, MaxConcurrentConnections := none,
    SourceRetryCount := none, SourceRetryWait := none, Type_ := "" }

/-- The zero value of `MicrosoftAccessSource`. -/
def MicrosoftAccessSource.zero : MicrosoftAccessSource :=
  { AdditionalColumns := none, Query := none,
    DisableMetricsCollection := none, MaxConcurrentConnections := none,
    SourceRetryCount := none, SourceRetryWait := none, Type_ := "" }

/-- The zero value of `PostgreSqlV2Source`. -/
def PostgreSqlV2Source.zero : PostgreSqlV2Source :=
  { AdditionalColumns := none, Query := none, QueryTimeout := none,
    DisableMetricsCollection := none, MaxConcurrentConnections := none,
    SourceRetryCount := none, SourceRetryWait := none, Type_ := "" }

/-- The field `Type` of a copy source. -/
def CopySource.Type_ : CopySource → String
  | .azurePostgreSql s => s.Type_
  | .magento s => s.Type_
  | .microsoftAccess s => s.Type_
  | .postgreSqlV2 s => s.Type_

/-- The copy source with `t` in its field `Type` and every other field as it is. -/
def CopySource.withType : CopySource → String → CopySource
  | .azurePostgreSql s, t => .azurePostgreSql { s with Type_ := t }
  | .magento s, t => .magento { s with Type_ := t }
  | .microsoftAccess s, t => .microsoftAccess { s with Type_ := t }
  | .postgreSqlV2 s, t => .postgreSqlV2 { s with Type_ := t }

/-- The members of the output of `MarshalJSON` in the byte order of their names:
each optional member when its pointer field is non-nil, and `type` at the end. -/
def CopySource.orderedMembers : CopySource → List String
  | .azurePostgreSql s =>
    memberIf s.AdditionalColumns.isSome "additionalColumns" ++
      memberIf s.DisableMetricsCollection.isSome "disableMetricsCollection" ++
      memberIf s.MaxConcurrentConnections.isSome "maxConcurrentConnections" ++
      memberIf s.Query.isSome "query" ++ memberIf s.QueryTimeout.isSome "queryTimeout" ++
      memberIf s.SourceRetryCount.isSome "sourceRetryCount" ++
      memberIf s.SourceRetryWait.isSome "sourceRetryWait" ++ ["type"]
  | .magento s =>
    memberIf s.AdditionalColumns.isSome "additionalColumns" ++
      memberIf s.DisableMetricsCollection.isSome "disableMetricsCollection" ++
      memberIf s.MaxConcurrentConnections.isSome "maxConcurrentConnections" ++
      memberIf s.Query.isSome "query" ++ memberIf s.QueryTimeout.isSome "queryTimeout" ++
      memberIf s.SourceRetryCount.isSome "sourceRetryCount" ++
      memberIf s.SourceRetryWait.isSome "sourceRetryWait" ++ ["type"]
  | .microsoftAccess s =>
    memberIf s.AdditionalColumns.isSome "additionalColumns" ++
      memberIf s.DisableMetricsCollection.isSome "disableMetricsCollection" ++
      memberIf s.MaxConcurrentConnections.isSome "maxConcurrentConnections" ++
      memberIf s.Query.isSome "query" ++ memberIf false "queryTimeout" ++
      memberIf s.SourceRetryCount.isSome "sourceRetryCount" ++
      memberIf s.SourceRetryWait.isSome "sourceRetryWait" ++ ["type"]
  | .postgreSqlV2 s =>
    memberIf s.AdditionalColumns.isSome "additionalColumns" ++
      memberIf s.DisableMetricsCollection.isSome "disableMetricsCollection" ++
      memberIf s.MaxConcurrentConnections.isSome "maxConcurrentConnections" ++
      memberIf s.Query.isSome "query" ++ memberIf s.QueryTimeout.isSome "queryTimeout" ++
      memberIf s.SourceRetryCount.isSome "sourceRetryCount" ++
      memberIf s.SourceRetryWait.isSome "sourceRetryWait" ++ ["type"]

/-- A `PostgreSqlV2Source` with a query and the metrics flag, for the examples. -/
def exampleSource : PostgreSqlV2Source :=
  { AdditionalColumns := none, Query := some (.str "select 1"), QueryTimeout := none,
    DisableMetricsCollection := some true, MaxConcurrentConnections := none,
    SourceRetryCount := none, SourceRetryWait := none, Type_ := "CopySource" }

/-- The values that the non-nil dynamic fields (`AdditionalColumns`, `Query`,
`QueryTimeout`, `SourceRetryWait`) of a copy source point to. -/
def CopySource.dynamicValues : CopySource → List GoValue
  | .azurePostgreSql s =>
    [s.AdditionalColumns, s.Query, s.QueryTimeout, s.SourceRetryWait].filterMap id
  | .magento s =>
    [s.AdditionalColumns, s.Query, s.QueryTimeout, s.SourceRetryWait].filterMap id
  | .microsoftAccess s => [s.AdditionalColumns, s.Query, s.SourceRetryWait].filterMap id
  | .postgreSqlV2 s =>
    [s.AdditionalColumns, s.Query, s.QueryTimeout, s.SourceRetryWait].filterMap id

/-- The integers that the non-nil `*int64` fields of a copy source point to. -/
def CopySource.int64Values : CopySource → List Int
  | .azurePostgreSql s => [s.MaxConcurrentConnections, s.SourceRetryCount].filterMap id
  | .magento s => [s.MaxConcurrentConnections, s.SourceRetryCount].filterMap id
  | .microsoftAccess s => [s.MaxConcurrentConnections, s.SourceRetryCount].filterMap id
  | .postgreSqlV2 s => [s.MaxConcurrentConnections, s.SourceRetryCount].filterMap id

/-- An `AzurePostgreSqlSource` whose `AdditionalColumns` points to ten thousand
slices, one inside the other. -/
def deepSource : AzurePostgreSqlSource :=
  { AzurePostgreSqlSource.zero with AdditionalColumns := some (json.nestedSlice 9999) }

/-- A `MagentoSource` whose `Type` names the variant and whose `Query` points to
a channel, which `json.Marshal` does not encode. -/
def channelSource : MagentoSource :=
  { MagentoSource.zero with Query := some (.unsupported "chan int"), Type_ := "MagentoSource" }

/-- A `MagentoSource` with plain JSON data in its dynamic fields. -/
def plainSource : MagentoSource :=
  { AdditionalColumns := some (.slice [.map [("name", .str "region"), ("value", .int 7),
      ("ratio", .fraction false 1 1), ("limit", .float64 false 1000000000000000000000)]]),
    Query := some (.str "select 1"), QueryTimeout := some (.str "02:00:00"),
    DisableMetricsCollection := some false, MaxConcurrentConnections := some 4,
    SourceRetryCount := none, SourceRetryWait := some .nil, Type_ := "" }

end pipelines

/-! ## The validator `AnalyticsUserItemID` -/

namespace validate

/-- The segments of a path: the pieces between the slashes, in order. -/
def splitSlash : List Char → List (List Char)
  | [] => [[]]
  | c :: cs =>
    if c = '/' then [] :: splitSlash cs
    else
      match splitSlash cs with
      | [] => [[c]]
      | seg :: segs => (c :: seg) :: segs

/-- Modelled from the spec: the parsed identifier of an analytics item (the type
`parse.AnalyticsUserItemId`, which is not among the sources), holding the values
of the five placeholders of the grammar
`/subscriptions/{id}/resourceGroups/{name}/providers/{ns}/components/{name}/myAnalyticsItems/{name}`. -/
structure AnalyticsUserItemId where
  SubscriptionId : String
  ResourceGroup : String
  Provider : String
  ComponentName : String
  MyAnalyticsItemName : String
  deriving DecidableEq, Repr

/-- Error text of the parser. -/
def errParse (input : String) : String :=
  "parsing " ++ input ++ " as an AnalyticsUserItem ID"

/-- Modelled from the spec: the parser `parse.AnalyticsUserItemID`, which is not
among the sources.  An identifier matches the fixed, case-sensitive grammar
`/subscriptions/{id}/resourceGroups/{name}/providers/{ns}/components/{name}/myAnalyticsItems/{name}`
when its segments are exactly these eleven, with the six fixed ones spelt as
shown and the five values non-empty; anything else is a parse failure. -/
def parseAnalyticsUserItemID (input : String) : Except String AnalyticsUserItemId :=
  match splitSlash input.data with
  | [e, k1, sub, k2, grp, k3, ns, k4, comp, k5, item] =>
    if e = [] ∧ k1 = "subscriptions".data ∧ sub ≠ [] ∧ k2 = "resourceGroups".data ∧ grp ≠ [] ∧
        k3 = "providers".data ∧ ns ≠ [] ∧ k4 = "components".data ∧ comp ≠ [] ∧
        k5 = "myAnalyticsItems".data ∧ item ≠ [] then
      .ok { SubscriptionId := String.mk sub, ResourceGroup := String.mk grp,
            Provider := String.mk ns, ComponentName := String.mk comp,
            MyAnalyticsItemName := String.mk item }
    else .error (errParse input)
  | _ => .error (errParse input)

/-- Modelled from the spec: the formatter of a parsed identifier (the method
`ID()`, which is not among the sources): the grammar with the values filled in. -/
def AnalyticsUserItemId.ID (id : AnalyticsUserItemId) : String :=
  "/subscriptions/" ++ id.SubscriptionId ++ "/resourceGroups/" ++ id.ResourceGroup ++
    "/providers/" ++ id.Provider ++ "/components/" ++ id.ComponentName ++
    "/myAnalyticsItems/" ++ id.MyAnalyticsItemName

/-- Modelled from the spec: the validator `AnalyticsUserItemID(input, key)`, which
is not among the sources (only its test is).  It returns the warnings and the
errors: no warning ever, and one error exactly when the input does not parse. -/
def AnalyticsUserItemID (input : String) (_key : String) : List String × List String :=
  match parseAnalyticsUserItemID input with
  | .ok _ => ([], [])
  | .error e => ([], [e])

/-- The table `cases` of `TestAnalyticsUserItemID`: each input with its `Valid`. -/
def testCases : List (String × Bool) :=
  [ ("", false),
    ("/", false),
    ("/subscriptions/", false),
    ("/subscriptions/12345678-1234-9876-4563-123456789012/", false),
    ("/subscriptions/12345678-1234-9876-4563-123456789012/resourceGroups/", false),
    ("/subscriptions/12345678-1234-9876-4563-123456789012/resourceGroups/group1/providers/Microsoft.Insights/", false),
    ("/subscriptions/12345678-1234-9876-4563-123456789012/resourceGroups/group1/providers/Microsoft.Insights/components/", false),
    ("/subscriptions/12345678-1234-9876-4563-123456789012/resourceGroups/group1/providers/Microsoft.Insights/components/component1/", false),
    ("/subscriptions/12345678-1234-9876-4563-123456789012/resourceGroups/group1/providers/Microsoft.Insights/components/component1/myAnalyticsItems/", false),
    ("/subscriptions/12345678-1234-9876-4563-123456789012/resourceGroups/group1/providers/Microsoft.Insights/components/component1/myAnalyticsItems/item1", true),
    ("/SUBSCRIPTIONS/12345678-1234-9876-4563-123456789012/RESOURCEGROUPS/GROUP1/PROVIDERS/MICROSOFT.INSIGHTS/COMPONENTS/COMPONENT1/MYANALYTICSITEMS/ITEM1", false) ]

/-- The loop of `TestAnalyticsUserItemID`: the test passes when, for every case,
`len(errors) == 0` is the expected `Valid`. -/
def TestAnalyticsUserItemID : Bool :=
  testCases.all (fun tc => decide (tc.2 = (AnalyticsUserItemID tc.1 "test").2.isEmpty))

/-- The identifier of the grammar for the four values of a claim, under the
provider namespace `Microsoft.Insights`. -/
def buildId (sub group component item : String) : String :=
  "/subscriptions/" ++ sub ++ "/resourceGroups/" ++ group ++
    "/providers/Microsoft.Insights/components/" ++ component ++ "/myAnalyticsItems/" ++ item

/-- The part of `buildId` up to and including the final `/myAnalyticsItems/`. -/
def buildStem (sub group component : String) : String :=
  "/subscriptions/" ++ sub ++ "/resourceGroups/" ++ group ++
    "/providers/Microsoft.Insights/components/" ++ component ++ "/myAnalyticsItems/"

/-- A segment value of the grammar: not empty and without a slash. -/
def IsSegment (s : String) : Prop := s.data ≠ [] ∧ '/' ∉ s.data

/-- Upper-casing of a whole string, character by character. -/
def upperCase (s : String) : String := String.mk (s.data.map Char.toUpper)

end validate

/-! ## Formatting (`fmt`) and case folding (`strings`) -/

namespace fmt

/-- An operand of `Sprintf`.  An operand that is an `error` or has a `String`
method is given as the string that `Error()` or `String()` returns, which is
what the verbs `s` and `v` print for it. -/
inductive Arg where
  | int (i : Int)
  | str (s : String)

/-- One item of a format: a character of literal text, a verb with its flag `+`
and its explicit argument index, or a `%` at the end of the format. -/
inductive Directive where
  | text (c : Char)
  | verb (plus : Bool) (index : Option Nat) (v : Char)
  | noVerb
  deriving DecidableEq

/-- Where the scanner of a format is: in literal text, after a `%` and its flags,
inside an argument index `[n]`, or after one. -/
inductive ScanState where
  | literal
  | flags (plus : Bool)
  | index (plus : Bool) (n : Nat)
  | indexed (plus : Bool) (n : Nat)

/-- The items of a format, read character by character.  The fragment of Go's
formats that is read: literal text, `%%`, the flag `+`, an argument index `[n]`
and a verb of one character (no width, no precision, no other flag). -/
def scan : ScanState → List Char → List Directive
  | .literal, [] => []
  | .literal, c :: cs =>
    if c = '%' then scan (.flags false) cs else .text c :: scan .literal cs
  | .flags _, [] => [.noVerb]
  | .flags plus, c :: cs =>
    if c = '+' then scan (.flags true) cs
    else if c = '[' then scan (.index plus 0) cs
    else .verb plus none c :: scan .literal cs
  | .index _ _, [] => [.noVerb]
  | .index plus n, c :: cs =>
    if c = ']' then scan (.indexed plus n) cs
    else scan (.index plus (10 * n + (c.toNat - 48))) cs
  | .indexed _ _, [] => [.noVerb]
  | .indexed plus n, c :: cs => .verb plus (some n) c :: scan .literal cs

/-- Decimal digits of an integer, with `-` for a negative one and, under the
flag `+`, with `+` for the others. -/
def formatInt (plus : Bool) (i : Int) : List Char :=
  if i < 0 then '-' :: Json.natDigits i.natAbs
  else if plus then '+' :: Json.natDigits i.natAbs
  else Json.natDigits i.natAbs

/-- What a verb prints for an operand: `s` and `v` the text of a string, `d` and
`v` the digits of an integer, and Go's complaint about a verb that does not fit
the operand (`q`, `x` and the other verbs that Go knows are not modelled). -/
def printArg (plus : Bool) (v : Char) : Arg → List Char
  | .str s =>
    if v = 's' ∨ v = 'v' then s.data
    else '%' :: '!' :: v :: ("(string=".data ++ s.data ++ [')'])
  | .int i =>
    if v = 'd' then formatInt plus i
    else if v = 'v' then formatInt false i
    else '%' :: '!' :: v :: ("(int=".data ++ formatInt false i ++ [')'])

/-- The text `type=value` of an operand that no verb used. -/
def extraArg : Arg → List Char
  | .str s => "string=".data ++ s.data
  | .int i => "int=".data ++ formatInt false i

/-- The complaint about operands that no verb used. -/
def extraArgs (rest : List Arg) : List Char :=
  "%!(EXTRA ".data ++ ", ".data.intercalate (rest.map extraArg) ++ [')']

/-- The output of the items of a format for the operands `args`; `argNum` is the
operand that the next verb without an index takes and `reordered` says that an
index was met.  A verb with the index `n` takes the operand `n`, counted from
one, and the verbs after it go on from there. -/
def run (args : List Arg) : List Directive → Nat → Bool → List Char
  | [], argNum, reordered =>
    if !reordered && decide (argNum < args.length) then extraArgs (args.drop argNum) else []
  | .text c :: ds, argNum, reordered => c :: run args ds argNum reordered
  | .noVerb :: ds, argNum, reordered => "%!(NOVERB)".data ++ run args ds argNum reordered
  | .verb plus index v :: ds, argNum, reordered =>
    match index with
    | some n =>
      if n = 0 ∨ args.length < n then
        '%' :: '!' :: v :: ("(BADINDEX)".data ++ run args ds argNum true)
      else if v = '%' then '%' :: run args ds (n - 1) true
      else
        match args.get? (n - 1) with
        | some a => printArg plus v a ++ run args ds n true
        | none => '%' :: '!' :: v :: ("(MISSING)".data ++ run args ds (n - 1) true)
    | none =>
      if v = '%' then '%' :: run args ds argNum reordered
      else
        match args.get? argNum with
        | some a => printArg plus v a ++ run args ds (argNum + 1) reordered
        | none => '%' :: '!' :: v :: ("(MISSING)".data ++ run args ds argNum reordered)

/-- The function `fmt.Sprintf`. -/
def Sprintf (format : String) (args : List Arg) : String :=
  String.mk (run args (scan .literal format.data) 0 false)

/-- The text of the error that `fmt.Errorf` returns. -/
def Errorf (format : String) (args : List Arg) : String := Sprintf format args

end fmt

namespace strings

/-- Whether two characters are equal under case folding: they are equal, or one
is an ASCII capital and the other its small letter.  Unicode's simple folding
pairs no character outside ASCII with a letter other than `K`, `k`, `S` and `s`,
and those four do not occur in the text that this development folds against. -/
def foldEq (a b : Char) : Bool :=
  a = b ∨ ('A'.toNat ≤ a.toNat ∧ a.toNat ≤ 'Z'.toNat ∧ b.toNat = a.toNat + 32) ∨
    ('A'.toNat ≤ b.toNat ∧ b.toNat ≤ 'Z'.toNat ∧ a.toNat = b.toNat + 32)

/-- The function `strings.EqualFold` on the characters of two strings. -/
def equalFoldChars : List Char → List Char → Bool
  | [], [] => true
  | a :: as, b :: bs => foldEq a b && equalFoldChars as bs
  | _, _ => false

/-- The function `strings.EqualFold`. -/
def EqualFold (s t : String) : Bool := equalFoldChars s.data t.data

end strings

/-! ## The acceptance test of the Linux function app slot (`appservice_test`) -/

namespace appservice

/-- Modelled from the spec: the declaration of `acceptance.TestData` is not among
the sources.  These are the fields that the config builders read, with the types
that their verbs ask for. -/
structure Locations where
  Primary : String

/-- Modelled from the spec: the test data `acceptance.TestData`, whose declaration
is not among the sources, with the fields that the config builders read. -/
structure TestData where
  RandomInteger : Int
  RandomString : String
  Locations : Locations

/-- The struct `LinuxFunctionAppSlotResource`, which has no field. -/
structure LinuxFunctionAppSlotResource where
  deriving DecidableEq

/-- What `Exists` calls outside its file, as parameters: the parser
`webapps.ParseSlotID` (an identifier, or the text of its error), the method
`String` of an identifier, the call `GetSlot` of the web apps client (its
response, and the text of its error if it returned one) and the test
`response.WasNotFound` on the HTTP response inside that response. -/
structure SlotAPI (Id Resp : Type) where
  ParseSlotID : String → Except String Id
  idString : Id → String
  GetSlot : Id → Resp × Option String
  WasNotFound : Resp → Bool

/-- What a call of `Exists` did: the `*bool` and the error that it returned
(`none` is nil) and the `GetSlot` calls that it made, in order. -/
structure ExistsOutcome (Id : Type) where
  result : Option Bool
  err : Option String
  calls : List Id

/-- The method `LinuxFunctionAppSlotResource.Exists`; `stateID` is `state.ID`. -/
def LinuxFunctionAppSlotResource.Exists {Id Resp : Type} (_r : LinuxFunctionAppSlotResource)
    (api : SlotAPI Id Resp) (stateID : String) : ExistsOutcome Id :=
  match api.ParseSlotID stateID with
  | .error err => { result := none, err := some err, calls := [] }
  | .ok id =>
    match api.GetSlot id with
    | (resp, some err) =>
      if api.WasNotFound resp then { result := some false, err := none, calls := [id] }
      else
        { result := none
          err := some (fmt.Errorf "retrieving Linux Function App %s: %+v"
            [.str (api.idString id), .str err])
          calls := [id] }
    | (resp, none) =>
      if api.WasNotFound resp then { result := some false, err := none, calls := [id] }
      else { result := some true, err := none, calls := [id] }

/-- The method `LinuxFunctionAppSlotResource.template`. -/
def LinuxFunctionAppSlotResource.template (_r : LinuxFunctionAppSlotResource)
    (data : TestData) (planSku : String) : String :=
  let additionalConfig : String :=
    if strings.EqualFold planSku "EP1" then "maximum_elastic_worker_count = 5" else ""
  fmt.Sprintf (
    "\n" ++
    "resource \"azurerm_resource_group\" \"test\" \x7b\n" ++
    "  name     = \"acctestRG-LFA-%[1]d\"\n" ++
    "  location = \"%[2]s\"\n" ++
    "\x7d\n" ++
    "\n" ++
    "resource \"azurerm_storage_account\" \"test\" \x7b\n" ++
    "  name                     = \"acctestsa%[3]s\"\n" ++
    "  resource_group_name      = azurerm_resource_group.test.name\n" ++
    "  location                 = azurerm_resource_group.test.location\n" ++
    "  account_tier             = \"Standard\"\n" ++
    "  account_replication_type = \"LRS\"\n" ++
    "\x7d\n" ++
    "\n" ++
    "resource \"azurerm_service_plan\" \"test\" \x7b\n" ++
    "  name                = \"acctestASP-%[1]d\"\n" ++
    "  location            = azurerm_resource_group.test.location\n" ++
    "  resource_group_name = azurerm_resource_group.test.name\n" ++
    "  os_type             = \"Linux\"\n" ++
    "  sku_name            = \"%[4]s\"\n" ++
    "  %[5]s\n" ++
    "\x7d\n" ++
    "\n" ++
    "resource \"azurerm_linux_function_app\" \"test\" \x7b\n" ++
    "  name                = \"acctest-LFA-%[1]d\"\n" ++
    "  location            = azurerm_resource_group.test.location\n" ++
    "  resource_group_name = azurerm_resource_group.test.name\n" ++
    "  service_plan_id     = azurerm_service_plan.test.id\n" ++
    "\n" ++
    "  storage_account_name       = azurerm_storage_account.test.name\n" ++
    "  storage_account_access_key = azurerm_storage_account.test.primary_access_key\n" ++
    "\n" ++
    "  site_config \x7b\x7d\n" ++
    "\x7d\n")
    [.int data.RandomInteger, .str data.Locations.Primary, .str data.RandomString,
      .str planSku, .str additionalConfig]

/-- The method `LinuxFunctionAppSlotResource.healthCheckPath`. -/
def LinuxFunctionAppSlotResource.healthCheckPath (r : LinuxFunctionAppSlotResource)
    (data : TestData) (planSku : String) : String :=
  fmt.Sprintf (
    "\n" ++
    "provider \"azurerm\" \x7b\n" ++
    "  features \x7b\x7d\n" ++
    "\x7d\n" ++
    "\n" ++
    "%s\n" ++
    "\n" ++
    "resource \"azurerm_linux_function_app_slot\" \"test\" \x7b\n" ++
    "  name                       = \"acctest-LFAS-%d\"\n" ++
    "  function_app_id            = azurerm_linux_function_app.test.id\n" ++
    "  storage_account_name       = azurerm_storage_account.test.name\n" ++
    "  storage_account_access_key = azurerm_storage_account.test.primary_access_key\n" ++
    "\n" ++
    "  site_config \x7b\n" ++
    "    health_check_path                 = \"/health\"\n" ++
    "    health_check_eviction_time_in_min = 3\n" ++
    "  \x7d\n" ++
    "\x7d\n")
    [.str (r.template data planSku), .int data.RandomInteger]

/-- The method `LinuxFunctionAppSlotResource.healthCheckPathWithEviction`. -/
def LinuxFunctionAppSlotResource.healthCheckPathWithEviction (r : LinuxFunctionAppSlotResource)
    (data : TestData) (planSku : String) : String :=
  fmt.Sprintf (
    "\n" ++
    "provider \"azurerm\" \x7b\n" ++
    "  features \x7b\x7d\n" ++
    "\x7d\n" ++
    "\n" ++
    "%s\n" ++
    "\n" ++
    "resource \"azurerm_linux_function_app_slot\" \"test\" \x7b\n" ++
    "  name                       = \"acctest-LFAS-%d\"\n" ++
    "  function_app_id            = azurerm_linux_function_app.test.id\n" ++
    "  storage_account_name       = azurerm_storage_account.test.name\n" ++
    "  storage_account_access_key = azurerm_storage_account.test.primary_access_key\n" ++
    "\n" ++
    "  site_config \x7b\n" ++
    "    health_check_path                 = \"/health\"\n" ++
    "    health_check_eviction_time_in_min = 3\n" ++
    "  \x7d\n" ++
    "\x7d\n")
    [.str (r.template data planSku), .int data.RandomInteger]

/-- The lines of a text: the pieces between the line feeds, in order. -/
def splitLines : List Char → List (List Char)
  | [] => [[]]
  | c :: cs =>
    if c = '\n' then [] :: splitLines cs
    else
      match splitLines cs with
      | [] => [[c]]
      | l :: ls => (c :: l) :: ls

/-- A line without the blanks and tabs that it starts with. -/
def trimLeft : List Char → List Char
  | [] => []
  | c :: cs => if c = ' ' ∨ c = '\t' then trimLeft cs else c :: cs

/-- The body of the first block of a configuration that the line `header` opens:
the lines after that line, up to the first line that is a closing brace. -/
def blockOf (header : String) (ls : List (List Char)) : List (List Char) :=
  ((ls.dropWhile (fun l => l != header.data)).drop 1).takeWhile (fun l => l != ['}'])

/-- The body of the block `azurerm_service_plan` of a configuration. -/
def servicePlanBlock (config : String) : List (List Char) :=
  blockOf "resource \"azurerm_service_plan\" \"test\" \x7b" (splitLines config.data)

/-- Whether one of the lines is `line`, indentation aside. -/
def hasLine (line : String) (ls : List (List Char)) : Bool :=
  ls.any (fun l => trimLeft l == line.data)

/-- Test data for the examples. -/
def exampleData : TestData :=
  { RandomInteger := 240101, RandomString := "k3x9q", Locations := { Primary := "westeurope" } }

/-- A plan SKU that holds a line break: the name `B1`, the closing quote, and
two more lines of configuration. -/
def injectedSku : String :=
  "B1\"\n  maximum_elastic_worker_count = 5\n  per_site_scaling_enabled = \"false"

/-- The configuration of the step of `TestAccLinuxFunctionAppSlot_healthCheckPath`. -/
def TestAccLinuxFunctionAppSlot_healthCheckPath (data : TestData) : String :=
  LinuxFunctionAppSlotResource.healthCheckPath {} data "S1"

/-- The configuration of the step of
`TestAccLinuxFunctionAppSlot_healthCheckPathWithEviction`. -/
def TestAccLinuxFunctionAppSlot_healthCheckPathWithEviction (data : TestData) : String :=
  LinuxFunctionAppSlotResource.healthCheckPathWithEviction {} data "S1"

/-- A slot API for the examples: the identifier `/slot/found` exists, the call
for `/slot/gone` answers 404 with an error, the one for `/slot/lost` answers 404
without an error, any other call fails with status 500; an identifier parses when
it starts with a slash. -/
def exampleAPI : SlotAPI String Nat where
  ParseSlotID := fun input =>
    match input.data with
    | '/' :: _ => .ok input
    | _ => .error ("parsing " ++ input ++ " as a slot ID")
  idString := fun id => id
  GetSlot := fun id =>
    if id = "/slot/found" then (200, none)
    else if id = "/slot/gone" then (404, some "not found")
    else if id = "/slot/lost" then (404, none)
    else (500, some "internal error")
  WasNotFound := fun status => status == 404

end appservice

/-! ## Auxiliary notions of the proofs -/

namespace Json

/-- Value of a run of digits read from the left, starting from `acc`. -/
def digitsValue (acc : Nat) (ds : List Char) : Nat :=
  ds.foldl (fun a c => 10 * a + (c.toNat - 48)) acc

/-- The input after a value that `render` wrote inside a document: nothing, or
a comma, a closing bracket or a closing brace. -/
def EndsValue (rest : List Char) : Prop :=
  ∀ c cs, rest = c :: cs → c = ',' ∨ c = ']' ∨ c = '}'

/-- The characters that a rendered value starts with. -/
def StartsValue (c : Char) : Prop :=
  c = 'n' ∨ c = 't' ∨ c = 'f' ∨ c = '"' ∨ c = '-' ∨ c = '[' ∨ c = '{' ∨ isDigit c = true

end Json

namespace json

/-- The entries of a map are in strictly ascending key order. -/
def KeysSorted {α : Type} (l : List (String × α)) : Prop :=
  l.Pairwise (fun a b => keyLt a.1.data b.1.data = true)

/-- The encoder accepts the value. -/
def Marshals (g : GoValue) : Prop := ∃ j, marshalValue g = .ok j

end json

namespace appservice

/-- A piece of a line of a generated text: text of the format, or text that a
verb printed. -/
inductive Piece where
  | lit (s : String)
  | sym (cs : List Char)

/-- The characters of a piece. -/
def Piece.chars : Piece → List Char
  | .lit s => s.data
  | .sym cs => cs

/-- The pieces of a line, followed by `rest`. -/
def flattenLine : List Piece → List Char → List Char
  | [], rest => rest
  | p :: ps, rest => p.chars ++ flattenLine ps rest

/-- The text of lines given by their pieces, a line feed between two lines. -/
def flatten : List (List Piece) → List Char
  | [] => []
  | [l] => flattenLine l []
  | l :: l2 :: ls => flattenLine l ('\n' :: flatten (l2 :: ls))

/-- No text of the format among the pieces holds a line feed. -/
def litsOneLine (ls : List (List Piece)) : Bool :=
  ls.all (fun l => l.all (fun p =>
    match p with
    | .lit s => !s.data.contains '\n'
    | .sym _ => true))

/-- The printed texts among the pieces, in order. -/
def symsOf : List (List Piece) → List (List Char)
  | [] => []
  | l :: ls => l.filterMap (fun p =>
      match p with
      | .lit _ => none
      | .sym cs => some cs) ++ symsOf ls

/-- The lines that `template` writes, in pieces. -/
def templateLines (data : TestData) (planSku additionalConfig : String) : List (List Piece) :=
  [[],
    [.lit "resource \"azurerm_resource_group\" \"test\" \x7b"],
    [.lit "  name     = \"acctestRG-LFA-", .sym (fmt.formatInt false data.RandomInteger), .lit "\""],
    [.lit "  location = \"", .sym data.Locations.Primary.data, .lit "\""],
    [.lit "\x7d"],
    [],
    [.lit "resource \"azurerm_storage_account\" \"test\" \x7b"],
    [.lit "  name                     = \"acctestsa", .sym data.RandomString.data, .lit "\""],
    [.lit "  resource_group_name      = azurerm_resource_group.test.name"],
    [.lit "  location                 = azurerm_resource_group.test.location"],
    [.lit "  account_tier             = \"Standard\""],
    [.lit "  account_replication_type = \"LRS\""],
    [.lit "\x7d"],
    [],
    [.lit "resource \"azurerm_service_plan\" \"test\" \x7b"],
    [.lit "  name                = \"acctestASP-", .sym (fmt.formatInt false data.RandomInteger), .lit "\""],
    [.lit "  location            = azurerm_resource_group.test.location"],
    [.lit "  resource_group_name = azurerm_resource_group.test.name"],
    [.lit "  os_type             = \"Linux\""],
    [.lit "  sku_name            = \"", .sym planSku.data, .lit "\""],
    [.lit "  ", .sym additionalConfig.data],
    [.lit "\x7d"],
    [],
    [.lit "resource \"azurerm_linux_function_app\" \"test\" \x7b"],
    [.lit "  name                = \"acctest-LFA-", .sym (fmt.formatInt false data.RandomInteger), .lit "\""],
    [.lit "  location            = azurerm_resource_group.test.location"],
    [.lit "  resource_group_name = azurerm_resource_group.test.name"],
    [.lit "  service_plan_id     = azurerm_service_plan.test.id"],
    [],
    [.lit "  storage_account_name       = azurerm_storage_account.test.name"],
    [.lit "  storage_account_access_key = azurerm_storage_account.test.primary_access_key"],
    [],
    [.lit "  site_config \x7b\x7d"],
    [.lit "\x7d"],
    []]

/-- The lines that `healthCheckPath` writes, in pieces; `template` is the text of
the shared template, which is several lines. -/
def healthCheckLines (data : TestData) (template : String) : List (List Piece) :=
  [[],
    [.lit "provider \"azurerm\" \x7b"],
    [.lit "  features \x7b\x7d"],
    [.lit "\x7d"],
    [],
    [.sym template.data],
    [],
    [.lit "resource \"azurerm_linux_function_app_slot\" \"test\" \x7b"],
    [.lit "  name                       = \"acctest-LFAS-", .sym (fmt.formatInt false data.RandomInteger), .lit "\""],
    [.lit "  function_app_id            = azurerm_linux_function_app.test.id"],
    [.lit "  storage_account_name       = azurerm_storage_account.test.name"],
    [.lit "  storage_account_access_key = azurerm_storage_account.test.primary_access_key"],
    [],
    [.lit "  site_config \x7b"],
    [.lit "    health_check_path                 = \"/health\""],
    [.lit "    health_check_eviction_time_in_min = 3"],
    [.lit "  \x7d"],
    [.lit "\x7d"],
    []]

end appservice

namespace json

/-- The document that `nestedSlice n` is encoded to. -/
def nestedArr : Nat → Json
  | 0 => .arr []
  | n + 1 => .arr [nestedArr n]

/-- The encoder accepts the value, the document is nested no deeper than the
value, and the decoder accepts the document. -/
def Encodes (g : GoValue) : Prop :=
  ∃ j, marshalValue g = .ok j ∧ Json.depth j ≤ nesting g ∧ ∃ g2, toGo j = .ok g2

/-- The encoder accepts the value of a field, the document is nested less deep
than the decoder's limit, and the decoder accepts it. -/
def FieldEncodes (g : GoValue) : Prop :=
  ∃ j, marshalValue g = .ok j ∧ Json.depth j < Json.maxNestingDepth ∧ ∃ g2, toGo j = .ok g2

end json

/-! ## Reading back what the encoder wrote -/

namespace Json

theorem natDigitsF_fuel (f1 : Nat) : ∀ (f2 n : Nat), n ≤ f1 → n ≤ f2 →
    natDigitsF f1 n = natDigitsF f2 n := by
  induction f1 with
  | zero =>
    intro f2 n h1 h2
    have hn : n = 0 := by omega
    subst hn
    cases f2 <;> simp [natDigitsF]
  | succ f1 ih =>
    intro f2 n h1 h2
    cases f2 with
    | zero =>
      have hn : n = 0 := by omega
      subst hn
      simp [natDigitsF]
    | succ f2 =>
      simp only [natDigitsF]
      by_cases h : n < 10
      · simp [h]
      · simp only [h, if_false]
        rw [ih f2 (n / 10) (by omega) (by omega)]

theorem natDigits_small (n : Nat) (h : n < 10) : natDigits n = [digitChar n] := by
  unfold natDigits
  cases n with
  | zero => simp [natDigitsF]
  | succ m => simp [natDigitsF, h]

theorem natDigits_step (n : Nat) (h : 10 ≤ n) :
    natDigits n = natDigits (n / 10) ++ [digitChar (n % 10)] := by
  unfold natDigits
  cases n with
  | zero => omega
  | succ m =>
    have h1 : ¬ (m + 1 < 10) := by omega
    simp only [natDigitsF, h1, if_false]
    rw [natDigitsF_fuel m ((m + 1) / 10) ((m + 1) / 10) (by omega) (le_refl _)]

theorem digitChar_spec : ∀ d, d < 10 →
    isDigit (digitChar d) = true ∧ (digitChar d).toNat = 48 + d := by decide

theorem digitChar_zero_iff : ∀ d, d < 10 → (digitChar d = '0' ↔ d = 0) := by decide

theorem natDigits_spec (n : Nat) :
    (∀ c ∈ natDigits n, isDigit c = true) ∧ digitsValue 0 (natDigits n) = n ∧
      ∃ c cs, natDigits n = c :: cs ∧ (c = '0' ↔ n = 0) := by
  induction n using Nat.strong_induction_on with
  | _ n ih =>
    by_cases h : n < 10
    · rw [natDigits_small n h]
      have hd := digitChar_spec n h
      refine ⟨?_, ?_, digitChar n, [], rfl, digitChar_zero_iff n h⟩
      · intro c hc
        simp only [List.mem_singleton] at hc
        rw [hc]; exact hd.1
      · simp [digitsValue, hd.2]
    · have h10 : 10 ≤ n := by omega
      rw [natDigits_step n h10]
      obtain ⟨ih1, ih2, c, cs, ih3, ih4⟩ := ih (n / 10) (by omega)
      have hd := digitChar_spec (n % 10) (Nat.mod_lt _ (by omega))
      refine ⟨?_, ?_, c, cs ++ [digitChar (n % 10)], ?_, ?_⟩
      · intro x hx
        rcases List.mem_append.1 hx with hx | hx
        · exact ih1 x hx
        · simp only [List.mem_singleton] at hx
          rw [hx]; exact hd.1
      · unfold digitsValue at ih2 ⊢
        rw [List.foldl_append, ih2]
        simp only [List.foldl_cons, List.foldl_nil, hd.2]
        omega
      · rw [ih3]; rfl
      · rw [ih4]; omega

theorem readDigits_append (ds rest : List Char) (hds : ∀ c ∈ ds, isDigit c = true)
    (hrest : ∀ c cs, rest = c :: cs → isDigit c = false) (acc : Nat) :
    readDigits acc (ds ++ rest) = (digitsValue acc ds, rest) := by
  induction ds generalizing acc with
  | nil =>
    cases rest with
    | nil => rfl
    | cons c cs => simp [readDigits, hrest c cs rfl, digitsValue]
  | cons d ds ih =>
    have hd : isDigit d = true := hds d (List.mem_cons_self _ _)
    have hstep : readDigits acc (d :: (ds ++ rest)) =
        readDigits (10 * acc + (d.toNat - 48)) (ds ++ rest) := by
      simp only [readDigits, hd, if_true]
    rw [List.cons_append, hstep, ih (fun c hc => hds c (List.mem_cons_of_mem _ hc))]
    rfl

theorem finishNumber_ends (neg : Bool) (mag : Nat) (rest : List Char) (h : EndsValue rest) :
    finishNumber neg mag rest = .ok (.num neg mag, rest) := by
  cases rest with
  | nil => rfl
  | cons c cs =>
    have hc := h c cs rfl
    have h1 : ¬ c = '.' := by rcases hc with hc | hc | hc <;> subst hc <;> decide
    have h2 : ¬ (c = 'e' ∨ c = 'E') := by
      rcases hc with hc | hc | hc <;> subst hc <;> decide
    simp only [finishNumber, h1, h2, if_false]

/-- The integer part of a literal is read up to the first character that is no
digit. -/
theorem parseNumber_natDigits_then (neg : Bool) (n : Nat) (rest : List Char)
    (hrest : ∀ c cs, rest = c :: cs → isDigit c = false) :
    parseNumber neg (natDigits n ++ rest) = finishNumber neg n rest := by
  obtain ⟨h1, h2, c, cs, h3, h4⟩ := natDigits_spec n
  by_cases hn : n = 0
  · subst hn
    rw [natDigits_small 0 (by omega)]
    simp only [List.singleton_append, parseNumber]
    have : digitChar 0 = '0' := by decide
    simp only [this, if_true]
  · have hc0 : ¬ c = '0' := fun hc => hn (h4.1 hc)
    have hcd : isDigit c = true := h1 c (by rw [h3]; exact List.mem_cons_self _ _)
    have hrd := readDigits_append (natDigits n) rest h1 hrest 0
    rw [h2] at hrd
    rw [h3] at hrd ⊢
    simp only [List.cons_append] at hrd ⊢
    simp only [parseNumber, hc0, if_false, hcd, if_true, hrd]

theorem EndsValue.not_digit {rest : List Char} (h : EndsValue rest) :
    ∀ c cs, rest = c :: cs → isDigit c = false := by
  intro c cs hc
  rcases h c cs hc with hc | hc | hc <;> subst hc <;> decide

theorem parseNumber_natDigits (neg : Bool) (n : Nat) (rest : List Char) (h : EndsValue rest) :
    parseNumber neg (natDigits n ++ rest) = .ok (.num neg n, rest) := by
  rw [parseNumber_natDigits_then neg n rest h.not_digit]
  exact finishNumber_ends neg n rest h

theorem digitOf_digitChar : ∀ d : Fin 10, digitOf (digitChar d.val) = d := by decide

theorem isDigit_digitChar : ∀ d : Fin 10, isDigit (digitChar d.val) = true := by decide

theorem digitChar_ne_marks : ∀ d : Fin 10,
    digitChar d.val ≠ '+' ∧ digitChar d.val ≠ '-' ∧ digitChar d.val ≠ '.' ∧
      digitChar d.val ≠ 'e' ∧ digitChar d.val ≠ 'E' := by decide

theorem readDigitList_render (ds : List (Fin 10)) (rest : List Char)
    (hrest : ∀ c cs, rest = c :: cs → isDigit c = false) :
    readDigitList (renderDigits ds ++ rest) = (ds, rest) := by
  induction ds with
  | nil =>
    cases rest with
    | nil => rfl
    | cons c cs => simp [renderDigits, readDigitList, hrest c cs rfl]
  | cons d ds ih =>
    have hd := isDigit_digitChar d
    simp only [renderDigits, List.map_cons, List.cons_append, readDigitList, hd, if_true,
      List.append_eq]
    simp only [renderDigits] at ih
    rw [ih, digitOf_digitChar]

/-- The exponent that `renderExponent` wrote is read back, the letter aside. -/
theorem parseExponent_render (e : Exponent) (rest : List Char)
    (hrest : ∀ c cs, rest = c :: cs → isDigit c = false) :
    parseExponent e.upper (renderSign e.sign ++ renderDigits (e.digit :: e.digits) ++ rest) =
      .ok (e, rest) := by
  obtain ⟨upper, sign, d, ds⟩ := e
  have hd := isDigit_digitChar d
  have hm := digitChar_ne_marks d
  have hr := readDigitList_render ds rest hrest
  simp only [renderDigits] at hr
  cases sign with
  | none =>
    simp only [renderSign, renderDigits, List.map_cons, List.nil_append, List.cons_append,
      parseExponent, hm.1, hm.2.1, or_self, if_false, hd, if_true, hr, digitOf_digitChar]
  | some b =>
    cases b
    · simp only [renderSign, renderDigits, List.map_cons, List.cons_append, List.nil_append,
        parseExponent, true_or, if_true, hd, hr, digitOf_digitChar]
      rfl
    · simp only [renderSign, renderDigits, List.map_cons, List.cons_append, List.nil_append,
        parseExponent, or_true, if_true, hd, hr, digitOf_digitChar]
      rfl

theorem renderExponent_cons (e : Exponent) :
    renderExponent e =
      (if e.upper then 'E' else 'e') ::
        (renderSign e.sign ++ renderDigits (e.digit :: e.digits)) := rfl

theorem finishFraction_render (neg : Bool) (mag : Nat) (d : Fin 10) (ds : List (Fin 10))
    (exp : Option Exponent) (rest : List Char) (h : EndsValue rest) :
    finishFraction neg mag d ds
        ((match exp with
          | none => []
          | some e => renderExponent e) ++ rest) =
      .ok (.dec neg mag (.frac d ds exp), rest) := by
  cases exp with
  | none =>
    cases rest with
    | nil => rfl
    | cons c cs =>
      have hc := h c cs rfl
      have h2 : ¬ (c = 'e' ∨ c = 'E') := by
        rcases hc with hc | hc | hc <;> subst hc <;> decide
      simp only [List.nil_append, finishFraction, h2, if_false]
  | some e =>
    have hp := parseExponent_render e rest h.not_digit
    obtain ⟨upper, sign, d1, ds1⟩ := e
    cases upper
    · simp only [renderExponent_cons, Bool.false_eq_true, if_false, List.cons_append,
        finishFraction, true_or, if_true]
      have : decide ('e' = 'E') = false := by decide
      rw [this]
      simp only [List.append_assoc] at hp ⊢
      rw [hp]
    · simp only [renderExponent_cons, if_true, List.cons_append,
        finishFraction, or_true]
      simp only [decide_True]
      simp only [List.append_assoc] at hp ⊢
      rw [hp]

/-- What `renderTail` wrote after the integer part is read back. -/
theorem finishNumber_render (neg : Bool) (mag : Nat) (tail : NumberTail) (rest : List Char)
    (h : EndsValue rest) :
    finishNumber neg mag (renderTail tail ++ rest) = .ok (.dec neg mag tail, rest) := by
  cases tail with
  | frac d ds exp =>
    have hd := isDigit_digitChar d
    have hf := finishFraction_render neg mag d ds exp rest h
    cases exp with
    | none =>
      simp only [renderTail, renderDigits, List.map_cons, List.cons_append, finishNumber,
        if_true, hd]
      have hr := readDigitList_render ds rest h.not_digit
      simp only [renderDigits] at hr
      rw [hr, digitOf_digitChar]
      simpa using hf
    | some e =>
      have hnd : ∀ c cs, renderExponent e ++ rest = c :: cs → isDigit c = false := by
        intro c cs hc
        rw [renderExponent_cons, List.cons_append] at hc
        simp only [List.cons.injEq] at hc
        rw [← hc.1]
        cases e.upper <;> decide
      have hr := readDigitList_render ds (renderExponent e ++ rest) hnd
      simp only [renderDigits] at hr
      simp only [renderTail, renderDigits, List.map_cons, List.cons_append, finishNumber,
        if_true, hd, List.append_assoc]
      rw [hr, digitOf_digitChar]
      simpa using hf
  | exp e =>
    have hp := parseExponent_render e rest h.not_digit
    obtain ⟨upper, sign, d1, ds1⟩ := e
    cases upper
    · have h1 : ¬ 'e' = '.' := by decide
      simp only [renderTail, renderExponent_cons, Bool.false_eq_true, if_false, List.cons_append,
        finishNumber, h1, true_or, if_true]
      have : decide ('e' = 'E') = false := by decide
      rw [this]
      simp only [List.append_assoc] at hp ⊢
      rw [hp]
    · have h1 : ¬ 'E' = '.' := by decide
      simp only [renderTail, renderExponent_cons, if_true, List.cons_append,
        finishNumber, h1, if_false, or_true]
      simp only [decide_True]
      simp only [List.append_assoc] at hp ⊢
      rw [hp]

theorem renderTail_not_digit (tail : NumberTail) (rest : List Char) :
    ∀ c cs, renderTail tail ++ rest = c :: cs → isDigit c = false := by
  intro c cs hc
  cases tail with
  | frac d ds exp =>
    cases exp <;>
      (simp only [renderTail, List.cons_append, List.cons.injEq] at hc
       rw [← hc.1]; decide)
  | exp e =>
    simp only [renderTail, renderExponent_cons, List.cons_append, List.cons.injEq] at hc
    rw [← hc.1]
    cases e.upper <;> decide


set_option maxRecDepth 100000 in
theorem hex4_ascii : ∀ n, n < 128 →
    hex4 '0' '0' (hexDigit (n / 16)) (hexDigit (n % 16)) = some n := by decide

theorem parseStringBody_escapeChar (fuel : Nat) (c : Char) (t : List Char) :
    parseStringBody (fuel + 1) (escapeChar c ++ t) = pushChar c (parseStringBody fuel t) := by
  unfold escapeChar
  by_cases h1 : c = '"'
  · subst h1; simp [parseStringBody, unescapeSimple]
  by_cases h2 : c = '\\'
  · subst h2; simp [parseStringBody, unescapeSimple]
  by_cases h3 : c = '\x08'
  · subst h3; simp [parseStringBody, unescapeSimple]
  by_cases h4 : c = '\x0c'
  · subst h4; simp [parseStringBody, unescapeSimple]
  by_cases h5 : c = '\n'
  · subst h5; simp [parseStringBody, unescapeSimple]
  by_cases h6 : c = '\r'
  · subst h6; simp [parseStringBody, unescapeSimple]
  by_cases h7 : c = '\t'
  · subst h7; simp [parseStringBody, unescapeSimple]
  simp only [h1, h2, h3, h4, h5, h6, h7, if_false]
  by_cases h8 : c.toNat < 32 ∨ c = '<' ∨ c = '>' ∨ c = '&'
  · have hlt : c.toNat < 128 := by
      rcases h8 with h | h | h | h
      · omega
      · subst h; decide
      · subst h; decide
      · subst h; decide
    have hhex := hex4_ascii c.toNat hlt
    simp only [h8, if_true, List.cons_append, List.nil_append, parseStringBody]
    have e1 : ¬ ('\\' = '"') := by decide
    simp only [e1, if_false, if_true, hhex]
    have e2 : c.toNat < 0xD800 ∨ 0xE000 ≤ c.toNat := by left; omega
    simp only [e2, if_true, Char.ofNat_toNat]
  simp only [h8, if_false]
  by_cases h9 : c = '\u2028'
  · subst h9; simp [parseStringBody, hex4, hexVal]
  by_cases h10 : c = '\u2029'
  · subst h10; simp [parseStringBody, hex4, hexVal]
  simp only [h9, h10, if_false, List.singleton_append, parseStringBody, h1, h2]
  have h32 : ¬ c.toNat < 32 := fun h => h8 (Or.inl h)
  simp only [h32, if_false]

theorem length_le_escapeChars (s : List Char) : s.length ≤ (escapeChars s).length := by
  induction s with
  | nil => simp [escapeChars]
  | cons c cs ih =>
    have : 1 ≤ (escapeChar c).length := by
      unfold escapeChar
      repeat' split
      all_goals simp
    simp only [escapeChars, List.length_append, List.length_cons]
    omega

theorem parseStringBody_escapeChars (s rest : List Char) (fuel : Nat) (h : s.length < fuel) :
    parseStringBody fuel (escapeChars s ++ '"' :: rest) = .ok (s, rest) := by
  induction s generalizing fuel with
  | nil =>
    cases fuel with
    | zero => simp at h
    | succ f => simp [escapeChars, parseStringBody]
  | cons c cs ih =>
    cases fuel with
    | zero => simp at h
    | succ f =>
      simp only [escapeChars, List.append_assoc]
      rw [parseStringBody_escapeChar, ih f (by simpa using h)]
      rfl


theorem StartsValue.not_space {c : Char} (h : StartsValue c) : isSpace c = false := by
  rcases h with h | h | h | h | h | h | h | h
  any_goals (subst h; decide)
  cases hs : isSpace c with
  | false => rfl
  | true =>
    simp only [isSpace, Bool.or_eq_true, decide_eq_true_eq] at hs
    rcases hs with ((hs | hs) | hs) | hs <;> subst hs <;> exact absurd h (by decide)

theorem StartsValue.ne_close {c : Char} (h : StartsValue c) : c ≠ ']' ∧ c ≠ '}' := by
  rcases h with h | h | h | h | h | h | h | h
  any_goals (subst h; decide)
  constructor <;> rintro rfl <;> exact absurd h (by decide)

theorem render_cons (j : Json) : ∃ c cs, render j = c :: cs ∧ StartsValue c := by
  cases j with
  | null => exact ⟨'n', _, rfl, Or.inl rfl⟩
  | bool b =>
    cases b
    · exact ⟨'f', _, rfl, by simp [StartsValue]⟩
    · exact ⟨'t', _, rfl, by simp [StartsValue]⟩
  | num neg mag =>
    cases neg
    · obtain ⟨h1, _, c, cs, h3, _⟩ := natDigits_spec mag
      refine ⟨c, cs, by simp [render, h3], ?_⟩
      have : isDigit c = true := h1 c (by rw [h3]; exact List.mem_cons_self _ _)
      simp [StartsValue, this]
    · exact ⟨'-', natDigits mag, by simp [render], by simp [StartsValue]⟩
  | dec neg mag tail =>
    cases neg
    · obtain ⟨h1, _, c, cs, h3, _⟩ := natDigits_spec mag
      refine ⟨c, cs ++ renderTail tail, by simp [render, h3], ?_⟩
      have : isDigit c = true := h1 c (by rw [h3]; exact List.mem_cons_self _ _)
      simp [StartsValue, this]
    · exact ⟨'-', natDigits mag ++ renderTail tail, by simp [render], by simp [StartsValue]⟩
  | str s => exact ⟨'"', _, rfl, by simp [StartsValue]⟩
  | arr xs => exact ⟨'[', renderElems xs ++ [']'], by simp [render], by simp [StartsValue]⟩
  | obj ms => exact ⟨'{', renderMembers ms ++ ['}'], by simp [render], by simp [StartsValue]⟩

theorem skipSpace_of_not_space (c : Char) (cs : List Char) (h : isSpace c = false) :
    skipSpace (c :: cs) = c :: cs := by
  simp [skipSpace, h]


theorem parseValue_digit (fuel d : Nat) (c : Char) (cs : List Char) (h : isDigit c = true) :
    parseValue (fuel + 1) d (c :: cs) = parseNumber false (c :: cs) := by
  have hs : isSpace c = false := StartsValue.not_space (by simp [StartsValue, h])
  have e1 : c ≠ 'n' := by rintro rfl; exact absurd h (by decide)
  have e2 : c ≠ 't' := by rintro rfl; exact absurd h (by decide)
  have e3 : c ≠ 'f' := by rintro rfl; exact absurd h (by decide)
  have e4 : c ≠ '"' := by rintro rfl; exact absurd h (by decide)
  have e5 : c ≠ '-' := by rintro rfl; exact absurd h (by decide)
  simp only [parseValue, skipSpace_of_not_space c cs hs, e1, e2, e3, e4, e5, if_false, h, if_true]

theorem parseValue_num (fuel d : Nat) (neg : Bool) (mag : Nat) (rest : List Char)
    (h : EndsValue rest) :
    parseValue (fuel + 1) d (render (.num neg mag) ++ rest) = .ok (.num neg mag, rest) := by
  cases neg with
  | true =>
    have : render (.num true mag) ++ rest = '-' :: (natDigits mag ++ rest) := by simp [render]
    rw [this]
    simp only [parseValue, skipSpace, isSpace]
    simp [parseNumber_natDigits true mag rest h]
  | false =>
    have : render (.num false mag) ++ rest = natDigits mag ++ rest := by simp [render]
    rw [this]
    obtain ⟨h1, _, c, cs, h3, _⟩ := natDigits_spec mag
    have hc : isDigit c = true := h1 c (by rw [h3]; exact List.mem_cons_self _ _)
    have h4 := parseNumber_natDigits false mag rest h
    rw [h3] at h4 ⊢
    rw [List.cons_append] at h4 ⊢
    rw [parseValue_digit fuel d c _ hc, h4]

theorem parseValue_dec (fuel d : Nat) (neg : Bool) (mag : Nat) (tail : NumberTail)
    (rest : List Char) (h : EndsValue rest) :
    parseValue (fuel + 1) d (render (.dec neg mag tail) ++ rest) =
      .ok (.dec neg mag tail, rest) := by
  have hp := parseNumber_natDigits_then neg mag (renderTail tail ++ rest)
    (renderTail_not_digit tail rest)
  rw [finishNumber_render neg mag tail rest h] at hp
  cases neg with
  | true =>
    have : render (.dec true mag tail) ++ rest = '-' :: (natDigits mag ++ (renderTail tail ++ rest)) := by
      simp [render]
    rw [this]
    simp only [parseValue, skipSpace, isSpace]
    simp [hp]
  | false =>
    have : render (.dec false mag tail) ++ rest = natDigits mag ++ (renderTail tail ++ rest) := by
      simp [render]
    rw [this]
    obtain ⟨h1, _, c, cs, h3, _⟩ := natDigits_spec mag
    have hc : isDigit c = true := h1 c (by rw [h3]; exact List.mem_cons_self _ _)
    rw [h3] at hp ⊢
    rw [List.cons_append] at hp ⊢
    rw [parseValue_digit fuel d c _ hc, hp]

theorem parseValue_str (fuel d : Nat) (s : String) (rest : List Char)
    (h : (render (.str s)).length < fuel + 1) :
    parseValue (fuel + 1) d (render (.str s) ++ rest) = .ok (.str s, rest) := by
  have hlen := length_le_escapeChars s.data
  have h' : s.data.length < fuel := by
    simp only [render, renderString, List.length_cons, List.length_append,
      List.length_singleton] at h
    omega
  have : render (.str s) ++ rest = '"' :: (escapeChars s.data ++ '"' :: rest) := by
    simp [render, renderString]
  rw [this]
  simp only [parseValue, skipSpace, isSpace]
  simp [parseStringBody_escapeChars s.data rest fuel h']


theorem EndsValue.close_bracket (rest : List Char) : EndsValue (']' :: rest) := by
  intro c cs h; cases h; simp
theorem EndsValue.close_brace (rest : List Char) : EndsValue ('}' :: rest) := by
  intro c cs h; cases h; simp
theorem EndsValue.comma (rest : List Char) : EndsValue (',' :: rest) := by
  intro c cs h; cases h; simp

theorem renderElems_cons_cons (x y : Json) (ys : List Json) :
    renderElems (x :: y :: ys) = render x ++ ',' :: renderElems (y :: ys) := by
  simp [renderElems]

theorem render_length_pos (j : Json) : 0 < (render j).length := by
  obtain ⟨c, cs, h, _⟩ := render_cons j
  rw [h]; simp

theorem parseValue_open_bracket (f d : Nat) (c : Char) (cs : List Char)
    (hs : isSpace c = false) (hc : c ≠ ']') :
    parseValue (f + 1) (d + 1) ('[' :: c :: cs) =
      match parseElems f d (c :: cs) with
      | .ok (xs, r) => .ok (.arr xs, r)
      | .error e => .error e := by
  have h1 : skipSpace ('[' :: c :: cs) = '[' :: c :: cs := skipSpace_of_not_space _ _ (by decide)
  simp only [parseValue, h1, skipSpace_of_not_space c cs hs]
  simp only [isDigit, hc]
  try (generalize parseElems f d (c :: cs) = res; rcases res with e | ⟨a, b⟩ <;> simp)

theorem parseValue_open_brace (f d : Nat) (cs : List Char) :
    parseValue (f + 1) (d + 1) ('{' :: '"' :: cs) =
      match parseMembers f d ('"' :: cs) with
      | .ok (ms, r) => .ok (.obj ms, r)
      | .error e => .error e := by
  simp [parseValue, skipSpace, isSpace, isDigit]

theorem parseElems_comma (f d : Nat) (cs r : List Char) (x : Json)
    (h : parseValue f d cs = .ok (x, ',' :: r)) :
    parseElems (f + 1) d cs =
      match parseElems f d r with
      | .ok (xs, r2) => .ok (x :: xs, r2)
      | .error e => .error e := by
  simp [parseElems, h, skipSpace, isSpace]

theorem parseElems_close (f d : Nat) (cs r : List Char) (x : Json)
    (h : parseValue f d cs = .ok (x, ']' :: r)) :
    parseElems (f + 1) d cs = .ok ([x], r) := by
  simp [parseElems, h, skipSpace, isSpace]

theorem parseElems_error (f d : Nat) (cs : List Char) (e : String)
    (h : parseValue f d cs = .error e) :
    parseElems (f + 1) d cs = .error e := by
  simp [parseElems, h]

theorem parseMembers_comma (f d : Nat) (r0 r2 r4 k : List Char) (v : Json)
    (hk : parseStringBody f r0 = .ok (k, ':' :: r2))
    (hv : parseValue f d r2 = .ok (v, ',' :: r4)) :
    parseMembers (f + 1) d ('"' :: r0) =
      match parseMembers f d r4 with
      | .ok (ms, r5) => .ok ((String.mk k, v) :: ms, r5)
      | .error e => .error e := by
  simp [parseMembers, hk, hv, skipSpace, isSpace]

theorem parseMembers_close (f d : Nat) (r0 r2 r4 k : List Char) (v : Json)
    (hk : parseStringBody f r0 = .ok (k, ':' :: r2))
    (hv : parseValue f d r2 = .ok (v, '}' :: r4)) :
    parseMembers (f + 1) d ('"' :: r0) = .ok ([(String.mk k, v)], r4) := by
  simp [parseMembers, hk, hv, skipSpace, isSpace]

theorem parseMembers_error (f d : Nat) (r0 r2 k : List Char) (e : String)
    (hk : parseStringBody f r0 = .ok (k, ':' :: r2))
    (hv : parseValue f d r2 = .error e) :
    parseMembers (f + 1) d ('"' :: r0) = .error e := by
  simp [parseMembers, hk, hv, skipSpace, isSpace]

mutual
theorem parseValue_render : ∀ (j : Json) (fuel d : Nat) (rest : List Char),
    (render j).length < fuel → EndsValue rest →
    parseValue fuel d (render j ++ rest) =
      if depth j ≤ d then .ok (j, rest) else .error errDepth
  | .null, fuel, d, rest, hf, _ => by
    cases fuel with
    | zero => omega
    | succ f => simp [render, parseValue, skipSpace, isSpace, dropLiteral, depth]
  | .bool b, fuel, d, rest, hf, _ => by
    cases fuel with
    | zero => omega
    | succ f => cases b <;> simp [render, parseValue, skipSpace, isSpace, dropLiteral, depth]
  | .num neg mag, fuel, d, rest, hf, hr => by
    cases fuel with
    | zero => omega
    | succ f => rw [parseValue_num f d neg mag rest hr]; simp [depth]
  | .dec neg mag tail, fuel, d, rest, hf, hr => by
    cases fuel with
    | zero => omega
    | succ f => rw [parseValue_dec f d neg mag tail rest hr]; simp [depth]
  | .str s, fuel, d, rest, hf, _ => by
    cases fuel with
    | zero => omega
    | succ f => rw [parseValue_str f d s rest hf]; simp [depth]
  | .arr xs, fuel, d, rest, hf, _ => by
    cases fuel with
    | zero => omega
    | succ f =>
      have hrw : render (.arr xs) ++ rest = '[' :: (renderElems xs ++ ']' :: rest) := by
        simp [render]
      rw [hrw]
      cases d with
      | zero => simp [parseValue, skipSpace, isSpace, depth, isDigit]
      | succ d' =>
        match xs, hf with
        | [], _ => simp [parseValue, skipSpace, isSpace, depth, depthElems, renderElems, isDigit]
        | x :: xs', hf =>
          have hlen : (renderElems (x :: xs')).length + 1 < f := by
            simp only [render, List.length_cons, List.length_append, List.length_singleton] at hf
            omega
          have ih := parseElems_render (x :: xs') (by simp) f d' rest hlen
          obtain ⟨c, cs, hc, hsv⟩ := render_cons x
          have hhead : ∃ cs', renderElems (x :: xs') ++ ']' :: rest = c :: cs' := by
            cases xs' with
            | nil => exact ⟨cs ++ ']' :: rest, by simp [renderElems, hc]⟩
            | cons y ys =>
              exact ⟨cs ++ ',' :: (renderElems (y :: ys) ++ ']' :: rest),
                by simp [renderElems, hc]⟩
          obtain ⟨cs', hcs'⟩ := hhead
          rw [hcs'] at ih ⊢
          rw [parseValue_open_bracket f d' c cs' hsv.not_space hsv.ne_close.1, ih]
          simp only [depth]
          by_cases hd : depthElems (x :: xs') ≤ d'
          · simp [hd]
          · simp [hd]
  | .obj ms, fuel, d, rest, hf, _ => by
    cases fuel with
    | zero => omega
    | succ f =>
      have hrw : render (.obj ms) ++ rest = '{' :: (renderMembers ms ++ '}' :: rest) := by
        simp [render]
      rw [hrw]
      cases d with
      | zero => simp [parseValue, skipSpace, isSpace, depth, isDigit]
      | succ d' =>
        match ms, hf with
        | [], _ =>
          simp [parseValue, skipSpace, isSpace, depth, depthMembers, renderMembers, isDigit]
        | m :: ms', hf =>
          have hlen : (renderMembers (m :: ms')).length + 1 < f := by
            simp only [render, List.length_cons, List.length_append, List.length_singleton] at hf
            omega
          have ih := parseMembers_render (m :: ms') (by simp) f d' rest hlen
          have hhead : ∃ cs', renderMembers (m :: ms') ++ '}' :: rest = '"' :: cs' := by
            obtain ⟨k, v⟩ := m
            cases ms' with
            | nil =>
              exact ⟨escapeChars k.data ++ '"' :: ':' :: (render v ++ '}' :: rest),
                by simp [renderMembers, renderString]⟩
            | cons y ys =>
              exact ⟨escapeChars k.data ++ '"' :: ':' ::
                (render v ++ ',' :: (renderMembers (y :: ys) ++ '}' :: rest)),
                by simp [renderMembers, renderString]⟩
          obtain ⟨cs', hcs'⟩ := hhead
          rw [hcs'] at ih ⊢
          rw [parseValue_open_brace f d' cs', ih]
          simp only [depth]
          by_cases hd : depthMembers (m :: ms') ≤ d'
          · simp [hd]
          · simp [hd]
theorem parseElems_render : ∀ (xs : List Json), xs ≠ [] → ∀ (fuel d : Nat) (rest : List Char),
    (renderElems xs).length + 1 < fuel →
    parseElems fuel d (renderElems xs ++ ']' :: rest) =
      if depthElems xs ≤ d then .ok (xs, rest) else .error errDepth
  | [], hne, _, _, _, _ => absurd rfl hne
  | [x], _, fuel, d, rest, hf => by
    cases fuel with
    | zero => omega
    | succ f =>
      have hx : (render x).length < f := by
        simp only [renderElems] at hf; omega
      have ih := parseValue_render x f d (']' :: rest) hx (EndsValue.close_bracket rest)
      have hde : depthElems [x] = depth x := by simp [depthElems]
      rw [hde]
      simp only [renderElems]
      by_cases hd : depth x ≤ d
      · rw [if_pos hd] at ih ⊢
        exact parseElems_close f d _ rest x ih
      · rw [if_neg hd] at ih ⊢
        exact parseElems_error f d _ _ ih
  | x :: y :: ys, _, fuel, d, rest, hf => by
    cases fuel with
    | zero => omega
    | succ f =>
      have hpos := render_length_pos x
      have hx : (render x).length < f := by
        simp only [renderElems_cons_cons, List.length_append, List.length_cons] at hf; omega
      have hys : (renderElems (y :: ys)).length + 1 < f := by
        simp only [renderElems_cons_cons x, List.length_append, List.length_cons] at hf; omega
      have ih := parseValue_render x f d (',' :: (renderElems (y :: ys) ++ ']' :: rest)) hx
        (EndsValue.comma _)
      have ih2 := parseElems_render (y :: ys) (by simp) f d rest hys
      have hrw : renderElems (x :: y :: ys) ++ ']' :: rest =
          render x ++ ',' :: (renderElems (y :: ys) ++ ']' :: rest) := by
        simp [renderElems_cons_cons]
      rw [hrw]
      have hde : depthElems (x :: y :: ys) = max (depth x) (depthElems (y :: ys)) := by
        simp [depthElems]
      rw [hde]
      by_cases hd : depth x ≤ d
      · rw [if_pos hd] at ih
        rw [parseElems_comma f d _ _ x ih, ih2]
        by_cases hd2 : depthElems (y :: ys) ≤ d
        · simp [hd, hd2]
        · simp [hd, hd2]
      · rw [if_neg hd] at ih
        rw [parseElems_error f d _ _ ih]
        simp [hd]
theorem parseMembers_render : ∀ (ms : List (String × Json)), ms ≠ [] →
    ∀ (fuel d : Nat) (rest : List Char), (renderMembers ms).length + 1 < fuel →
    parseMembers fuel d (renderMembers ms ++ '}' :: rest) =
      if depthMembers ms ≤ d then .ok (ms, rest) else .error errDepth
  | [], hne, _, _, _, _ => absurd rfl hne
  | [(k, v)], _, fuel, d, rest, hf => by
    cases fuel with
    | zero => omega
    | succ f =>
      have hkl := length_le_escapeChars k.data
      have hlen : (renderMembers [(k, v)]).length =
          (escapeChars k.data).length + 3 + (render v).length := by
        simp [renderMembers, renderString]; omega
      have hv : (render v).length < f := by omega
      have hk : k.data.length < f := by omega
      have ih := parseValue_render v f d ('}' :: rest) hv (EndsValue.close_brace rest)
      have hrw : renderMembers [(k, v)] ++ '}' :: rest =
          '"' :: (escapeChars k.data ++ '"' :: ':' :: (render v ++ '}' :: rest)) := by
        simp [renderMembers, renderString]
      rw [hrw]
      have hks := parseStringBody_escapeChars k.data (':' :: (render v ++ '}' :: rest)) f hk
      have hde : depthMembers [(k, v)] = depth v := by simp [depthMembers]
      rw [hde]
      by_cases hd : depth v ≤ d
      · rw [if_pos hd] at ih ⊢
        exact parseMembers_close f d _ _ rest k.data v hks ih
      · rw [if_neg hd] at ih ⊢
        exact parseMembers_error f d _ _ k.data _ hks ih
  | (k, v) :: m :: ms, _, fuel, d, rest, hf => by
    cases fuel with
    | zero => omega
    | succ f =>
      have hkl := length_le_escapeChars k.data
      have hlen : (renderMembers ((k, v) :: m :: ms)).length =
          (escapeChars k.data).length + 3 + (render v).length + 1 +
            (renderMembers (m :: ms)).length := by
        simp [renderMembers, renderString]; omega
      have hv : (render v).length < f := by omega
      have hk : k.data.length < f := by omega
      have hms : (renderMembers (m :: ms)).length + 1 < f := by omega
      have ih := parseValue_render v f d (',' :: (renderMembers (m :: ms) ++ '}' :: rest)) hv
        (EndsValue.comma _)
      have ih2 := parseMembers_render (m :: ms) (by simp) f d rest hms
      have hrw : renderMembers ((k, v) :: m :: ms) ++ '}' :: rest =
          '"' :: (escapeChars k.data ++ '"' :: ':' ::
            (render v ++ ',' :: (renderMembers (m :: ms) ++ '}' :: rest))) := by
        simp [renderMembers, renderString]
      rw [hrw]
      have hks := parseStringBody_escapeChars k.data
        (':' :: (render v ++ ',' :: (renderMembers (m :: ms) ++ '}' :: rest))) f hk
      have hde : depthMembers ((k, v) :: m :: ms) = max (depth v) (depthMembers (m :: ms)) := by
        simp [depthMembers]
      rw [hde]
      by_cases hd : depth v ≤ d
      · rw [if_pos hd] at ih
        rw [parseMembers_comma f d _ _ _ k.data v hks ih, ih2]
        by_cases hd2 : depthMembers (m :: ms) ≤ d
        · simp [hd, hd2]
        · simp [hd, hd2]
      · rw [if_neg hd] at ih
        rw [parseMembers_error f d _ _ k.data _ hks ih]
        simp [hd]
end

theorem parse_render (j : Json) :
    Json.parse (render j) = if depth j ≤ maxNestingDepth then .ok j else .error errDepth := by
  have h := parseValue_render j ((render j).length + 1) maxNestingDepth [] (by omega)
    (by intro c cs hc; cases hc)
  rw [List.append_nil] at h
  unfold Json.parse
  rw [h]
  by_cases hd : depth j ≤ maxNestingDepth
  · simp [hd, skipSpace]
  · simp [hd]

theorem render_injective (j1 j2 : Json) (h : render j1 = render j2) : j1 = j2 := by
  have h1 := parseValue_render j1 ((render j1).length + 1) (max (depth j1) (depth j2)) []
    (by omega) (by intro c cs hc; cases hc)
  have h2 := parseValue_render j2 ((render j2).length + 1) (max (depth j1) (depth j2)) []
    (by omega) (by intro c cs hc; cases hc)
  rw [if_pos (le_max_left _ _)] at h1
  rw [if_pos (le_max_right _ _)] at h2
  rw [h] at h1
  rw [h1] at h2
  simp only [Except.ok.injEq, Prod.mk.injEq, and_true] at h2
  exact h2

end Json

/-! ## Maps, the encoder and the decoder -/

namespace json

open Json

theorem char_toNat_inj {a b : Char} (h : a.toNat = b.toNat) : a = b := by
  apply Char.ext
  apply UInt32.ext
  simpa [Char.toNat, UInt32.toNat] using h

theorem keyLt_irrefl : ∀ (a : List Char), keyLt a a = false
  | [] => rfl
  | c :: cs => by simp [keyLt, keyLt_irrefl cs]

theorem keyLt_trans : ∀ (a b c : List Char), keyLt a b = true → keyLt b c = true →
    keyLt a c = true
  | [], [], _, h, _ => by simp [keyLt] at h
  | [], _ :: _, [], _, h => by simp [keyLt] at h
  | [], _ :: _, _ :: _, _, _ => by simp [keyLt]
  | _ :: _, [], _, h, _ => by simp [keyLt] at h
  | _ :: _, _ :: _, [], _, h => by simp [keyLt] at h
  | x :: xs, y :: ys, z :: zs, h1, h2 => by
    simp only [keyLt] at h1 h2 ⊢
    by_cases hxy : x.toNat < y.toNat
    · by_cases hyz : y.toNat < z.toNat
      · have : x.toNat < z.toNat := by omega
        simp [this]
      · simp only [hyz, if_false] at h2
        by_cases hyz' : y.toNat = z.toNat
        · have : x.toNat < z.toNat := by omega
          simp [this]
        · simp [hyz'] at h2
    · simp only [hxy, if_false] at h1
      by_cases hxy' : x.toNat = y.toNat
      · simp only [hxy', if_true] at h1
        by_cases hyz : y.toNat < z.toNat
        · have : x.toNat < z.toNat := by omega
          simp [this]
        · simp only [hyz, if_false] at h2
          by_cases hyz' : y.toNat = z.toNat
          · simp only [hyz', if_true] at h2
            have h3 : ¬ x.toNat < z.toNat := by omega
            have h4 : x.toNat = z.toNat := by omega
            simp only [h4, lt_irrefl, if_false, if_true]
            exact keyLt_trans xs ys zs h1 h2
          · simp [hyz'] at h2
      · simp [hxy'] at h1

theorem keyLt_total : ∀ (a b : List Char), keyLt a b = false → a ≠ b → keyLt b a = true
  | [], [], _, h => absurd rfl h
  | [], _ :: _, h, _ => by simp [keyLt] at h
  | _ :: _, [], _, _ => by simp [keyLt]
  | x :: xs, y :: ys, h1, h2 => by
    simp only [keyLt] at h1 ⊢
    by_cases hxy : x.toNat < y.toNat
    · simp [hxy] at h1
    · simp only [hxy, if_false] at h1
      by_cases hxy' : x.toNat = y.toNat
      · simp only [hxy', if_true] at h1
        have hyx : ¬ y.toNat < x.toNat := by omega
        have hc : x = y := char_toNat_inj hxy'
        simp only [hc, lt_irrefl, if_false, if_true]
        refine keyLt_total xs ys h1 ?_
        intro hxs
        exact h2 (by rw [hc, hxs])
      · have : y.toNat < x.toNat := by omega
        simp [this]


theorem keyLt_asymm (a b : List Char) (h : keyLt a b = true) : keyLt b a = false := by
  cases hba : keyLt b a with
  | false => rfl
  | true =>
    have := keyLt_trans a b a h hba
    rw [keyLt_irrefl] at this
    exact absurd this (by simp)

theorem string_data_inj {a b : String} (h : a.data = b.data) : a = b := by
  cases a; cases b; simp_all

theorem mem_mapSet {α : Type} (k : String) (v : α) (l : List (String × α)) (p : String × α)
    (h : p ∈ mapSet k v l) : p = (k, v) ∨ p ∈ l := by
  induction l with
  | nil => simp [mapSet] at h; exact Or.inl h
  | cons hd tl ih =>
    obtain ⟨k1, v1⟩ := hd
    simp only [mapSet] at h
    split at h
    · rcases List.mem_cons.1 h with h | h
      · exact Or.inl h
      · exact Or.inr (List.mem_cons_of_mem _ h)
    · split at h
      · rcases List.mem_cons.1 h with h | h
        · exact Or.inl h
        · exact Or.inr h
      · rcases List.mem_cons.1 h with h | h
        · exact Or.inr (h ▸ List.mem_cons_self _ _)
        · rcases ih h with h | h
          · exact Or.inl h
          · exact Or.inr (List.mem_cons_of_mem _ h)

theorem mapSet_sorted {α : Type} (k : String) (v : α) (l : List (String × α))
    (h : KeysSorted l) : KeysSorted (mapSet k v l) := by
  induction l with
  | nil => simp [mapSet, KeysSorted]
  | cons hd tl ih =>
    obtain ⟨k1, v1⟩ := hd
    have htl : KeysSorted tl := (List.pairwise_cons.1 h).2
    have hhd := (List.pairwise_cons.1 h).1
    simp only [mapSet]
    split
    · next heq =>
      subst heq
      exact List.pairwise_cons.2 ⟨hhd, htl⟩
    · next hne =>
      split
      · next hlt =>
        refine List.pairwise_cons.2 ⟨?_, h⟩
        intro p hp
        rcases List.mem_cons.1 hp with hp | hp
        · subst hp; exact hlt
        · exact keyLt_trans _ _ _ hlt (hhd p hp)
      · next hnlt =>
        have hgt : keyLt k1.data k.data = true := by
          apply keyLt_total
          · simpa using hnlt
          · intro hd; exact hne (string_data_inj hd)
        refine List.pairwise_cons.2 ⟨?_, ih htl⟩
        intro p hp
        rcases mem_mapSet k v tl p hp with hp | hp
        · subst hp; exact hgt
        · exact hhd p hp


theorem lookup_mapSet_self {α : Type} (k : String) (v : α) (l : List (String × α)) :
    (mapSet k v l).lookup k = some v := by
  induction l with
  | nil => simp [mapSet, List.lookup]
  | cons hd tl ih =>
    obtain ⟨k1, v1⟩ := hd
    simp only [mapSet]
    split
    · simp [List.lookup]
    · next hne =>
      split
      · simp [List.lookup]
      · have : (k == k1) = false := by simpa using hne
        simp [List.lookup, this, ih]

theorem lookup_mapSet_ne {α : Type} (k k' : String) (v : α) (l : List (String × α))
    (h : k' ≠ k) : (mapSet k v l).lookup k' = l.lookup k' := by
  have hb : (k' == k) = false := by simpa using h
  induction l with
  | nil => simp [mapSet, List.lookup, hb]
  | cons hd tl ih =>
    obtain ⟨k1, v1⟩ := hd
    simp only [mapSet]
    split
    · next heq => subst heq; simp [List.lookup, hb]
    · split
      · simp [List.lookup, hb]
      · simp only [List.lookup, ih]

theorem keys_mapSet {α : Type} (k : String) (v : α) (l : List (String × α)) (k' : String) :
    k' ∈ (mapSet k v l).map Prod.fst ↔ k' = k ∨ k' ∈ l.map Prod.fst := by
  induction l with
  | nil => simp [mapSet]
  | cons hd tl ih =>
    obtain ⟨k1, v1⟩ := hd
    simp only [mapSet]
    split
    · next heq => subst heq; simp
    · split
      · simp
      · simp only [List.map_cons, List.mem_cons, ih]
        tauto

theorem mapSet_append_last {α : Type} (k : String) (v : α) (acc : List (String × α))
    (h : ∀ p ∈ acc, keyLt p.1.data k.data = true) : mapSet k v acc = acc ++ [(k, v)] := by
  induction acc with
  | nil => rfl
  | cons hd tl ih =>
    obtain ⟨k1, v1⟩ := hd
    have h1 : keyLt k1.data k.data = true := h (k1, v1) (List.mem_cons_self _ _)
    have hne : k ≠ k1 := by
      rintro rfl
      rw [keyLt_irrefl] at h1
      exact absurd h1 (by simp)
    have hnlt : keyLt k.data k1.data = false := keyLt_asymm _ _ h1
    simp only [mapSet, hne, if_false, hnlt, Bool.false_eq_true, List.cons_append]
    rw [ih (fun p hp => h p (List.mem_cons_of_mem _ hp))]

theorem foldl_mapSet_of_sorted {α : Type} (l acc : List (String × α))
    (h : KeysSorted (acc ++ l)) :
    l.foldl (fun a kv => mapSet kv.1 kv.2 a) acc = acc ++ l := by
  induction l generalizing acc with
  | nil => simp
  | cons hd tl ih =>
    have hacc : ∀ p ∈ acc, keyLt p.1.data hd.1.data = true := by
      intro p hp
      have := List.pairwise_append.1 h
      exact this.2.2 p hp hd (List.mem_cons_self _ _)
    simp only [List.foldl_cons]
    rw [mapSet_append_last hd.1 hd.2 acc hacc]
    have h' : KeysSorted ((acc ++ [(hd.1, hd.2)]) ++ tl) := by
      simpa using h
    rw [ih _ h']
    simp

theorem mapOfList_of_sorted {α : Type} (l : List (String × α)) (h : KeysSorted l) :
    mapOfList l = l := by
  unfold mapOfList
  simpa using foldl_mapSet_of_sorted l [] (by simpa using h)

theorem marshalEntries_eq_map (l : List (String × GoValue)) :
    marshalEntries l = l.map (fun p => (p.1, marshalValue p.2)) := by
  induction l with
  | nil => simp [marshalEntries]
  | cons hd tl ih =>
    obtain ⟨k, v⟩ := hd
    simp [marshalEntries, ih]

theorem keysSorted_map {α β : Type} (f : α → β) (l : List (String × α)) (h : KeysSorted l) :
    KeysSorted (l.map (fun p => (p.1, f p.2))) := by
  unfold KeysSorted at h ⊢
  rw [List.pairwise_map]
  exact h

theorem sequenceMembers_spec (l : List (String × Except String Json))
    (h : ∀ p ∈ l, ∃ j, p.2 = .ok j) :
    ∃ ms, sequenceMembers l = .ok ms ∧ ms.map Prod.fst = l.map Prod.fst ∧
      ∀ k j, l.lookup k = some (.ok j) → ms.lookup k = some j := by
  induction l with
  | nil => exact ⟨[], rfl, rfl, by simp [List.lookup]⟩
  | cons hd tl ih =>
    obtain ⟨k, r⟩ := hd
    obtain ⟨j, hj⟩ := h (k, r) (List.mem_cons_self _ _)
    simp only at hj
    subst hj
    obtain ⟨ms, h1, h2, h3⟩ := ih (fun p hp => h p (List.mem_cons_of_mem _ hp))
    refine ⟨(k, j) :: ms, by simp [sequenceMembers, h1], by simp [h2], ?_⟩
    intro k' j' hl
    simp only [List.lookup] at hl ⊢
    cases hb : (k' == k) with
    | true => simp [hb] at hl ⊢; exact hl
    | false => simp only [hb] at hl ⊢; exact h3 k' j' hl


theorem lookup_map_snd {α β : Type} (f : α → β) (l : List (String × α)) (k : String) :
    (l.map (fun p => (p.1, f p.2))).lookup k = (l.lookup k).map f := by
  induction l with
  | nil => simp [List.lookup]
  | cons hd tl ih =>
    obtain ⟨k1, v1⟩ := hd
    simp only [List.map_cons, List.lookup]
    cases (k == k1) <;> simp [ih]

theorem marshal_map_spec (kvs : List (String × GoValue)) (hs : KeysSorted kvs)
    (hm : ∀ p ∈ kvs, Marshals p.2) :
    ∃ ms, marshalValue (.map kvs) = .ok (.obj ms) ∧ ms.map Prod.fst = kvs.map Prod.fst ∧
      ∀ k g j, kvs.lookup k = some g → marshalValue g = .ok j → ms.lookup k = some j := by
  have hsorted : KeysSorted (marshalEntries kvs) := by
    rw [marshalEntries_eq_map]; exact keysSorted_map _ _ hs
  have hall : ∀ p ∈ marshalEntries kvs, ∃ j, p.2 = .ok j := by
    intro p hp
    rw [marshalEntries_eq_map] at hp
    obtain ⟨q, hq, rfl⟩ := List.mem_map.1 hp
    exact hm q hq
  obtain ⟨ms, h1, h2, h3⟩ := sequenceMembers_spec (marshalEntries kvs) hall
  refine ⟨ms, ?_, ?_, ?_⟩
  · simp [marshalValue, mapOfList_of_sorted _ hsorted, h1]
  · rw [h2, marshalEntries_eq_map]; simp
  · intro k g j hl hj
    apply h3
    rw [marshalEntries_eq_map, lookup_map_snd, hl]
    simp [hj]

theorem sequenceElems_ok (l : List (Except String Json)) (h : ∀ r ∈ l, ∃ j, r = .ok j) :
    ∃ js, sequenceElems l = .ok js := by
  induction l with
  | nil => exact ⟨[], rfl⟩
  | cons hd tl ih =>
    obtain ⟨j, rfl⟩ := h hd (List.mem_cons_self _ _)
    obtain ⟨js, hjs⟩ := ih (fun r hr => h r (List.mem_cons_of_mem _ hr))
    exact ⟨j :: js, by simp [sequenceElems, hjs]⟩

theorem marshalList_eq_map (l : List GoValue) : marshalList l = l.map marshalValue := by
  induction l with
  | nil => simp [marshalList]
  | cons hd tl ih => simp [marshalList, ih]

theorem marshals_slice (gs : List GoValue) (h : ∀ g ∈ gs, Marshals g) :
    Marshals (.slice gs) := by
  have hall : ∀ r ∈ marshalList gs, ∃ j, r = .ok j := by
    intro r hr
    rw [marshalList_eq_map] at hr
    obtain ⟨g, hg, rfl⟩ := List.mem_map.1 hr
    exact h g hg
  obtain ⟨js, hjs⟩ := sequenceElems_ok _ hall
  exact ⟨.arr js, by simp [marshalValue, hjs]⟩

mutual
theorem toGo_marshals : ∀ (j : Json) (g : GoValue), toGo j = .ok g → Marshals g
  | .null, g, h => by
    simp only [toGo, Except.ok.injEq] at h; subst h; exact ⟨.null, by simp [marshalValue]⟩
  | .bool b, g, h => by
    simp only [toGo, Except.ok.injEq] at h; subst h; exact ⟨.bool b, by simp [marshalValue]⟩
  | .num neg mag, g, h => by
    simp only [toGo, convertNumber] at h
    split at h
    · simp only [Except.ok.injEq] at h
      subst h
      exact ⟨integralJson neg (roundFloat64 mag), by simp [marshalValue]⟩
    · simp at h
  | .dec neg mag tail, g, h => by
    simp only [toGo, convertDecimal] at h
    split at h
    · simp only [Except.ok.injEq] at h
      subst h
      exact ⟨_, rfl⟩
    · simp only [Except.ok.injEq] at h
      subst h
      exact ⟨_, rfl⟩
    · simp at h
  | .str s, g, h => by
    simp only [toGo, Except.ok.injEq] at h; subst h; exact ⟨.str s, by simp [marshalValue]⟩
  | .arr xs, g, h => by
    simp only [toGo] at h
    cases hx : toGoList xs with
    | error e => simp [hx] at h
    | ok gs =>
      simp only [hx, Except.ok.injEq] at h
      subst h
      exact marshals_slice gs (toGoList_marshals xs gs hx)
  | .obj ms, g, h => by
    simp only [toGo] at h
    cases hx : toGoMembers ms [] with
    | error e => simp [hx] at h
    | ok kvs =>
      simp only [hx, Except.ok.injEq] at h
      subst h
      have := toGoMembers_spec ms [] kvs hx (by simp [KeysSorted]) (by simp)
      obtain ⟨msj, h1, _, _⟩ := marshal_map_spec kvs this.1 this.2.1
      exact ⟨_, h1⟩
theorem toGoList_marshals : ∀ (xs : List Json) (gs : List GoValue),
    toGoList xs = .ok gs → ∀ g ∈ gs, Marshals g
  | [], gs, h => by
    simp only [toGoList, Except.ok.injEq] at h; subst h; simp
  | x :: xs, gs, h => by
    simp only [toGoList] at h
    cases hx : toGo x with
    | error e => simp [hx] at h
    | ok g =>
      cases hxs : toGoList xs with
      | error e => simp [hx, hxs] at h
      | ok gs' =>
        simp only [hx, hxs, Except.ok.injEq] at h
        subst h
        intro g' hg'
        rcases List.mem_cons.1 hg' with hg' | hg'
        · subst hg'; exact toGo_marshals x _ hx
        · exact toGoList_marshals xs gs' hxs g' hg'
theorem toGoMembers_spec : ∀ (ms : List (String × Json)) (acc r : List (String × GoValue)),
    toGoMembers ms acc = .ok r → KeysSorted acc → (∀ p ∈ acc, Marshals p.2) →
    KeysSorted r ∧ (∀ p ∈ r, Marshals p.2) ∧
      ∀ k, k ∈ r.map Prod.fst ↔ k ∈ acc.map Prod.fst ∨ k ∈ ms.map Prod.fst
  | [], acc, r, h, hs, hm => by
    simp only [toGoMembers, Except.ok.injEq] at h; subst h
    exact ⟨hs, hm, by simp⟩
  | (k, v) :: ms, acc, r, h, hs, hm => by
    simp only [toGoMembers] at h
    cases hx : toGo v with
    | error e => simp [hx] at h
    | ok g =>
      simp only [hx] at h
      have hg := toGo_marshals v g hx
      have hm' : ∀ p ∈ mapSet k g acc, Marshals p.2 := by
        intro p hp
        rcases mem_mapSet k g acc p hp with hp | hp
        · subst hp; exact hg
        · exact hm p hp
      obtain ⟨h1, h2, h3⟩ := toGoMembers_spec ms (mapSet k g acc) r h (mapSet_sorted k g acc hs) hm'
      refine ⟨h1, h2, ?_⟩
      intro k'
      rw [h3 k', keys_mapSet]
      simp only [List.map_cons, List.mem_cons]
      tauto
end

theorem sequenceMembers_ok_inv (l : List (String × Except String Json))
    (ms : List (String × Json)) (h : sequenceMembers l = .ok ms) :
    l = ms.map (fun p => (p.1, .ok p.2)) := by
  induction l generalizing ms with
  | nil => simp only [sequenceMembers, Except.ok.injEq] at h; subst h; rfl
  | cons hd tl ih =>
    obtain ⟨k, r⟩ := hd
    cases r with
    | error e => simp [sequenceMembers] at h
    | ok j =>
      simp only [sequenceMembers] at h
      cases ht : sequenceMembers tl with
      | error e => simp [ht] at h
      | ok ms' =>
        simp only [ht, Except.ok.injEq] at h
        subst h
        simp [ih ms' ht]

theorem marshal_struct_inv (fs : List (String × Bool × GoValue)) (j : Json)
    (h : marshalValue (.struct fs) = .ok j) :
    ∃ ms, j = .obj ms ∧ sequenceMembers (marshalFields fs) = .ok ms := by
  simp only [marshalValue] at h
  cases hs : sequenceMembers (marshalFields fs) with
  | error e => simp [hs] at h
  | ok ms =>
    simp only [hs, Except.ok.injEq] at h
    exact ⟨ms, h.symm, rfl⟩

end json

/-! ## The shared body of `MarshalJSON` -/

namespace pipelines

open Json json

theorem unmarshal_render_obj (ms : List (String × Json)) :
    json.Unmarshal (String.mk (render (.obj ms))) =
      if depth (.obj ms) ≤ maxNestingDepth then
        match toGoMembers ms [] with
        | .ok kvs => .ok (some kvs)
        | .error e => .error e
      else .error errDepth := by
  unfold json.Unmarshal
  rw [parse_render]
  by_cases hd : depth (.obj ms) ≤ maxNestingDepth
  · simp only [hd, if_true]
  · simp only [hd, if_false]

theorem marshal_struct (fs : List (String × Bool × GoValue)) :
    json.Marshal (.struct fs) =
      match sequenceMembers (marshalFields fs) with
      | .ok ms => .ok (String.mk (render (.obj ms)))
      | .error e => .error e := by
  unfold json.Marshal
  simp only [marshalValue]
  cases sequenceMembers (marshalFields fs) <;> rfl

/-- What `marshalWithType` did when it returned bytes. -/
theorem marshalWithType_ok_inv (name : String) (fs : List (String × Bool × GoValue))
    (bytes : String) (h : marshalWithType name (.struct fs) = .ok bytes) :
    ∃ ms1 kvs ms2, sequenceMembers (marshalFields fs) = .ok ms1 ∧
      depth (.obj ms1) ≤ maxNestingDepth ∧ toGoMembers ms1 [] = .ok kvs ∧ KeysSorted kvs ∧
      marshalValue (.map (mapSet "type" (.str name) kvs)) = .ok (.obj ms2) ∧
      bytes = String.mk (render (.obj ms2)) ∧
      ms2.map Prod.fst = (mapSet "type" (GoValue.str name) kvs).map Prod.fst ∧
      ms2.lookup "type" = some (.str name) ∧
      ∀ k, k ∈ kvs.map Prod.fst ↔ k ∈ ms1.map Prod.fst := by
  unfold marshalWithType at h
  rw [marshal_struct] at h
  cases hs : sequenceMembers (marshalFields fs) with
  | error e => simp [hs] at h
  | ok ms1 =>
    simp only [hs] at h
    rw [unmarshal_render_obj] at h
    by_cases hd : depth (.obj ms1) ≤ maxNestingDepth
    · simp only [hd, if_true] at h
      cases hk : toGoMembers ms1 [] with
      | error e => simp [hk] at h
      | ok kvs =>
        simp only [hk] at h
        obtain ⟨hsorted, hmar, hkeys⟩ :=
          toGoMembers_spec ms1 [] kvs hk (by simp [KeysSorted]) (by simp)
        have hsorted' := mapSet_sorted "type" (GoValue.str name) kvs hsorted
        have hmar' : ∀ p ∈ mapSet "type" (GoValue.str name) kvs, Marshals p.2 := by
          intro p hp
          rcases mem_mapSet _ _ _ p hp with hp | hp
          · subst hp; exact ⟨.str name, by simp [marshalValue]⟩
          · exact hmar p hp
        obtain ⟨ms2, h1, h2, h3⟩ := marshal_map_spec _ hsorted' hmar'
        have hm : json.Marshal (.map (mapSet "type" (.str name) kvs)) =
            .ok (String.mk (render (.obj ms2))) := by
          unfold json.Marshal; rw [h1]
        rw [hm] at h
        simp only [GoResult.ok.injEq] at h
        refine ⟨ms1, kvs, ms2, rfl, hd, hk, hsorted, h1, h.symm, h2, ?_, ?_⟩
        · exact h3 "type" (.str name) (.str name) (lookup_mapSet_self _ _ _)
            (by simp [marshalValue])
        · intro k; rw [hkeys k]; simp
    · simp [hd] at h

theorem CopySource.marshalJSON_eq (s : CopySource) :
    s.MarshalJSON = marshalWithType s.variantName s.wrapper := by
  cases s <;> rfl

theorem mem_memberIf (b : Bool) (n k : String) : k ∈ memberIf b n ↔ b = true ∧ k = n := by
  cases b <;> simp [memberIf]

theorem keys_marshalFields (fs : List (String × Bool × GoValue)) (k : String) :
    k ∈ (marshalFields fs).map Prod.fst ↔
      ∃ f ∈ fs, k = f.1 ∧ ¬ (f.2.1 = true ∧ isEmptyValue f.2.2 = true) := by
  induction fs with
  | nil => simp [marshalFields]
  | cons hd tl ih =>
    obtain ⟨n, o, v⟩ := hd
    cases o <;> cases h : isEmptyValue v <;>
      simp [marshalFields, h, ih]

theorem isEmpty_ptr (p : Option GoValue) : isEmptyValue (.ptr p) = p.isNone := rfl

theorem wrapper_keys_azure (s : AzurePostgreSqlSource) (k : String) :
    (k = "type" ∨ ∃ f ∈ [
      ("additionalColumns", true, GoValue.ptr s.AdditionalColumns),
      ("query", true, .ptr s.Query),
      ("queryTimeout", true, .ptr s.QueryTimeout),
      ("disableMetricsCollection", true, .ptr (s.DisableMetricsCollection.map .bool)),
      ("maxConcurrentConnections", true, .ptr (s.MaxConcurrentConnections.map .int)),
      ("sourceRetryCount", true, .ptr (s.SourceRetryCount.map .int)),
      ("sourceRetryWait", true, .ptr s.SourceRetryWait),
      ("type", false, .str s.Type_)], k = f.1 ∧ ¬ (f.2.1 = true ∧ isEmptyValue f.2.2 = true)) ↔
        k ∈ (CopySource.azurePostgreSql s).expectedMembers := by
  simp only [CopySource.expectedMembers, List.mem_append, mem_memberIf, List.mem_cons,
    List.mem_singleton, exists_eq_or_imp, isEmpty_ptr, Option.isNone_map', List.not_mem_nil,
    false_and, exists_false, or_false, true_and, Option.isNone_iff_eq_none,
    Option.isSome_iff_ne_none, ne_eq, Bool.false_eq_true, not_false_eq_true, and_true]
  simp only [exists_eq_left, Bool.false_eq_true, false_and, not_false_eq_true, and_true,
    or_assoc]
  constructor
  · rintro (h | ⟨h, h'⟩ | ⟨h, h'⟩ | ⟨h, h'⟩ | ⟨h, h'⟩ | ⟨h, h'⟩ | ⟨h, h'⟩ | ⟨h, h'⟩ | h) <;>
      simp [*]
  · rintro (h | ⟨h', h⟩ | ⟨h', h⟩ | ⟨h', h⟩ | ⟨h', h⟩ | ⟨h', h⟩ | ⟨h', h⟩ | ⟨h', h⟩) <;>
      simp [*]

theorem wrapper_keys_magento (s : MagentoSource) (k : String) :
    (k = "type" ∨ ∃ f ∈ [
      ("additionalColumns", true, GoValue.ptr s.AdditionalColumns),
      ("query", true, .ptr s.Query),
      ("queryTimeout", true, .ptr s.QueryTimeout),
      ("disableMetricsCollection", true, .ptr (s.DisableMetricsCollection.map .bool)),
      ("maxConcurrentConnections", true, .ptr (s.MaxConcurrentConnections.map .int)),
      ("sourceRetryCount", true, .ptr (s.SourceRetryCount.map .int)),
      ("sourceRetryWait", true, .ptr s.SourceRetryWait),
      ("type", false, .str s.Type_)], k = f.1 ∧ ¬ (f.2.1 = true ∧ isEmptyValue f.2.2 = true)) ↔
        k ∈ (CopySource.magento s).expectedMembers := by
  simp only [CopySource.expectedMembers, List.mem_append, mem_memberIf, List.mem_cons,
    List.mem_singleton, exists_eq_or_imp, isEmpty_ptr, Option.isNone_map', List.not_mem_nil,
    false_and, exists_false, or_false, true_and, Option.isNone_iff_eq_none,
    Option.isSome_iff_ne_none, ne_eq, Bool.false_eq_true, not_false_eq_true, and_true]
  simp only [exists_eq_left, Bool.false_eq_true, false_and, not_false_eq_true, and_true,
    or_assoc]
  constructor
  · rintro (h | ⟨h, h'⟩ | ⟨h, h'⟩ | ⟨h, h'⟩ | ⟨h, h'⟩ | ⟨h, h'⟩ | ⟨h, h'⟩ | ⟨h, h'⟩ | h) <;>
      simp [*]
  · rintro (h | ⟨h', h⟩ | ⟨h', h⟩ | ⟨h', h⟩ | ⟨h', h⟩ | ⟨h', h⟩ | ⟨h', h⟩ | ⟨h', h⟩) <;>
      simp [*]

theorem wrapper_keys_access (s : MicrosoftAccessSource) (k : String) :
    (k = "type" ∨ ∃ f ∈ [
      ("additionalColumns", true, GoValue.ptr s.AdditionalColumns),
      ("query", true, .ptr s.Query),
      ("disableMetricsCollection", true, .ptr (s.DisableMetricsCollection.map .bool)),
      ("maxConcurrentConnections", true, .ptr (s.MaxConcurrentConnections.map .int)),
      ("sourceRetryCount", true, .ptr (s.SourceRetryCount.map .int)),
      ("sourceRetryWait", true, .ptr s.SourceRetryWait),
      ("type", false, .str s.Type_)], k = f.1 ∧ ¬ (f.2.1 = true ∧ isEmptyValue f.2.2 = true)) ↔
        k ∈ (CopySource.microsoftAccess s).expectedMembers := by
  simp only [CopySource.expectedMembers, List.mem_append, mem_memberIf, List.mem_cons,
    List.mem_singleton, exists_eq_or_imp, isEmpty_ptr, Option.isNone_map', List.not_mem_nil,
    false_and, exists_false, or_false, true_and, Option.isNone_iff_eq_none,
    Option.isSome_iff_ne_none, ne_eq, Bool.false_eq_true, not_false_eq_true, and_true]
  simp only [exists_eq_left, Bool.false_eq_true, false_and, not_false_eq_true, and_true,
    or_assoc]
  constructor
  · rintro (h | ⟨h, h'⟩ | ⟨h, h'⟩ | ⟨h, h'⟩ | ⟨h, h'⟩ | ⟨h, h'⟩ | ⟨h, h'⟩ | h) <;>
      simp [*]
  · rintro (h | ⟨h', h⟩ | ⟨h', h⟩ | ⟨h', h⟩ | ⟨h', h⟩ | ⟨h', h⟩ | ⟨h', h⟩) <;>
      simp [*]

theorem wrapper_keys_v2 (s : PostgreSqlV2Source) (k : String) :
    (k = "type" ∨ ∃ f ∈ [
      ("additionalColumns", true, GoValue.ptr s.AdditionalColumns),
      ("query", true, .ptr s.Query),
      ("queryTimeout", true, .ptr s.QueryTimeout),
      ("disableMetricsCollection", true, .ptr (s.DisableMetricsCollection.map .bool)),
      ("maxConcurrentConnections", true, .ptr (s.MaxConcurrentConnections.map .int)),
      ("sourceRetryCount", true, .ptr (s.SourceRetryCount.map .int)),
      ("sourceRetryWait", true, .ptr s.SourceRetryWait),
      ("type", false, .str s.Type_)], k = f.1 ∧ ¬ (f.2.1 = true ∧ isEmptyValue f.2.2 = true)) ↔
        k ∈ (CopySource.postgreSqlV2 s).expectedMembers := by
  simp only [CopySource.expectedMembers, List.mem_append, mem_memberIf, List.mem_cons,
    List.mem_singleton, exists_eq_or_imp, isEmpty_ptr, Option.isNone_map', List.not_mem_nil,
    false_and, exists_false, or_false, true_and, Option.isNone_iff_eq_none,
    Option.isSome_iff_ne_none, ne_eq, Bool.false_eq_true, not_false_eq_true, and_true]
  simp only [exists_eq_left, Bool.false_eq_true, false_and, not_false_eq_true, and_true,
    or_assoc]
  constructor
  · rintro (h | ⟨h, h'⟩ | ⟨h, h'⟩ | ⟨h, h'⟩ | ⟨h, h'⟩ | ⟨h, h'⟩ | ⟨h, h'⟩ | ⟨h, h'⟩ | h) <;>
      simp [*]
  · rintro (h | ⟨h', h⟩ | ⟨h', h⟩ | ⟨h', h⟩ | ⟨h', h⟩ | ⟨h', h⟩ | ⟨h', h⟩ | ⟨h', h⟩) <;>
      simp [*]

theorem wrapper_keys (s : CopySource) :
    ∃ fs, s.wrapper = .struct fs ∧
      ∀ k, (k = "type" ∨ ∃ f ∈ fs, k = f.1 ∧ ¬ (f.2.1 = true ∧ isEmptyValue f.2.2 = true)) ↔
        k ∈ s.expectedMembers := by
  cases s with
  | azurePostgreSql s => exact ⟨_, rfl, wrapper_keys_azure s⟩
  | magento s => exact ⟨_, rfl, wrapper_keys_magento s⟩
  | microsoftAccess s => exact ⟨_, rfl, wrapper_keys_access s⟩
  | postgreSqlV2 s => exact ⟨_, rfl, wrapper_keys_v2 s⟩

theorem keysSorted_nodup {α : Type} (l : List (String × α)) (h : KeysSorted l) :
    (l.map Prod.fst).Nodup := by
  unfold KeysSorted at h
  rw [List.Nodup, List.pairwise_map]
  refine h.imp ?_
  intro a b hab heq
  rw [heq, keyLt_irrefl] at hab
  exact absurd hab (by simp)

/-- What every successful `MarshalJSON` returns: the rendering of an object whose
members are in key order, with `type` holding the name of the variant and the
other members being those of the first encoding. -/
theorem CopySource.marshalJSON_ok_inv (s : CopySource) (bytes : String)
    (h : s.MarshalJSON = .ok bytes) :
    ∃ ms, bytes = String.mk (render (.obj ms)) ∧
      ms.lookup "type" = some (.str s.variantName) ∧
      (ms.map Prod.fst).Nodup ∧ ∀ k, k ∈ ms.map Prod.fst ↔ k ∈ s.expectedMembers := by
  obtain ⟨fs, hfs, hkeys⟩ := wrapper_keys s
  rw [CopySource.marshalJSON_eq, hfs] at h
  obtain ⟨ms1, kvs, ms2, h1, _, _, h4, _, h6, h7, h8, h9⟩ :=
    marshalWithType_ok_inv _ _ _ h
  refine ⟨ms2, h6, h8, ?_, ?_⟩
  · rw [h7]
    exact keysSorted_nodup _ (mapSet_sorted _ _ _ h4)
  · intro k
    rw [h7, keys_mapSet, h9 k, ← hkeys k]
    have hm := sequenceMembers_ok_inv _ _ h1
    have : k ∈ ms1.map Prod.fst ↔ k ∈ (marshalFields fs).map Prod.fst := by
      rw [hm]; simp
    rw [this, keys_marshalFields]


/-- C1: whenever `MarshalJSON` of a copy source succeeds, the bytes are the
rendering of a JSON object whose member `type` is the string naming the variant
(`AzurePostgreSqlSource`, `MagentoSource`, `MicrosoftAccessSource`,
`PostgreSqlV2Source`), whatever the field `Type` of the value holds. -/
theorem C1_type_member_is_variant_name (s : CopySource) (bytes : String)
    (h : s.MarshalJSON = .ok bytes) :
    ∃ ms, bytes = String.mk (Json.render (.obj ms)) ∧
      ms.lookup "type" = some (.str s.variantName) := by
  obtain ⟨ms, h1, h2, _, _⟩ := CopySource.marshalJSON_ok_inv s bytes h
  exact ⟨ms, h1, h2⟩

/-- Witness of C1: a `MagentoSource` whose `Type` field holds another name. -/
theorem C1_type_member_is_variant_name_witness :
    CopySource.MarshalJSON (.magento
        { AdditionalColumns := none, Query := some (.str "q"), QueryTimeout := none,
          DisableMetricsCollection := none, MaxConcurrentConnections := none,
          SourceRetryCount := none, SourceRetryWait := none, Type_ := "OracleSource" }) =
      .ok "\x7b\"query\":\"q\",\"type\":\"MagentoSource\"\x7d" ∧
    ∃ ms, "\x7b\"query\":\"q\",\"type\":\"MagentoSource\"\x7d" =
        String.mk (Json.render (.obj ms)) ∧
      ms.lookup "type" = some (.str "MagentoSource") :=
  ⟨by decide, C1_type_member_is_variant_name
    (.magento
      { AdditionalColumns := none, Query := some (.str "q"), QueryTimeout := none,
        DisableMetricsCollection := none, MaxConcurrentConnections := none,
        SourceRetryCount := none, SourceRetryWait := none, Type_ := "OracleSource" })
    "\x7b\"query\":\"q\",\"type\":\"MagentoSource\"\x7d" (by decide)⟩

/-- C2: two copy sources of different variants never marshal to the same bytes,
whatever their fields hold (equal fields included). -/
theorem C2_variants_marshal_differently (a b : CopySource)
    (hv : a.variantName ≠ b.variantName) (x y : String)
    (ha : a.MarshalJSON = .ok x) (hb : b.MarshalJSON = .ok y) : x ≠ y := by
  obtain ⟨ms1, h1, h2, _, _⟩ := CopySource.marshalJSON_ok_inv a x ha
  obtain ⟨ms2, h3, h4, _, _⟩ := CopySource.marshalJSON_ok_inv b y hb
  intro hxy
  rw [h1, h3] at hxy
  have hr : Json.render (.obj ms1) = Json.render (.obj ms2) := congrArg String.data hxy
  have hj := Json.render_injective _ _ hr
  simp only [Json.obj.injEq] at hj
  rw [hj, h4] at h2
  simp only [Option.some.injEq, Json.str.injEq] at h2
  exact hv h2.symm

/-- Witness of C2: an `AzurePostgreSqlSource` and a `MagentoSource` with the same
value in every field, `Type` included. -/
theorem C2_variants_marshal_differently_witness :
    "\x7b\"query\":\"q\",\"type\":\"AzurePostgreSqlSource\"\x7d" ≠
      "\x7b\"query\":\"q\",\"type\":\"MagentoSource\"\x7d" :=
  C2_variants_marshal_differently
    (.azurePostgreSql
      { AdditionalColumns := none, Query := some (.str "q"), QueryTimeout := none,
        DisableMetricsCollection := none, MaxConcurrentConnections := none,
        SourceRetryCount := none, SourceRetryWait := none, Type_ := "CopySource" })
    (.magento
      { AdditionalColumns := none, Query := some (.str "q"), QueryTimeout := none,
        DisableMetricsCollection := none, MaxConcurrentConnections := none,
        SourceRetryCount := none, SourceRetryWait := none, Type_ := "CopySource" })
    (by decide) "\x7b\"query\":\"q\",\"type\":\"AzurePostgreSqlSource\"\x7d"
    "\x7b\"query\":\"q\",\"type\":\"MagentoSource\"\x7d" (by decide) (by decide)

/-- C7: whenever `MarshalJSON` of a copy source succeeds, the output object has
each member once, and its members are exactly the expected ones: `type`, and each
of `additionalColumns`, `query`, `queryTimeout`, `disableMetricsCollection`,
`maxConcurrentConnections`, `sourceRetryCount`, `sourceRetryWait` exactly when the
pointer field is non-nil (no `queryTimeout` for `MicrosoftAccessSource`). -/
theorem C7_members_follow_field_presence (s : CopySource) (bytes : String)
    (h : s.MarshalJSON = .ok bytes) :
    ∃ ms, bytes = String.mk (Json.render (.obj ms)) ∧ (ms.map Prod.fst).Nodup ∧
      ∀ k, k ∈ ms.map Prod.fst ↔ k ∈ s.expectedMembers := by
  obtain ⟨ms, h1, _, h3, h4⟩ := CopySource.marshalJSON_ok_inv s bytes h
  exact ⟨ms, h1, h3, h4⟩

/-- Witness of C7: a `MicrosoftAccessSource` with two pointers set, one of them
to a nil interface. -/
theorem C7_members_follow_field_presence_witness :
    ∃ ms, "\x7b\"disableMetricsCollection\":false,\"query\":null,\"type\":\"MicrosoftAccessSource\"\x7d" =
        String.mk (Json.render (.obj ms)) ∧ (ms.map Prod.fst).Nodup ∧
      ∀ k, k ∈ ms.map Prod.fst ↔ k ∈ ["type", "query", "disableMetricsCollection"] :=
  C7_members_follow_field_presence
    (.microsoftAccess
      { AdditionalColumns := none, Query := some .nil,
        DisableMetricsCollection := some false, MaxConcurrentConnections := none,
        SourceRetryCount := none, SourceRetryWait := none, Type_ := "" })
    "\x7b\"disableMetricsCollection\":false,\"query\":null,\"type\":\"MicrosoftAccessSource\"\x7d"
    (by decide)

theorem CopySource.wrapper_struct (s : CopySource) : ∃ fs, s.wrapper = .struct fs := by
  cases s <;> exact ⟨_, rfl⟩

theorem unmarshal_struct_ne_none (fs : List (String × Bool × GoValue)) (enc : String)
    (h : json.Marshal (.struct fs) = .ok enc) : json.Unmarshal enc ≠ .ok none := by
  rw [marshal_struct] at h
  cases hs : sequenceMembers (marshalFields fs) with
  | error e => simp [hs] at h
  | ok ms =>
    simp only [hs, Except.ok.injEq] at h
    subst h
    rw [unmarshal_render_obj]
    by_cases hd : Json.depth (.obj ms) ≤ Json.maxNestingDepth
    · simp only [hd, if_true]
      cases toGoMembers ms [] <;> simp
    · simp [hd]

/-- C8 (failing input): an `int64` above `2 ^ 53` does not survive `MarshalJSON`.
The value `9007199254740993` of `MaxConcurrentConnections`, and of
`SourceRetryCount`, is written as `9007199254740992`: the decoder stores every
number of the first encoding as a float64. -/
theorem C8_int64_member_loses_precision :
    AzurePostgreSqlSource.MarshalJSON
        { AdditionalColumns := none, Query := none, QueryTimeout := none,
          DisableMetricsCollection := none, MaxConcurrentConnections := some 9007199254740993,
          SourceRetryCount := none, SourceRetryWait := none, Type_ := "" } =
      .ok "\x7b\"maxConcurrentConnections\":9007199254740992,\"type\":\"AzurePostgreSqlSource\"\x7d" ∧
    MicrosoftAccessSource.MarshalJSON
        { AdditionalColumns := none, Query := none,
          DisableMetricsCollection := none, MaxConcurrentConnections := none,
          SourceRetryCount := some 9007199254740993, SourceRetryWait := none, Type_ := "" } =
      .ok "\x7b\"sourceRetryCount\":9007199254740992,\"type\":\"MicrosoftAccessSource\"\x7d" ∧
    json.Marshal (.ptr (some (.int 9007199254740993))) = .ok "9007199254740993" := by
  refine ⟨by decide, by decide, by rfl⟩

/-- C9: `CopySource()` of each variant is the base whose five fields are the
same-named fields of the value, so that values of one variant that differ only
in `AdditionalColumns`, `Query` or `QueryTimeout` have the same projection. -/
theorem C9_copySource_projects_base_fields :
    (∀ s : AzurePostgreSqlSource, s.CopySource =
      { DisableMetricsCollection := s.DisableMetricsCollection,
        MaxConcurrentConnections := s.MaxConcurrentConnections,
        SourceRetryCount := s.SourceRetryCount, SourceRetryWait := s.SourceRetryWait,
        Type_ := s.Type_ }) ∧
    (∀ s : MagentoSource, s.CopySource =
      { DisableMetricsCollection := s.DisableMetricsCollection,
        MaxConcurrentConnections := s.MaxConcurrentConnections,
        SourceRetryCount := s.SourceRetryCount, SourceRetryWait := s.SourceRetryWait,
        Type_ := s.Type_ }) ∧
    (∀ s : MicrosoftAccessSource, s.CopySource =
      { DisableMetricsCollection := s.DisableMetricsCollection,
        MaxConcurrentConnections := s.MaxConcurrentConnections,
        SourceRetryCount := s.SourceRetryCount, SourceRetryWait := s.SourceRetryWait,
        Type_ := s.Type_ }) ∧
    (∀ s : PostgreSqlV2Source, s.CopySource =
      { DisableMetricsCollection := s.DisableMetricsCollection,
        MaxConcurrentConnections := s.MaxConcurrentConnections,
        SourceRetryCount := s.SourceRetryCount, SourceRetryWait := s.SourceRetryWait,
        Type_ := s.Type_ }) ∧
    (∀ (s : AzurePostgreSqlSource) (a q t : Option GoValue),
      AzurePostgreSqlSource.CopySource
        { s with AdditionalColumns := a, Query := q, QueryTimeout := t } = s.CopySource) ∧
    (∀ (s : MagentoSource) (a q t : Option GoValue),
      MagentoSource.CopySource
        { s with AdditionalColumns := a, Query := q, QueryTimeout := t } = s.CopySource) ∧
    (∀ (s : MicrosoftAccessSource) (a q : Option GoValue),
      MicrosoftAccessSource.CopySource
        { s with AdditionalColumns := a, Query := q } = s.CopySource) ∧
    (∀ (s : PostgreSqlV2Source) (a q t : Option GoValue),
      PostgreSqlV2Source.CopySource
        { s with AdditionalColumns := a, Query := q, QueryTimeout := t } = s.CopySource) :=
  ⟨fun _ => rfl, fun _ => rfl, fun _ => rfl, fun _ => rfl,
    fun _ _ _ _ => rfl, fun _ _ _ _ => rfl, fun _ _ _ => rfl, fun _ _ _ _ => rfl⟩

/-- C10: `MarshalJSON` fails exactly when one of its three JSON steps fails, with
the error of that step behind `marshaling <Variant>: `, `unmarshaling <Variant>: `
or `re-marshaling <Variant>: `; it returns bytes exactly when all three succeed,
and the bytes are the re-encoding; and it never panics. -/
theorem C10_marshalJSON_propagates_step_errors (s : CopySource) :
    (∀ msg, s.MarshalJSON = .error msg ↔
      (∃ e, json.Marshal s.wrapper = .error e ∧
        msg = "marshaling " ++ s.variantName ++ ": " ++ e) ∨
      (∃ enc e, json.Marshal s.wrapper = .ok enc ∧ json.Unmarshal enc = .error e ∧
        msg = "unmarshaling " ++ s.variantName ++ ": " ++ e) ∨
      (∃ enc m e, json.Marshal s.wrapper = .ok enc ∧ json.Unmarshal enc = .ok (some m) ∧
        json.Marshal (.map (json.mapSet "type" (.str s.variantName) m)) = .error e ∧
        msg = "re-marshaling " ++ s.variantName ++ ": " ++ e)) ∧
    (∀ bytes, s.MarshalJSON = .ok bytes ↔
      ∃ enc m, json.Marshal s.wrapper = .ok enc ∧ json.Unmarshal enc = .ok (some m) ∧
        json.Marshal (.map (json.mapSet "type" (.str s.variantName) m)) = .ok bytes) ∧
    (∀ msg, s.MarshalJSON ≠ .panic msg) := by
  obtain ⟨fs, hfs⟩ := CopySource.wrapper_struct s
  rw [CopySource.marshalJSON_eq, hfs]
  unfold marshalWithType
  cases h1 : json.Marshal (.struct fs) with
  | error e =>
    simp
    try exact fun msg => eq_comm
  | ok enc =>
    have hne := unmarshal_struct_ne_none fs enc h1
    cases h2 : json.Unmarshal enc with
    | error e =>
      simp [h2]
      try exact fun msg => eq_comm
    | ok r =>
      cases r with
      | none => exact absurd h2 hne
      | some m =>
        cases h3 : json.Marshal (.map (json.mapSet "type" (.str s.variantName) m)) with
        | error e =>
          simp [h2, h3]
          try exact fun msg => eq_comm
        | ok b =>
          simp [h2, h3]
          try exact fun msg => eq_comm

end pipelines

/-! ## The validator: claims C3 to C6 -/

namespace validate

theorem splitSlash_ne_nil (l : List Char) : splitSlash l ≠ [] := by
  cases l with
  | nil => simp [splitSlash]
  | cons c cs =>
    simp only [splitSlash]
    split
    · simp
    · split <;> simp

theorem splitSlash_cons_slash (cs : List Char) : splitSlash ('/' :: cs) = [] :: splitSlash cs := by
  simp [splitSlash]

theorem splitSlash_cons_other (c : Char) (cs : List Char) (h : c ≠ '/') :
    ∃ seg segs, splitSlash cs = seg :: segs ∧ splitSlash (c :: cs) = (c :: seg) :: segs := by
  cases hs : splitSlash cs with
  | nil => exact absurd hs (splitSlash_ne_nil cs)
  | cons seg segs => exact ⟨seg, segs, rfl, by simp [splitSlash, h, hs]⟩

theorem splitSlash_append (a b : List Char) :
    splitSlash (a ++ '/' :: b) = splitSlash a ++ splitSlash b := by
  induction a with
  | nil => simp [splitSlash]
  | cons c cs ih =>
    by_cases hc : c = '/'
    · subst hc
      simp only [List.cons_append, splitSlash_cons_slash, ih]
    · obtain ⟨seg, segs, h1, h2⟩ := splitSlash_cons_other c cs hc
      obtain ⟨seg', segs', h1', h2'⟩ := splitSlash_cons_other c (cs ++ '/' :: b) hc
      rw [List.cons_append, h2', h2]
      rw [ih, h1] at h1'
      simp only [List.cons_append, List.cons.injEq] at h1'
      simp [h1'.1, h1'.2]

theorem splitSlash_segment (a : List Char) (h : '/' ∉ a) : splitSlash a = [a] := by
  induction a with
  | nil => rfl
  | cons c cs ih =>
    have hc : c ≠ '/' := fun e => h (e ▸ List.mem_cons_self _ _)
    have hcs : '/' ∉ cs := fun e => h (List.mem_cons_of_mem _ e)
    simp [splitSlash, hc, ih hcs]

theorem splitSlash_segment_append (a b : List Char) (h : '/' ∉ a) :
    splitSlash (a ++ '/' :: b) = a :: splitSlash b := by
  rw [splitSlash_append, splitSlash_segment a h]; rfl

theorem splitSlash_length (l : List Char) : (splitSlash l).length = l.count '/' + 1 := by
  induction l with
  | nil => rfl
  | cons c cs ih =>
    by_cases hc : c = '/'
    · subst hc
      simp [splitSlash_cons_slash, ih]
    · obtain ⟨seg, segs, h1, h2⟩ := splitSlash_cons_other c cs hc
      rw [h2, List.count_cons_of_ne (Ne.symm hc), ← ih, h1]
      simp

theorem buildId_data (sub group component item : String) :
    (buildId sub group component item).data =
      '/' :: ("subscriptions".data ++ '/' :: (sub.data ++ '/' :: ("resourceGroups".data ++
        '/' :: (group.data ++ '/' :: ("providers".data ++ '/' :: ("Microsoft.Insights".data ++
        '/' :: ("components".data ++ '/' :: (component.data ++ '/' ::
        ("myAnalyticsItems".data ++ '/' :: item.data))))))))) := by
  simp [buildId, String.data_append]

theorem buildId_eq_stem (sub group component item : String) :
    (buildId sub group component item).data =
      (buildStem sub group component).data ++ item.data := by
  simp [buildId, buildStem, String.data_append]



theorem splitSlash_buildId (sub group component item : String)
    (hs : '/' ∉ sub.data) (hg : '/' ∉ group.data) (hc : '/' ∉ component.data)
    (hi : '/' ∉ item.data) :
    splitSlash (buildId sub group component item).data =
      [[], "subscriptions".data, sub.data, "resourceGroups".data, group.data,
        "providers".data, "Microsoft.Insights".data, "components".data, component.data,
        "myAnalyticsItems".data, item.data] := by
  rw [buildId_data, splitSlash_cons_slash,
    splitSlash_segment_append _ _ (by decide), splitSlash_segment_append _ _ hs,
    splitSlash_segment_append _ _ (by decide), splitSlash_segment_append _ _ hg,
    splitSlash_segment_append _ _ (by decide), splitSlash_segment_append _ _ (by decide),
    splitSlash_segment_append _ _ (by decide), splitSlash_segment_append _ _ hc,
    splitSlash_segment_append _ _ (by decide), splitSlash_segment _ hi]

theorem parse_buildId (sub group component item : String)
    (hs : IsSegment sub) (hg : IsSegment group) (hc : IsSegment component)
    (hi : IsSegment item) :
    parseAnalyticsUserItemID (buildId sub group component item) =
      .ok { SubscriptionId := sub, ResourceGroup := group, Provider := "Microsoft.Insights",
            ComponentName := component, MyAnalyticsItemName := item } := by
  unfold parseAnalyticsUserItemID
  rw [splitSlash_buildId sub group component item hs.2 hg.2 hc.2 hi.2]
  simp [hs.1, hg.1, hc.1, hi.1]

theorem parse_ok_inv (input : String) (id : AnalyticsUserItemId)
    (h : parseAnalyticsUserItemID input = .ok id) :
    ∃ sub grp ns comp item, splitSlash input.data =
      [[], "subscriptions".data, sub, "resourceGroups".data, grp, "providers".data, ns,
        "components".data, comp, "myAnalyticsItems".data, item] ∧ item ≠ [] := by
  unfold parseAnalyticsUserItemID at h
  split at h
  · next e k1 sub k2 grp k3 ns k4 comp k5 item heq =>
    split at h
    · next hcond =>
      obtain ⟨h0, h1, _, h2, _, h3, _, h4, _, h5, h6⟩ := hcond
      subst h0 h1 h2 h3 h4 h5
      exact ⟨sub, grp, ns, comp, item, heq, h6⟩
    · simp at h
  · simp at h

theorem validator_accepts_iff (input key : String) :
    (AnalyticsUserItemID input key).2 = [] ↔ ∃ id, parseAnalyticsUserItemID input = .ok id := by
  unfold AnalyticsUserItemID
  cases parseAnalyticsUserItemID input <;> simp



theorem splitSlash_head_inv (l t : List Char) (x : Char) (more : List (List Char))
    (h : splitSlash l = [] :: (x :: t) :: more) : ∃ rest, l = '/' :: x :: rest := by
  cases l with
  | nil => simp [splitSlash] at h
  | cons c cs =>
    by_cases hc : c = '/'
    · subst hc
      rw [splitSlash_cons_slash] at h
      simp only [List.cons.injEq, true_and] at h
      cases cs with
      | nil => simp [splitSlash] at h
      | cons d ds =>
        by_cases hd : d = '/'
        · subst hd
          rw [splitSlash_cons_slash] at h
          simp at h
        · obtain ⟨seg, segs, _, h2⟩ := splitSlash_cons_other d ds hd
          rw [h2] at h
          simp only [List.cons.injEq] at h
          exact ⟨ds, by rw [h.1.1]⟩
    · obtain ⟨seg, segs, _, h2⟩ := splitSlash_cons_other c cs hc
      rw [h2] at h
      simp at h

theorem upper_rejected (input : String) (id : AnalyticsUserItemId)
    (h : parseAnalyticsUserItemID input = .ok id) (id' : AnalyticsUserItemId) :
    parseAnalyticsUserItemID (upperCase input) ≠ .ok id' := by
  intro h'
  obtain ⟨sub, grp, ns, comp, item, hsplit, _⟩ := parse_ok_inv input id h
  obtain ⟨sub', grp', ns', comp', item', hsplit', _⟩ := parse_ok_inv _ id' h'
  obtain ⟨rest, hrest⟩ := splitSlash_head_inv input.data _ 's' _ hsplit
  have hup : (upperCase input).data = '/' :: 'S' :: rest.map Char.toUpper := by
    simp only [upperCase, hrest, List.map_cons]
    rfl
  rw [hup, splitSlash_cons_slash] at hsplit'
  obtain ⟨seg, segs, _, h2⟩ := splitSlash_cons_other 'S' (rest.map Char.toUpper) (by decide)
  rw [h2] at hsplit'
  simp only [List.cons.injEq, true_and] at hsplit'
  have := hsplit'.1.1
  exact absurd this (by decide)



theorem buildStem_data (sub group component : String) :
    (buildStem sub group component).data =
      ("/subscriptions/".data ++ sub.data ++ "/resourceGroups/".data ++ group.data ++
        "/providers/Microsoft.Insights/components/".data ++ component.data ++
        "/myAnalyticsItems".data) ++ ['/'] := by
  simp [buildStem, String.data_append]

theorem count_of_not_mem (l : List Char) (h : '/' ∉ l) : l.count '/' = 0 :=
  List.count_eq_zero_of_not_mem h

theorem buildStem_count (sub group component : String)
    (hs : '/' ∉ sub.data) (hg : '/' ∉ group.data) (hc : '/' ∉ component.data) :
    (buildStem sub group component).data.count '/' = 10 := by
  rw [buildStem_data]
  simp only [List.count_append, count_of_not_mem _ hs, count_of_not_mem _ hg,
    count_of_not_mem _ hc]
  decide

theorem splitSlash_snoc_slash (l : List Char) :
    splitSlash (l ++ ['/']) = splitSlash l ++ [[]] := by
  rw [splitSlash_append]; rfl

theorem stem_prefix_rejected (sub group component : String)
    (hs : '/' ∉ sub.data) (hg : '/' ∉ group.data) (hc : '/' ∉ component.data)
    (n : Nat) (id : AnalyticsUserItemId) :
    parseAnalyticsUserItemID (String.mk ((buildStem sub group component).data.take n)) ≠
      .ok id := by
  intro h
  obtain ⟨sub', grp', ns', comp', item', hsplit, hitem⟩ := parse_ok_inv _ id h
  simp only at hsplit
  have hcount := buildStem_count sub group component hs hg hc
  have hlen := splitSlash_length ((buildStem sub group component).data.take n)
  rw [hsplit] at hlen
  simp only [List.length_cons, List.length_nil] at hlen
  have hp : ((buildStem sub group component).data.take n).count '/' = 10 := by omega
  have hsplitW : (buildStem sub group component).data.take n ++
      (buildStem sub group component).data.drop n = (buildStem sub group component).data :=
    List.take_append_drop _ _
  have hq : ((buildStem sub group component).data.drop n).count '/' = 0 := by
    have := congrArg (List.count '/') hsplitW
    rw [List.count_append, hcount, hp] at this
    omega
  have hdrop : (buildStem sub group component).data.drop n = [] := by
    by_contra hne
    have hlast : ((buildStem sub group component).data.drop n).getLast hne = '/' := by
      rw [List.getLast_drop]
      simp only [buildStem_data]
      simp
    have hmem : '/' ∈ (buildStem sub group component).data.drop n := by
      rw [← hlast]; exact List.getLast_mem hne
    have := List.count_pos_iff.2 hmem
    omega
  rw [hdrop, List.append_nil] at hsplitW
  rw [hsplitW, buildStem_data, splitSlash_snoc_slash] at hsplit
  have hl := congrArg List.getLast? hsplit
  simp at hl
  exact hitem hl



/-- C3: the validator accepts every identifier of the grammar: for non-empty
values without a slash, `AnalyticsUserItemID` returns no error, for every key. -/
theorem C3_validator_accepts_grammar (sub group component item key : String)
    (hs : IsSegment sub) (hg : IsSegment group) (hc : IsSegment component)
    (hi : IsSegment item) :
    (AnalyticsUserItemID (buildId sub group component item) key).2 = [] := by
  rw [validator_accepts_iff]
  exact ⟨_, parse_buildId sub group component item hs hg hc hi⟩

/-- Witness of C3: the valid identifier of the test table. -/
theorem C3_validator_accepts_grammar_witness :
    (AnalyticsUserItemID
      "/subscriptions/12345678-1234-9876-4563-123456789012/resourceGroups/group1/providers/Microsoft.Insights/components/component1/myAnalyticsItems/item1"
      "test").2 = [] :=
  C3_validator_accepts_grammar "12345678-1234-9876-4563-123456789012" "group1" "component1"
    "item1" "test" ⟨by decide, by decide⟩ ⟨by decide, by decide⟩ ⟨by decide, by decide⟩
    ⟨by decide, by decide⟩

/-- C4: the validator is case-sensitive: the upper-cased form of an accepted
identifier is rejected. -/
theorem C4_validator_rejects_upper_case (input key : String)
    (h : (AnalyticsUserItemID input key).2 = []) :
    (AnalyticsUserItemID (upperCase input) key).2 ≠ [] := by
  obtain ⟨id, hid⟩ := (validator_accepts_iff input key).1 h
  intro h'
  obtain ⟨id', hid'⟩ := (validator_accepts_iff _ key).1 h'
  exact upper_rejected input id hid id' hid'

/-- Witness of C4: the valid identifier of the test table and its upper-cased
form, which is the last case of the table. -/
theorem C4_validator_rejects_upper_case_witness :
    (AnalyticsUserItemID
      "/SUBSCRIPTIONS/12345678-1234-9876-4563-123456789012/RESOURCEGROUPS/GROUP1/PROVIDERS/MICROSOFT.INSIGHTS/COMPONENTS/COMPONENT1/MYANALYTICSITEMS/ITEM1"
      "test").2 ≠ [] :=
  C4_validator_rejects_upper_case
    "/subscriptions/12345678-1234-9876-4563-123456789012/resourceGroups/group1/providers/Microsoft.Insights/components/component1/myAnalyticsItems/item1"
    "test" (by decide)

/-- C5: the validator rejects every truncated identifier: a prefix of a valid
identifier that does not extend past the final `/myAnalyticsItems/` gives an
error. -/
theorem C5_validator_rejects_truncated (sub group component item key : String)
    (hs : IsSegment sub) (hg : IsSegment group) (hc : IsSegment component)
    (_hi : IsSegment item) (n : Nat) (hn : n ≤ (buildStem sub group component).data.length) :
    (AnalyticsUserItemID
      (String.mk ((buildId sub group component item).data.take n)) key).2 ≠ [] := by
  intro h
  obtain ⟨id, hid⟩ := (validator_accepts_iff _ key).1 h
  rw [buildId_eq_stem, List.take_append_of_le_length hn] at hid
  exact stem_prefix_rejected sub group component hs.2 hg.2 hc.2 n id hid

/-- Witness of C5: a valid identifier cut after `/subscriptions/`, which is the
third case of the test table. -/
theorem C5_validator_rejects_truncated_witness :
    (AnalyticsUserItemID "/subscriptions/" "test").2 ≠ [] :=
  C5_validator_rejects_truncated "s" "g" "c" "i" "test" ⟨by decide, by decide⟩
    ⟨by decide, by decide⟩ ⟨by decide, by decide⟩ ⟨by decide, by decide⟩ 15 (by decide)

/-- C6: parsing an identifier of the grammar gives back its four values, and
formatting the parsed identifier gives back the input. -/
theorem C6_parse_format_round_trip (sub group component item : String)
    (hs : IsSegment sub) (hg : IsSegment group) (hc : IsSegment component)
    (hi : IsSegment item) :
    ∃ id, parseAnalyticsUserItemID (buildId sub group component item) = .ok id ∧
      id.SubscriptionId = sub ∧ id.ResourceGroup = group ∧ id.ComponentName = component ∧
      id.MyAnalyticsItemName = item ∧ id.ID = buildId sub group component item := by
  refine ⟨_, parse_buildId sub group component item hs hg hc hi, rfl, rfl, rfl, rfl, ?_⟩
  apply String.ext
  simp [AnalyticsUserItemId.ID, buildId, String.data_append]

/-- Witness of C6: the valid identifier of the test table. -/
theorem C6_parse_format_round_trip_witness :
    ∃ id, parseAnalyticsUserItemID
        "/subscriptions/12345678-1234-9876-4563-123456789012/resourceGroups/group1/providers/Microsoft.Insights/components/component1/myAnalyticsItems/item1" =
          .ok id ∧
      id.SubscriptionId = "12345678-1234-9876-4563-123456789012" ∧
      id.ResourceGroup = "group1" ∧ id.ComponentName = "component1" ∧
      id.MyAnalyticsItemName = "item1" ∧
      id.ID = "/subscriptions/12345678-1234-9876-4563-123456789012/resourceGroups/group1/providers/Microsoft.Insights/components/component1/myAnalyticsItems/item1" :=
  C6_parse_format_round_trip "12345678-1234-9876-4563-123456789012" "group1" "component1"
    "item1" ⟨by decide, by decide⟩ ⟨by decide, by decide⟩ ⟨by decide, by decide⟩
    ⟨by decide, by decide⟩

/-- The modelled validator passes `TestAnalyticsUserItemID`: it agrees with the
`Valid` column on all eleven cases of the table. -/
theorem test_table_passes : TestAnalyticsUserItemID = true := by decide

end validate

/-! ## `Exists` of the Linux function app slot -/

namespace fmt

theorem errorf_retrieving (a b : String) :
    (Errorf "retrieving Linux Function App %s: %+v" [.str a, .str b]).data =
      "retrieving Linux Function App ".data ++ (a.data ++ (": ".data ++ b.data)) := by
  show run _ (scan .literal _) 0 false = _
  have h : scan .literal "retrieving Linux Function App %s: %+v".data =
      ("retrieving Linux Function App ".data.map Directive.text) ++
        (.verb false none 's' :: .text ':' :: .text ' ' :: .verb true none 'v' :: []) := by
    decide
  rw [h]
  simp [run, printArg]

end fmt

namespace appservice

/-- C11: when the identifier of the state does not parse, `Exists` returns a nil
result together with the error of the parser, and makes no `GetSlot` call. -/
theorem C11_exists_propagates_parse_failure {Id Resp : Type}
    (r : LinuxFunctionAppSlotResource) (api : SlotAPI Id Resp) (stateID e : String)
    (h : api.ParseSlotID stateID = .error e) :
    (r.Exists api stateID).result = none ∧ (r.Exists api stateID).err = some e ∧
      (r.Exists api stateID).calls = [] := by
  simp [LinuxFunctionAppSlotResource.Exists, h]

/-- Witness of C11: an identifier without the leading slash. -/
theorem C11_exists_propagates_parse_failure_witness :
    (LinuxFunctionAppSlotResource.Exists {} exampleAPI "slot").result = none ∧
      (LinuxFunctionAppSlotResource.Exists {} exampleAPI "slot").err =
        some "parsing slot as a slot ID" ∧
      (LinuxFunctionAppSlotResource.Exists {} exampleAPI "slot").calls = [] :=
  C11_exists_propagates_parse_failure {} exampleAPI "slot" "parsing slot as a slot ID" rfl

/-- C17: when the identifier parses, a not-found response gives a pointer to
false and no error, whether `GetSlot` returned an error or not; an error with
another response gives a nil result and an error that starts with
`retrieving Linux Function App `; and every other case gives a pointer to true
and no error. -/
theorem C17_exists_not_found_is_absence {Id Resp : Type}
    (r : LinuxFunctionAppSlotResource) (api : SlotAPI Id Resp) (stateID : String) (id : Id)
    (h : api.ParseSlotID stateID = .ok id) :
    (api.WasNotFound (api.GetSlot id).1 = true →
      (r.Exists api stateID).result = some false ∧ (r.Exists api stateID).err = none) ∧
    (∀ e, (api.GetSlot id).2 = some e → api.WasNotFound (api.GetSlot id).1 = false →
      (r.Exists api stateID).result = none ∧
        ∃ msg, (r.Exists api stateID).err = some msg ∧
          "retrieving Linux Function App ".data <+: msg.data) ∧
    ((api.GetSlot id).2 = none → api.WasNotFound (api.GetSlot id).1 = false →
      (r.Exists api stateID).result = some true ∧ (r.Exists api stateID).err = none) := by
  unfold LinuxFunctionAppSlotResource.Exists
  simp only [h]
  rcases hg : api.GetSlot id with ⟨resp, _ | e⟩
  · refine ⟨?_, ?_, ?_⟩
    · intro hn; simp only at hn; simp [hn]
    · intro e he; simp at he
    · intro _ hn; simp only at hn; simp [hn]
  · refine ⟨?_, ?_, ?_⟩
    · intro hn; simp only at hn; simp [hn]
    · intro e1 he hn
      simp only at hn
      simp only [hn]
      refine ⟨rfl, _, rfl, ?_⟩
      rw [fmt.errorf_retrieving]
      exact List.prefix_append _ _
    · intro he; simp at he

/-- Witness of C17: the three kinds of answer of the example API. -/
theorem C17_exists_not_found_is_absence_witness :
    ((LinuxFunctionAppSlotResource.Exists {} exampleAPI "/slot/gone").result = some false ∧
      (LinuxFunctionAppSlotResource.Exists {} exampleAPI "/slot/gone").err = none) ∧
    ((LinuxFunctionAppSlotResource.Exists {} exampleAPI "/slot/down").result = none ∧
      (LinuxFunctionAppSlotResource.Exists {} exampleAPI "/slot/down").err =
        some "retrieving Linux Function App /slot/down: internal error") ∧
    ((LinuxFunctionAppSlotResource.Exists {} exampleAPI "/slot/found").result = some true ∧
      (LinuxFunctionAppSlotResource.Exists {} exampleAPI "/slot/found").err = none) :=
  ⟨(C17_exists_not_found_is_absence {} exampleAPI "/slot/gone" "/slot/gone" rfl).1 (by decide),
    by decide,
    (C17_exists_not_found_is_absence {} exampleAPI "/slot/found" "/slot/found" rfl).2.2
      (by decide) (by decide)⟩

/-- C18: whatever the parser and `GetSlot` answer, `Exists` returns exactly one
of a result and an error: the result is nil if and only if the error is not. -/
theorem C18_exists_result_xor_error {Id Resp : Type}
    (r : LinuxFunctionAppSlotResource) (api : SlotAPI Id Resp) (stateID : String) :
    (r.Exists api stateID).result = none ↔ (r.Exists api stateID).err ≠ none := by
  unfold LinuxFunctionAppSlotResource.Exists
  rcases api.ParseSlotID stateID with e | id
  · simp
  · simp only
    rcases api.GetSlot id with ⟨resp, _ | e⟩ <;> by_cases hn : api.WasNotFound resp = true <;>
      simp [hn]

end appservice

/-! ## The configurations of the acceptance test -/

namespace appservice

theorem splitLines_ne_nil (l : List Char) : splitLines l ≠ [] := by
  cases l with
  | nil => simp [splitLines]
  | cons c cs =>
    simp only [splitLines]
    split
    · simp
    · split <;> simp

theorem splitLines_cons_feed (cs : List Char) :
    splitLines ('\n' :: cs) = [] :: splitLines cs := by
  simp [splitLines]

theorem splitLines_cons_other (c : Char) (cs : List Char) (h : c ≠ '\n') :
    ∃ l ls, splitLines cs = l :: ls ∧ splitLines (c :: cs) = (c :: l) :: ls := by
  cases hs : splitLines cs with
  | nil => exact absurd hs (splitLines_ne_nil cs)
  | cons l ls => exact ⟨l, ls, rfl, by simp [splitLines, h, hs]⟩

/-- A text without line feed, a line feed, and more text: the first line is the
text. -/
theorem splitLines_line_append (a b : List Char) (h : '\n' ∉ a) :
    splitLines (a ++ '\n' :: b) = a :: splitLines b := by
  induction a with
  | nil => simp [splitLines]
  | cons c cs ih =>
    have hc : c ≠ '\n' := fun e => h (e ▸ List.mem_cons_self _ _)
    have hcs : '\n' ∉ cs := fun e => h (List.mem_cons_of_mem _ e)
    obtain ⟨l, ls, h1, h2⟩ := splitLines_cons_other c (cs ++ '\n' :: b) hc
    rw [List.cons_append, h2]
    rw [ih hcs] at h1
    simp only [List.cons.injEq] at h1
    rw [← h1.1, ← h1.2]

theorem splitLines_one_line (a : List Char) (h : '\n' ∉ a) : splitLines a = [a] := by
  induction a with
  | nil => rfl
  | cons c cs ih =>
    have hc : c ≠ '\n' := fun e => h (e ▸ List.mem_cons_self _ _)
    have hcs : '\n' ∉ cs := fun e => h (List.mem_cons_of_mem _ e)
    simp [splitLines, hc, ih hcs]

/-- Text, a line feed and more text: the lines of both, one after the other. -/
theorem splitLines_append (a b : List Char) :
    splitLines (a ++ '\n' :: b) = splitLines a ++ splitLines b := by
  induction a with
  | nil => simp [splitLines]
  | cons c cs ih =>
    by_cases hc : c = '\n'
    · subst hc
      simp only [List.cons_append, splitLines_cons_feed, ih]
    · obtain ⟨l, ls, h1, h2⟩ := splitLines_cons_other c cs hc
      obtain ⟨l2, ls2, h3, h4⟩ := splitLines_cons_other c (cs ++ '\n' :: b) hc
      rw [List.cons_append, h4, h2]
      rw [ih, h1] at h3
      simp only [List.cons_append, List.cons.injEq] at h3
      simp [h3.1, h3.2]

theorem flattenLine_eq (l : List Piece) (rest : List Char) :
    flattenLine l rest = flattenLine l [] ++ rest := by
  induction l with
  | nil => simp [flattenLine]
  | cons p ps ih => simp only [flattenLine]; rw [ih]; simp

theorem flattenLine_one_line (l : List Piece) (h : ∀ p ∈ l, '\n' ∉ p.chars) :
    '\n' ∉ flattenLine l [] := by
  induction l with
  | nil => simp [flattenLine]
  | cons p ps ih =>
    simp only [flattenLine, List.mem_append, not_or]
    exact ⟨h p (List.mem_cons_self _ _), ih (fun q hq => h q (List.mem_cons_of_mem _ hq))⟩

/-- The lines of a text that is given by the pieces of its lines. -/
theorem splitLines_flatten : ∀ (ls : List (List Piece)), ls ≠ [] →
    (∀ l ∈ ls, ∀ p ∈ l, '\n' ∉ p.chars) →
    splitLines (flatten ls) = ls.map (fun l => flattenLine l [])
  | [], h, _ => absurd rfl h
  | [l], _, h => by
    simp only [flatten, List.map_cons, List.map_nil]
    exact splitLines_one_line _ (flattenLine_one_line l (h l (List.mem_cons_self _ _)))
  | l :: l2 :: ls, _, h => by
    simp only [flatten, List.map_cons]
    rw [flattenLine_eq, splitLines_line_append _ _
      (flattenLine_one_line l (h l (List.mem_cons_self _ _)))]
    rw [splitLines_flatten (l2 :: ls) (by simp)
      (fun m hm => h m (List.mem_cons_of_mem _ hm))]
    simp

theorem mem_symsOf (ls : List (List Piece)) (l : List Piece) (cs : List Char)
    (hl : l ∈ ls) (hp : Piece.sym cs ∈ l) : cs ∈ symsOf ls := by
  induction ls with
  | nil => cases hl
  | cons m ms ih =>
    simp only [symsOf, List.mem_append]
    rcases List.mem_cons.1 hl with h | h
    · subst h
      left
      exact List.mem_filterMap.2 ⟨_, hp, rfl⟩
    · right; exact ih h

theorem pieces_one_line (ls : List (List Piece)) (hlit : litsOneLine ls = true)
    (hsym : ∀ cs ∈ symsOf ls, '\n' ∉ cs) : ∀ l ∈ ls, ∀ p ∈ l, '\n' ∉ p.chars := by
  intro l hl p hp
  cases p with
  | lit s =>
    simp only [litsOneLine, List.all_eq_true] at hlit
    have := hlit l hl (.lit s) hp
    simpa [Piece.chars] using this
  | sym cs => exact hsym cs (mem_symsOf ls l cs hl hp)

end appservice

namespace fmt

theorem formatInt_one_line (plus : Bool) (i : Int) : '\n' ∉ formatInt plus i := by
  have hd : '\n' ∉ Json.natDigits i.natAbs := by
    intro h
    have := (Json.natDigits_spec i.natAbs).1 _ h
    revert this
    decide
  unfold formatInt
  split
  · simp only [List.mem_cons, not_or]; exact ⟨by decide, hd⟩
  · split
    · simp only [List.mem_cons, not_or]; exact ⟨by decide, hd⟩
    · exact hd

end fmt

namespace appservice

set_option maxRecDepth 1000000 in
theorem template_data (r : LinuxFunctionAppSlotResource) (data : TestData) (planSku : String) :
    (r.template data planSku).data =
      flatten (templateLines data planSku
        (if strings.EqualFold planSku "EP1" then "maximum_elastic_worker_count = 5" else "")) := by
  rfl

/-- The lines of the text that `template` returns, for data and a plan SKU
without line feed. -/
theorem splitLines_template (r : LinuxFunctionAppSlotResource) (data : TestData)
    (planSku : String) (hp : '\n' ∉ data.Locations.Primary.data)
    (hr : '\n' ∉ data.RandomString.data) (hs : '\n' ∉ planSku.data) :
    splitLines (r.template data planSku).data =
      (templateLines data planSku
        (if strings.EqualFold planSku "EP1" then "maximum_elastic_worker_count = 5"
          else "")).map (fun l => flattenLine l []) := by
  rw [template_data]
  apply splitLines_flatten _ (by simp [templateLines])
  refine pieces_one_line (templateLines data planSku _) (by rfl) ?_
  have hi := fmt.formatInt_one_line false data.RandomInteger
  have ha : '\n' ∉ (if strings.EqualFold planSku "EP1" = true
      then "maximum_elastic_worker_count = 5" else "").data := by
    split <;> decide
  intro cs hcs
  simp only [templateLines, symsOf, List.filterMap_cons, List.filterMap_nil, List.nil_append,
    List.cons_append, List.append_nil, List.mem_cons, List.mem_nil_iff, or_false] at hcs
  rcases hcs with h | h | h | h | h | h | h <;> subst h <;> assumption


/-- The body of the block `azurerm_service_plan` that `template` writes, for data
and a plan SKU without line feed: five lines, the last of them the additional
configuration. -/
theorem servicePlanBlock_template (r : LinuxFunctionAppSlotResource) (data : TestData)
    (planSku : String) (hp : '\n' ∉ data.Locations.Primary.data)
    (hr : '\n' ∉ data.RandomString.data) (hs : '\n' ∉ planSku.data) :
    servicePlanBlock (r.template data planSku) =
      [ "  name                = \"acctestASP-".data ++
          (fmt.formatInt false data.RandomInteger ++ "\"".data),
        "  location            = azurerm_resource_group.test.location".data,
        "  resource_group_name = azurerm_resource_group.test.name".data,
        "  os_type             = \"Linux\"".data,
        "  sku_name            = \"".data ++ (planSku.data ++ "\"".data),
        "  ".data ++
          (if strings.EqualFold planSku "EP1" then "maximum_elastic_worker_count = 5"
            else "").data ] := by
  unfold servicePlanBlock
  rw [splitLines_template r data planSku hp hr hs]
  have h : ∀ add : String,
      blockOf "resource \"azurerm_service_plan\" \"test\" \x7b"
        ((templateLines data planSku add).map (fun l => flattenLine l [])) =
      [ "  name                = \"acctestASP-".data ++
          (fmt.formatInt false data.RandomInteger ++ "\"".data),
        "  location            = azurerm_resource_group.test.location".data,
        "  resource_group_name = azurerm_resource_group.test.name".data,
        "  os_type             = \"Linux\"".data,
        "  sku_name            = \"".data ++ (planSku.data ++ "\"".data),
        "  ".data ++ (add.data ++ []) ] := fun _ => rfl
  rw [h, List.append_nil]

/-- C19 (amended): for test data and a plan SKU without line break, the block
`azurerm_service_plan` of the text that `template` returns holds the line
`maximum_elastic_worker_count = 5` if and only if the plan SKU equals `EP1`
under case folding (as `ep1` and `Ep1` do), and in every case it holds the line
that sets `sku_name` to the plan SKU as it is. -/
theorem C19_template_elastic_worker_setting (r : LinuxFunctionAppSlotResource)
    (data : TestData) (planSku : String) (hp : '\n' ∉ data.Locations.Primary.data)
    (hr : '\n' ∉ data.RandomString.data) (hs : '\n' ∉ planSku.data) :
    (hasLine "maximum_elastic_worker_count = 5" (servicePlanBlock (r.template data planSku)) = true ↔
      strings.EqualFold planSku "EP1" = true) ∧
    "  sku_name            = \"".data ++ (planSku.data ++ "\"".data) ∈
      servicePlanBlock (r.template data planSku) ∧
    strings.EqualFold "ep1" "EP1" = true ∧ strings.EqualFold "Ep1" "EP1" = true := by
  rw [servicePlanBlock_template r data planSku hp hr hs]
  refine ⟨?_, by simp, by decide, by decide⟩
  by_cases h : strings.EqualFold planSku "EP1" = true
  · simp only [h, if_true, iff_true]
    rfl
  · simp only [h, if_false, iff_false, Bool.not_eq_true]
    rfl

/-- Witness of C19: the example data with the plan SKU `ep1`. -/
theorem C19_template_elastic_worker_setting_witness :
    hasLine "maximum_elastic_worker_count = 5"
      (servicePlanBlock (LinuxFunctionAppSlotResource.template {} exampleData "ep1")) = true ∧
    "  sku_name            = \"ep1\"".data ∈
      servicePlanBlock (LinuxFunctionAppSlotResource.template {} exampleData "ep1") :=
  have h := C19_template_elastic_worker_setting {} exampleData "ep1"
    (by decide) (by decide) (by decide)
  ⟨h.1.2 (by decide), h.2.1⟩

set_option maxRecDepth 1000000 in
/-- C19 as it is written fails: a plan SKU that holds a line break puts the line
`maximum_elastic_worker_count = 5` into the block `azurerm_service_plan` although
it does not equal `EP1` under case folding. -/
theorem C19_template_line_injected :
    hasLine "maximum_elastic_worker_count = 5"
      (servicePlanBlock (LinuxFunctionAppSlotResource.template {} exampleData injectedSku)) =
        true ∧
    strings.EqualFold injectedSku "EP1" = false := by
  decide


theorem flatten_append : ∀ (ls1 ls2 : List (List Piece)), ls1 ≠ [] → ls2 ≠ [] →
    flatten (ls1 ++ ls2) = flatten ls1 ++ '\n' :: flatten ls2
  | [], _, h, _ => absurd rfl h
  | [l], [], _, h => absurd rfl h
  | [l], m :: ms, _, _ => by
    simp only [List.cons_append, List.nil_append, flatten]
    rw [flattenLine_eq]
  | l :: l2 :: ls, ls2, _, h2 => by
    have ih := flatten_append (l2 :: ls) ls2 (by simp) h2
    rw [List.cons_append] at ih
    show flattenLine l ('\n' :: flatten (l2 :: (ls ++ ls2))) =
      flattenLine l ('\n' :: flatten (l2 :: ls)) ++ '\n' :: flatten ls2
    rw [ih, flattenLine_eq, flattenLine_eq l ('\n' :: flatten (l2 :: ls))]
    simp

theorem hasLine_append_right (line : String) (a b : List (List Char))
    (h : hasLine line b = true) : hasLine line (a ++ b) = true := by
  unfold hasLine at *
  rw [List.any_append, h, Bool.or_true]

set_option maxRecDepth 1000000 in
theorem healthCheckPath_data (r : LinuxFunctionAppSlotResource) (data : TestData)
    (planSku : String) :
    (r.healthCheckPath data planSku).data =
      flatten (healthCheckLines data (r.template data planSku)) := by
  rfl

/-- The lines of the text of `healthCheckPath`: those up to the end of the shared
template, and then the twelve lines of the slot, as the format has them. -/
theorem splitLines_healthCheckPath (r : LinuxFunctionAppSlotResource) (data : TestData)
    (planSku : String) :
    splitLines (r.healthCheckPath data planSku).data =
      splitLines (flatten ((healthCheckLines data (r.template data planSku)).take 6)) ++
        ((healthCheckLines data (r.template data planSku)).drop 6).map
          (fun l => flattenLine l []) := by
  rw [healthCheckPath_data]
  conv_lhs => rw [← List.take_append_drop 6 (healthCheckLines data (r.template data planSku))]
  rw [flatten_append _ _ (by simp [healthCheckLines]) (by simp [healthCheckLines]),
    splitLines_append]
  congr 1
  apply splitLines_flatten _ (by simp [healthCheckLines])
  refine pieces_one_line _ (by rfl) ?_
  intro cs hcs
  have h : symsOf ((healthCheckLines data (r.template data planSku)).drop 6) =
      [fmt.formatInt false data.RandomInteger] := rfl
  rw [h, List.mem_singleton] at hcs
  subst hcs
  exact fmt.formatInt_one_line false data.RandomInteger

/-- C20: `healthCheckPath` and `healthCheckPathWithEviction` return the same
text for all test data and every plan SKU; the text sets both
`health_check_path = "/health"` and `health_check_eviction_time_in_min = 3`; and
the two tests that use them apply the same configuration. -/
theorem C20_health_check_builders_agree (r : LinuxFunctionAppSlotResource) (data : TestData)
    (planSku : String) :
    r.healthCheckPath data planSku = r.healthCheckPathWithEviction data planSku ∧
    hasLine "health_check_path                 = \"/health\""
      (splitLines (r.healthCheckPath data planSku).data) = true ∧
    hasLine "health_check_eviction_time_in_min = 3"
      (splitLines (r.healthCheckPath data planSku).data) = true ∧
    hasLine "health_check_path                 = \"/health\""
      (splitLines (r.healthCheckPathWithEviction data planSku).data) = true ∧
    hasLine "health_check_eviction_time_in_min = 3"
      (splitLines (r.healthCheckPathWithEviction data planSku).data) = true ∧
    TestAccLinuxFunctionAppSlot_healthCheckPath data =
      TestAccLinuxFunctionAppSlot_healthCheckPathWithEviction data := by
  have he : r.healthCheckPath data planSku = r.healthCheckPathWithEviction data planSku := rfl
  have h1 : hasLine "health_check_path                 = \"/health\""
      (splitLines (r.healthCheckPath data planSku).data) = true := by
    rw [splitLines_healthCheckPath]
    exact hasLine_append_right _ _ _ rfl
  have h2 : hasLine "health_check_eviction_time_in_min = 3"
      (splitLines (r.healthCheckPath data planSku).data) = true := by
    rw [splitLines_healthCheckPath]
    exact hasLine_append_right _ _ _ rfl
  exact ⟨he, h1, h2, he ▸ h1, he ▸ h2, rfl⟩

end appservice

/-! ## The wire form of the copy sources: zero values, `Type`, member order -/

namespace pipelines

open Json json

/-- C12: `MarshalJSON` of the zero value of each variant succeeds and returns
exactly the object with the one member `type` that names the variant. -/
theorem C12_zero_value_marshals_to_type_only :
    AzurePostgreSqlSource.zero.MarshalJSON = .ok "\x7b\"type\":\"AzurePostgreSqlSource\"\x7d" ∧
    MagentoSource.zero.MarshalJSON = .ok "\x7b\"type\":\"MagentoSource\"\x7d" ∧
    MicrosoftAccessSource.zero.MarshalJSON = .ok "\x7b\"type\":\"MicrosoftAccessSource\"\x7d" ∧
    PostgreSqlV2Source.zero.MarshalJSON = .ok "\x7b\"type\":\"PostgreSqlV2Source\"\x7d" := by
  refine ⟨by decide, by decide, by decide, by decide⟩

theorem marshalFields_append_type (fs : List (String × Bool × GoValue)) (t : String) :
    marshalFields (fs ++ [("type", false, .str t)]) =
      marshalFields fs ++ [("type", .ok (.str t))] := by
  induction fs with
  | nil => simp [marshalFields, marshalValue]
  | cons f fs ih =>
    obtain ⟨k, o, v⟩ := f
    simp only [List.cons_append, marshalFields, List.append_eq]
    split
    · exact ih
    · rw [ih]; rfl

theorem sequenceMembers_append_ok (l : List (String × Except String Json)) (k : String)
    (j : Json) :
    sequenceMembers (l ++ [(k, .ok j)]) =
      match sequenceMembers l with
      | .ok ms => .ok (ms ++ [(k, j)])
      | .error e => .error e := by
  induction l with
  | nil => simp [sequenceMembers]
  | cons hd tl ih =>
    obtain ⟨k1, r⟩ := hd
    cases r with
    | error e => simp [sequenceMembers]
    | ok j1 =>
      simp only [List.cons_append, sequenceMembers, List.append_eq]
      rw [ih]
      cases sequenceMembers tl <;> simp

theorem depthMembers_append_str (ms : List (String × Json)) (k t : String) :
    depthMembers (ms ++ [(k, .str t)]) = depthMembers ms := by
  induction ms with
  | nil => simp [depthMembers, depth]
  | cons hd tl ih =>
    obtain ⟨k1, v⟩ := hd
    simp only [List.cons_append, depthMembers, List.append_eq, ih]

theorem toGoMembers_append_str (ms : List (String × Json)) (k t : String) :
    ∀ acc, toGoMembers (ms ++ [(k, .str t)]) acc =
      match toGoMembers ms acc with
      | .ok kvs => .ok (mapSet k (.str t) kvs)
      | .error e => .error e := by
  induction ms with
  | nil => intro acc; simp [toGoMembers, toGo]
  | cons hd tl ih =>
    intro acc
    obtain ⟨k1, v⟩ := hd
    simp only [List.cons_append, toGoMembers, List.append_eq]
    cases toGo v with
    | error e => rfl
    | ok g => exact ih _

theorem mapSet_mapSet {α : Type} (k : String) (v w : α) (l : List (String × α)) :
    mapSet k v (mapSet k w l) = mapSet k v l := by
  induction l with
  | nil => simp [mapSet]
  | cons hd tl ih =>
    obtain ⟨k1, v1⟩ := hd
    by_cases h1 : k = k1
    · simp [mapSet, h1]
    · by_cases h2 : keyLt k.data k1.data = true
      · simp [mapSet, h1, h2]
      · simp [mapSet, h1, h2, ih]

/-- The shared body on a struct whose last field is `Type`: the result does not
depend on what that field holds. -/
theorem marshalWithType_type_field (name : String) (fs : List (String × Bool × GoValue))
    (t : String) :
    marshalWithType name (.struct (fs ++ [("type", false, .str t)])) =
      marshalWithType name (.struct (fs ++ [("type", false, .str "")])) := by
  have key : ∀ u : String, marshalWithType name (.struct (fs ++ [("type", false, .str u)])) =
      match sequenceMembers (marshalFields fs) with
      | .error e => .error ("marshaling " ++ name ++ ": " ++ e)
      | .ok ms =>
        if depthMembers ms + 1 ≤ maxNestingDepth then
          match toGoMembers ms [] with
          | .error e => .error ("unmarshaling " ++ name ++ ": " ++ e)
          | .ok kvs =>
            match json.Marshal (.map (mapSet "type" (.str name) kvs)) with
            | .error e => .error ("re-marshaling " ++ name ++ ": " ++ e)
            | .ok encoded => .ok encoded
        else .error ("unmarshaling " ++ name ++ ": " ++ errDepth) := by
    intro u
    unfold marshalWithType
    rw [marshal_struct, marshalFields_append_type, sequenceMembers_append_ok]
    cases hs : sequenceMembers (marshalFields fs) with
    | error e => rfl
    | ok ms =>
      simp only []
      rw [unmarshal_render_obj]
      simp only [depth, depthMembers_append_str, toGoMembers_append_str]
      by_cases hd : depthMembers ms + 1 ≤ maxNestingDepth
      · simp only [hd, if_true]
        cases hk : toGoMembers ms [] with
        | error e => rfl
        | ok kvs =>
          simp only []
          rw [mapSet_mapSet]
      · simp only [hd, if_false]
  rw [key t, key ""]

theorem CopySource.wrapper_withType (s : CopySource) (t : String) :
    ∃ fs, (s.withType t).wrapper = .struct (fs ++ [("type", false, .str t)]) ∧
      s.wrapper = .struct (fs ++ [("type", false, .str s.Type_)]) := by
  cases s with
  | azurePostgreSql s =>
    exact ⟨[("additionalColumns", true, .ptr s.AdditionalColumns), ("query", true, .ptr s.Query),
      ("queryTimeout", true, .ptr s.QueryTimeout),
      ("disableMetricsCollection", true, .ptr (s.DisableMetricsCollection.map .bool)),
      ("maxConcurrentConnections", true, .ptr (s.MaxConcurrentConnections.map .int)),
      ("sourceRetryCount", true, .ptr (s.SourceRetryCount.map .int)),
      ("sourceRetryWait", true, .ptr s.SourceRetryWait)], rfl, rfl⟩
  | magento s =>
    exact ⟨[("additionalColumns", true, .ptr s.AdditionalColumns), ("query", true, .ptr s.Query),
      ("queryTimeout", true, .ptr s.QueryTimeout),
      ("disableMetricsCollection", true, .ptr (s.DisableMetricsCollection.map .bool)),
      ("maxConcurrentConnections", true, .ptr (s.MaxConcurrentConnections.map .int)),
      ("sourceRetryCount", true, .ptr (s.SourceRetryCount.map .int)),
      ("sourceRetryWait", true, .ptr s.SourceRetryWait)], rfl, rfl⟩
  | microsoftAccess s =>
    exact ⟨[("additionalColumns", true, .ptr s.AdditionalColumns), ("query", true, .ptr s.Query),
      ("disableMetricsCollection", true, .ptr (s.DisableMetricsCollection.map .bool)),
      ("maxConcurrentConnections", true, .ptr (s.MaxConcurrentConnections.map .int)),
      ("sourceRetryCount", true, .ptr (s.SourceRetryCount.map .int)),
      ("sourceRetryWait", true, .ptr s.SourceRetryWait)], rfl, rfl⟩
  | postgreSqlV2 s =>
    exact ⟨[("additionalColumns", true, .ptr s.AdditionalColumns), ("query", true, .ptr s.Query),
      ("queryTimeout", true, .ptr s.QueryTimeout),
      ("disableMetricsCollection", true, .ptr (s.DisableMetricsCollection.map .bool)),
      ("maxConcurrentConnections", true, .ptr (s.MaxConcurrentConnections.map .int)),
      ("sourceRetryCount", true, .ptr (s.SourceRetryCount.map .int)),
      ("sourceRetryWait", true, .ptr s.SourceRetryWait)], rfl, rfl⟩

theorem CopySource.variantName_withType (s : CopySource) (t : String) :
    (s.withType t).variantName = s.variantName := by
  cases s <;> rfl

/-- C13: the field `Type` never influences the wire form.  A value and the value
with any other `Type` and the same other fields (every pair of values that agree
except on `Type` is such a pair) have the same result of `MarshalJSON`: the same
bytes, or the same error. -/
theorem C13_type_field_does_not_reach_the_wire (s : CopySource) (t : String) :
    (s.withType t).MarshalJSON = s.MarshalJSON := by
  obtain ⟨fs, h1, h2⟩ := CopySource.wrapper_withType s t
  rw [CopySource.marshalJSON_eq, CopySource.marshalJSON_eq, CopySource.variantName_withType,
    h1, h2, marshalWithType_type_field _ _ t, marshalWithType_type_field _ _ s.Type_]

theorem CopySource.toBase_Type (s : CopySource) : s.toBase.Type_ = s.Type_ := by
  cases s <;> rfl

/-- C14 (amended): for every value on which `MarshalJSON` succeeds, the `Type`
of `CopySource()` equals the member `type` of the output if and only if the
field `Type` already holds the name of the variant; for the zero values the
projection has the empty `Type` while the output (of C12) names the variant. -/
theorem C14_base_type_agrees_iff_type_is_variant (s : CopySource) (bytes : String)
    (ms : List (String × Json)) (h : s.MarshalJSON = .ok bytes)
    (hb : bytes = String.mk (Json.render (.obj ms))) :
    (ms.lookup "type" = some (.str s.toBase.Type_) ↔ s.Type_ = s.variantName) ∧
    AzurePostgreSqlSource.zero.CopySource.Type_ = "" ∧
    MagentoSource.zero.CopySource.Type_ = "" ∧
    MicrosoftAccessSource.zero.CopySource.Type_ = "" ∧
    PostgreSqlV2Source.zero.CopySource.Type_ = "" := by
  refine ⟨?_, rfl, rfl, rfl, rfl⟩
  obtain ⟨ms2, h1, h2, _, _⟩ := CopySource.marshalJSON_ok_inv s bytes h
  rw [hb] at h1
  have hj := render_injective _ _ (congrArg String.data h1)
  simp only [Json.obj.injEq] at hj
  subst hj
  rw [h2, CopySource.toBase_Type]
  constructor
  · intro he
    simp only [Option.some.injEq, Json.str.injEq] at he
    exact he.symm
  · intro he; rw [he]

/-- Witness of C14: a `MagentoSource` whose `Type` names another variant, so that
the projection and the output disagree. -/
theorem C14_base_type_agrees_iff_type_is_variant_witness :
    ([("type", Json.str "MagentoSource")].lookup "type" =
        some (.str (CopySource.magento
          { MagentoSource.zero with Type_ := "OracleSource" }).toBase.Type_) ↔
      (CopySource.magento { MagentoSource.zero with Type_ := "OracleSource" }).Type_ =
        (CopySource.magento { MagentoSource.zero with Type_ := "OracleSource" }).variantName) :=
  (C14_base_type_agrees_iff_type_is_variant
    (.magento { MagentoSource.zero with Type_ := "OracleSource" })
    "\x7b\"type\":\"MagentoSource\"\x7d" [("type", .str "MagentoSource")]
    (by decide) (by decide)).1

/-- C14 as it is written fails: on a value whose `Query` points to a channel
`MarshalJSON` returns an error and writes no member `type`, so the `Type` of
`CopySource()` equals no written member although the field `Type` holds the
name of the variant. -/
theorem C14_no_member_without_output :
    (CopySource.magento channelSource).MarshalJSON =
      .error "marshaling MagentoSource: json: unsupported type: chan int" ∧
    ¬ ((∃ bytes ms, (CopySource.magento channelSource).MarshalJSON = .ok bytes ∧
          bytes = String.mk (Json.render (.obj ms)) ∧
          ms.lookup "type" = some (.str (CopySource.magento channelSource).toBase.Type_)) ↔
        (CopySource.magento channelSource).Type_ =
          (CopySource.magento channelSource).variantName) := by
  have h : (CopySource.magento channelSource).MarshalJSON =
      .error "marshaling MagentoSource: json: unsupported type: chan int" := by decide
  refine ⟨h, ?_⟩
  intro hiff
  obtain ⟨bytes, _, hb, _⟩ := hiff.2 rfl
  rw [h] at hb
  cases hb

theorem memberIf_sublist (b : Bool) (n : String) : (memberIf b n).Sublist [n] := by
  cases b
  · exact List.nil_sublist _
  · exact List.Sublist.refl _

theorem CopySource.orderedMembers_sublist (s : CopySource) :
    s.orderedMembers.Sublist
      ["additionalColumns", "disableMetricsCollection", "maxConcurrentConnections", "query",
        "queryTimeout", "sourceRetryCount", "sourceRetryWait", "type"] := by
  have h : ∀ b1 b2 b3 b4 b5 b6 b7 : Bool,
      (memberIf b1 "additionalColumns" ++ memberIf b2 "disableMetricsCollection" ++
        memberIf b3 "maxConcurrentConnections" ++ memberIf b4 "query" ++
        memberIf b5 "queryTimeout" ++ memberIf b6 "sourceRetryCount" ++
        memberIf b7 "sourceRetryWait" ++ ["type"]).Sublist
      (["additionalColumns"] ++ ["disableMetricsCollection"] ++ ["maxConcurrentConnections"] ++
        ["query"] ++ ["queryTimeout"] ++ ["sourceRetryCount"] ++ ["sourceRetryWait"] ++
        ["type"]) := by
    intro b1 b2 b3 b4 b5 b6 b7
    exact ((((((memberIf_sublist b1 _).append (memberIf_sublist b2 _)).append
      (memberIf_sublist b3 _)).append (memberIf_sublist b4 _)).append
      (memberIf_sublist b5 _)).append (memberIf_sublist b6 _)).append
      (memberIf_sublist b7 _) |>.append (List.Sublist.refl _)
  cases s with
  | azurePostgreSql s => exact h _ _ _ _ _ _ _
  | magento s => exact h _ _ _ _ _ _ _
  | microsoftAccess s => exact h _ _ _ _ false _ _
  | postgreSqlV2 s => exact h _ _ _ _ _ _ _

theorem CopySource.orderedMembers_sorted (s : CopySource) :
    s.orderedMembers.Pairwise (fun a b => keyLt a.data b.data = true) := by
  refine List.Pairwise.sublist (CopySource.orderedMembers_sublist s) ?_
  decide

theorem CopySource.mem_orderedMembers (s : CopySource) (k : String) :
    k ∈ s.orderedMembers ↔ k ∈ s.expectedMembers := by
  have hf : ∀ n : String, k ∈ memberIf false n ↔ False := by
    intro n; simp [memberIf]
  cases s <;>
    simp only [CopySource.orderedMembers, CopySource.expectedMembers, List.mem_append,
      List.mem_singleton, hf, or_false, false_or, or_assoc, or_comm, or_left_comm]

/-- Two lists in strictly ascending key order that have the same elements are
equal. -/
theorem eq_of_sorted_of_mem_iff : ∀ (l1 l2 : List String),
    l1.Pairwise (fun a b => keyLt a.data b.data = true) →
    l2.Pairwise (fun a b => keyLt a.data b.data = true) →
    (∀ k, k ∈ l1 ↔ k ∈ l2) → l1 = l2
  | [], [], _, _, _ => rfl
  | [], b :: l2, _, _, h => absurd ((h b).2 (List.mem_cons_self _ _)) (by simp)
  | a :: l1, [], _, _, h => absurd ((h a).1 (List.mem_cons_self _ _)) (by simp)
  | a :: l1, b :: l2, h1, h2, h => by
    rw [List.pairwise_cons] at h1 h2
    have hab : a = b := by
      rcases List.mem_cons.1 ((h a).1 (List.mem_cons_self _ _)) with e | ha
      · exact e
      · rcases List.mem_cons.1 ((h b).2 (List.mem_cons_self _ _)) with e | hb
        · exact e.symm
        · have x := h2.1 a ha
          have y := h1.1 b hb
          rw [keyLt_asymm _ _ x] at y
          exact absurd y (by simp)
    subst hab
    have hne1 : a ∉ l1 := fun hm => by
      have := h1.1 a hm; rw [keyLt_irrefl] at this; exact absurd this (by simp)
    have hne2 : a ∉ l2 := fun hm => by
      have := h2.1 a hm; rw [keyLt_irrefl] at this; exact absurd this (by simp)
    have ht : l1 = l2 := eq_of_sorted_of_mem_iff l1 l2 h1.2 h2.2 (fun k => by
      constructor
      · intro hk
        rcases List.mem_cons.1 ((h k).1 (List.mem_cons_of_mem _ hk)) with e | hk2
        · exact absurd (e ▸ hk) hne1
        · exact hk2
      · intro hk
        rcases List.mem_cons.1 ((h k).2 (List.mem_cons_of_mem _ hk)) with e | hk2
        · exact absurd (e ▸ hk) hne2
        · exact hk2)
    rw [ht]

/-- What every successful `MarshalJSON` returns, with the order of the members:
their names are in strictly ascending byte order. -/
theorem CopySource.marshalJSON_ok_sorted (s : CopySource) (bytes : String)
    (h : s.MarshalJSON = .ok bytes) :
    ∃ ms, bytes = String.mk (render (.obj ms)) ∧
      (ms.map Prod.fst).Pairwise (fun a b => keyLt a.data b.data = true) ∧
      ∀ k, k ∈ ms.map Prod.fst ↔ k ∈ s.expectedMembers := by
  obtain ⟨ms, h1, _, _, h4⟩ := CopySource.marshalJSON_ok_inv s bytes h
  obtain ⟨fs, hfs⟩ := CopySource.wrapper_struct s
  rw [CopySource.marshalJSON_eq, hfs] at h
  obtain ⟨ms1, kvs, ms2, _, _, _, hsorted, _, h6, h7, _, _⟩ := marshalWithType_ok_inv _ _ _ h
  rw [h1] at h6
  have hj := render_injective _ _ (congrArg String.data h6)
  simp only [Json.obj.injEq] at hj
  subst hj
  refine ⟨ms, h1, ?_, h4⟩
  rw [h7, List.pairwise_map]
  exact mapSet_sorted _ _ _ hsorted

/-- C16: the members of every output of `MarshalJSON` are in ascending byte order
of their names, none repeated: `additionalColumns`, `disableMetricsCollection`,
`maxConcurrentConnections`, `query`, `queryTimeout`, `sourceRetryCount`,
`sourceRetryWait`, `type`, those of them that are present; so `type` is the last
member.  That is not the order of the fields of the struct: the example has
`query` before `disableMetricsCollection` in the encoding of the struct and after
it in the output. -/
theorem C16_members_in_byte_order (s : CopySource) (bytes : String)
    (h : s.MarshalJSON = .ok bytes) :
    (∃ ms, bytes = String.mk (Json.render (.obj ms)) ∧
      ms.map Prod.fst = s.orderedMembers ∧
      (ms.map Prod.fst).Pairwise (fun a b => keyLt a.data b.data = true) ∧
      (ms.map Prod.fst).getLast? = some "type") ∧
    json.Marshal exampleSource.wrapper =
      .ok "\x7b\"query\":\"select 1\",\"disableMetricsCollection\":true,\"type\":\"CopySource\"\x7d" ∧
    exampleSource.MarshalJSON =
      .ok "\x7b\"disableMetricsCollection\":true,\"query\":\"select 1\",\"type\":\"PostgreSqlV2Source\"\x7d" := by
  refine ⟨?_, by rfl, by decide⟩
  obtain ⟨ms, h1, h2, h3⟩ := CopySource.marshalJSON_ok_sorted s bytes h
  have he : ms.map Prod.fst = s.orderedMembers :=
    eq_of_sorted_of_mem_iff _ _ h2 (CopySource.orderedMembers_sorted s)
      (fun k => by rw [h3 k, CopySource.mem_orderedMembers])
  refine ⟨ms, h1, he, h2, ?_⟩
  rw [he]
  cases s <;> simp [CopySource.orderedMembers]

/-- Witness of C16: the example source. -/
theorem C16_members_in_byte_order_witness :
    ∃ ms, "\x7b\"disableMetricsCollection\":true,\"query\":\"select 1\",\"type\":\"PostgreSqlV2Source\"\x7d" =
        String.mk (Json.render (.obj ms)) ∧
      ms.map Prod.fst = ["disableMetricsCollection", "query", "type"] ∧
      (ms.map Prod.fst).Pairwise (fun a b => keyLt a.data b.data = true) ∧
      (ms.map Prod.fst).getLast? = some "type" :=
  (C16_members_in_byte_order (.postgreSqlV2 exampleSource)
    "\x7b\"disableMetricsCollection\":true,\"query\":\"select 1\",\"type\":\"PostgreSqlV2Source\"\x7d"
    (by decide)).1

end pipelines

/-! ## Totality of `MarshalJSON` on plain JSON data -/

namespace json

open Json

theorem bitLenF_le (f : Nat) : ∀ (n k : Nat), n < 2 ^ k → bitLenF f n ≤ k := by
  induction f with
  | zero => intro n k _; simp [bitLenF]
  | succ f ih =>
    intro n k h
    simp only [bitLenF]
    split
    · omega
    · rename_i hn
      cases k with
      | zero => simp at h; omega
      | succ k =>
        have h2 : n / 2 < 2 ^ k := by rw [Nat.pow_succ] at h; omega
        have := ih (n / 2) k h2
        omega

theorem roundFloat64_lt (n : Nat) (h : n < 2 ^ 64) : roundFloat64 n < float64Bound := by
  have hb : 2 ^ 64 + 2 ^ 11 < float64Bound := by decide
  unfold roundFloat64
  split
  · omega
  · have hlen : bitLen n ≤ 64 := bitLenF_le n n 64 h
    have hsh : 2 ^ (bitLen n - 53) ≤ 2 ^ 11 :=
      Nat.pow_le_pow_right (by decide) (by omega)
    have hq := Nat.div_mul_le_self n (2 ^ (bitLen n - 53))
    simp only []
    split
    · rw [Nat.add_mul, Nat.one_mul]; omega
    · omega

theorem pickShortest_round (v p d : Nat) (h : pickShortest v p = some d) :
    roundFloat64 d = v := by
  unfold pickShortest at h
  simp only [] at h
  split_ifs at h with h1 h2 h3 h4 h5 h6 <;>
    simp only [Option.some.injEq] at h <;> subst h <;> first | exact h1.1 | exact h1.2 | assumption

theorem shortestF_round (f v : Nat) (hv : roundFloat64 v = v) :
    ∀ p, roundFloat64 (shortestF f v p) = v := by
  induction f with
  | zero => intro p; simpa [shortestF] using hv
  | succ f ih =>
    intro p
    simp only [shortestF]
    cases hp : pickShortest v p with
    | none => exact ih _
    | some d => exact pickShortest_round v p d hp

theorem formatFloat_round (v : Nat) (hv : roundFloat64 v = v) :
    roundFloat64 (formatFloat v) = v := by
  unfold formatFloat
  split
  · rename_i h0; subst h0; exact hv
  · exact shortestF_round _ v hv _

/-! ### Decimals of float64 values -/

/-- The encoder writes one half as `0.5`. -/
theorem marshal_one_half : Marshal (.fraction false 1 1) = .ok "0.5" := by rfl

/-- The encoder writes the float64 next to one tenth, negated, as `-0.1`. -/
theorem marshal_one_tenth : Marshal (.fraction true 3602879701896397 55) = .ok "-0.1" := by
  rfl

/-- The encoder writes the last float64 below `1e21` with all its digits. -/
theorem marshal_below_1e21 :
    Marshal (.float64 false 999999999999999868928) = .ok "999999999999999900000" := by rfl

/-- The encoder writes `1e21` with an exponent. -/
theorem marshal_1e21 : Marshal (.float64 false 1000000000000000000000) = .ok "1e+21" := by
  rfl

/-- The encoder writes the float64 next to `1e-7` with an exponent of one digit. -/
theorem marshal_1e_7 : Marshal (.fraction false 944473296573929 73) = .ok "1e-7" := by rfl

/-- The encoder writes a float64 with digits on both sides of the point. -/
theorem marshal_123_456 : Marshal (.fraction false 8687443681197687 46) = .ok "123.456" := by
  rfl

/-- The decoder reads `0.5` and `1e+21` as the values that are written so. -/
theorem decode_one_half_and_1e21 :
    (match Json.parse "0.5".data with | .ok j => toGo j | .error e => .error e) =
        .ok (.fraction false 1 1) ∧
      (match Json.parse "1e+21".data with | .ok j => toGo j | .error e => .error e) =
        .ok (.float64 false 1000000000000000000000) :=
  ⟨by rfl, by rfl⟩

/-- The scanner refuses a decimal point that no digit follows. -/
theorem parse_point_without_digit : Json.parse "1.x".data = .error errPoint := by rfl

theorem digitOf_val (c : Char) (h : isDigit c = true) : (digitOf c).val = c.toNat - 48 := by
  simp only [isDigit, Bool.and_eq_true, decide_eq_true_eq] at h
  simp only [digitOf]
  omega

theorem valueOf_map_digitOf (cs : List Char) (h : ∀ c ∈ cs, isDigit c = true) :
    ∀ acc, valueOf acc (cs.map digitOf) = digitsValue acc cs := by
  induction cs with
  | nil => intro acc; rfl
  | cons c cs ih =>
    intro acc
    simp only [List.map_cons, valueOf, digitsValue, List.foldl_cons]
    rw [digitOf_val c (h c (List.mem_cons_self _ _))]
    exact ih (fun x hx => h x (List.mem_cons_of_mem _ hx)) _

/-- The digits of a number stand for the number. -/
theorem valueOf_digitsOf (n : Nat) : valueOf 0 (digitsOf n) = n := by
  obtain ⟨h1, h2, _⟩ := natDigits_spec n
  unfold digitsOf
  rw [valueOf_map_digitOf _ h1, h2]

theorem valueOf_append (a : Nat) (l1 l2 : List (Fin 10)) :
    valueOf a (l1 ++ l2) = valueOf (valueOf a l1) l2 := by
  simp [valueOf, List.foldl_append]

theorem valueOf_cons (a : Nat) (d : Fin 10) (l : List (Fin 10)) :
    valueOf a (d :: l) = valueOf (10 * a + d.val) l := rfl

theorem valueOf_replicate_zero (a z : Nat) :
    valueOf a (List.replicate z (0 : Fin 10)) = a * 10 ^ z := by
  induction z generalizing a with
  | zero => simp [valueOf]
  | succ z ih =>
    rw [List.replicate_succ, valueOf_cons, ih]
    simp only [Fin.val_zero, Nat.add_zero, Nat.pow_succ]
    ring

theorem valueOf_zeros_append (z : Nat) (l : List (Fin 10)) :
    valueOf 0 (List.replicate z (0 : Fin 10) ++ l) = valueOf 0 l := by
  rw [valueOf_append, valueOf_replicate_zero, Nat.zero_mul]

/-- The digits are the stripped digits and the zeros that were taken away. -/
theorem stripZeros_append (ds : List (Fin 10)) :
    ds = stripZeros ds ++ List.replicate (ds.length - (stripZeros ds).length) 0 := by
  have h := List.takeWhile_append_dropWhile (fun d : Fin 10 => decide (d = 0)) ds.reverse
  have hz : ∀ x ∈ (ds.reverse.takeWhile (fun d : Fin 10 => decide (d = 0))), x = 0 := by
    intro x hx
    have := List.mem_takeWhile_imp hx
    simpa using this
  have hrep : ds.reverse.takeWhile (fun d : Fin 10 => decide (d = 0)) =
      List.replicate (ds.reverse.takeWhile (fun d : Fin 10 => decide (d = 0))).length 0 :=
    List.eq_replicate_iff.2 ⟨rfl, hz⟩
  have h2 : ds = (ds.reverse.dropWhile (fun d : Fin 10 => decide (d = 0))).reverse ++
      (ds.reverse.takeWhile (fun d : Fin 10 => decide (d = 0))).reverse := by
    have := congrArg List.reverse h
    rw [List.reverse_append, List.reverse_reverse] at this
    exact this.symm
  have hlen : ds.length = (ds.reverse.dropWhile (fun d : Fin 10 => decide (d = 0))).length +
      (ds.reverse.takeWhile (fun d : Fin 10 => decide (d = 0))).length := by
    have := congrArg List.length h
    simp only [List.length_append, List.length_reverse] at this
    omega
  unfold stripZeros
  rw [List.length_reverse]
  have hz2 : ds.length - (ds.reverse.dropWhile (fun d : Fin 10 => decide (d = 0))).length =
      (ds.reverse.takeWhile (fun d : Fin 10 => decide (d = 0))).length := by omega
  rw [hz2]
  conv_lhs => rw [h2]
  congr 1
  rw [hrep, List.reverse_replicate, List.length_replicate]

theorem stripZeros_length_le (ds : List (Fin 10)) : (stripZeros ds).length ≤ ds.length := by
  unfold stripZeros
  rw [List.length_reverse]
  have h := congrArg List.length
    (List.takeWhile_append_dropWhile (fun d : Fin 10 => decide (d = 0)) ds.reverse)
  simp only [List.length_append, List.length_reverse] at h
  omega

/-- The decimal with the zeros moved into the exponent is the same number. -/
theorem normDecimal_spec (d : Nat) (x : Int) :
    ∃ z : Nat, (normDecimal d x).2 = x + z ∧ (normDecimal d x).1 * 10 ^ z = d ∧
      (normDecimal d x).1 = valueOf 0 (stripZeros (digitsOf d)) ∧
      (digitsOf d).length = (stripZeros (digitsOf d)).length + z := by
  refine ⟨(digitsOf d).length - (stripZeros (digitsOf d)).length, rfl, ?_, rfl, ?_⟩
  · have h := stripZeros_append (digitsOf d)
    have hv := valueOf_digitsOf d
    rw [h, valueOf_append, valueOf_replicate_zero] at hv
    exact hv
  · have := stripZeros_length_le (digitsOf d)
    omega

theorem exponentValue_mkExponent (x : Int) : exponentValue (mkExponent x) = x := by
  have hv := valueOf_digitsOf x.natAbs
  unfold mkExponent
  cases hd : digitsOf x.natAbs with
  | nil =>
    rw [hd] at hv
    simp only [valueOf, List.foldl_nil] at hv
    simp only [exponentValue, valueOf, List.foldl_cons, List.foldl_nil, Fin.val_zero]
    split <;> omega
  | cons d ds =>
    rw [hd] at hv
    simp only [exponentValue, hv, Option.some.injEq, decide_eq_true_eq]
    split <;> omega

/-- The exponent of an optional exponent part. -/
theorem exponentOf_frac (d : Fin 10) (ds : List (Fin 10)) (e : Option Exponent) :
    exponentOf (.frac d ds e) = (match e with | none => 0 | some e => exponentValue e) := by
  cases e <;> rfl

theorem convertDecimal_ok (neg : Bool) (mag : Nat) (tail : NumberTail) (mg : Mag)
    (h : decimalMag (valueOf mag (fracDigits tail))
      (exponentOf tail - ((fracDigits tail).length : Int)) = some mg) :
    ∃ g, convertDecimal neg mag tail = .ok g := by
  unfold convertDecimal
  rw [h]
  cases mg <;> exact ⟨_, rfl⟩

theorem convertNumber_ok (neg : Bool) (mag : Nat) (mg : Mag)
    (h : decimalMag mag 0 = some mg) : ∃ g, convertNumber neg mag = .ok g := by
  unfold decimalMag at h
  simp only [le_refl, if_true, Int.toNat_zero, pow_zero, Nat.mul_one] at h
  unfold convertNumber
  split
  · exact ⟨_, rfl⟩
  · rename_i hn; rw [if_neg hn] at h; cases h

/-- A literal is decoded when the decimal it stands for is in the float64 range. -/
theorem toGo_mkNumber (neg : Bool) (mag : Nat) (frac : List (Fin 10)) (exp : Option Exponent)
    (mg : Mag)
    (h : decimalMag (valueOf mag frac)
      ((match exp with | none => 0 | some e => exponentValue e) - (frac.length : Int)) =
        some mg) :
    ∃ g, toGo (mkNumber neg mag frac exp) = .ok g := by
  cases frac with
  | nil =>
    cases exp with
    | none =>
      simp only [mkNumber, toGo]
      apply convertNumber_ok neg mag mg
      simpa [valueOf] using h
    | some e =>
      simp only [mkNumber, toGo]
      apply convertDecimal_ok neg mag _ mg
      simpa [fracDigits, exponentOf] using h
  | cons d ds =>
    simp only [mkNumber, toGo]
    apply convertDecimal_ok neg mag _ mg
    rw [exponentOf_frac]
    exact h

/-- The literal written for a decimal is decoded when the decimal is in the
float64 range. -/
theorem toGo_floatJson (neg fmt : Bool) (d : Nat) (x : Int) (hd : 1 ≤ d) (mg : Mag)
    (h : decimalMag (normDecimal d x).1 (normDecimal d x).2 = some mg) :
    ∃ g, toGo (floatJson neg fmt d x) = .ok g := by
  obtain ⟨z, hx2, hval, hD, hlen⟩ := normDecimal_spec d x
  rw [hx2, hD] at h
  have hne : stripZeros (digitsOf d) ≠ [] := by
    intro hnil
    rw [hD, hnil] at hval
    simp [valueOf] at hval
    omega
  unfold floatJson
  simp only []
  generalize hds : stripZeros (digitsOf d) = ds at h hne hlen
  cases fmt with
  | true =>
    simp only [if_true]
    cases ds with
    | nil => exact absurd rfl hne
    | cons d1 rest =>
      simp only []
      apply toGo_mkNumber neg _ _ _ mg
      simp only [exponentValue_mkExponent]
      have e1 : x + ((digitsOf d).length : Int) - 1 - (rest.length : Int) = x + (z : Int) := by
        rw [hlen]; simp only [List.length_cons]; push_cast; omega
      rw [e1]
      have e2 : valueOf d1.val rest = valueOf 0 (d1 :: rest) := by
        rw [valueOf_cons]; simp
      rw [e2]
      exact h
  | false =>
    simp only [Bool.false_eq_true, if_false]
    split
    · rename_i hdp
      apply toGo_mkNumber neg _ _ _ mg
      rw [valueOf_zeros_append]
      have e1 : (0 : Int) - ((List.replicate (-(x + ((digitsOf d).length : Int))).toNat
          (0 : Fin 10) ++ ds).length : Int) = x + (z : Int) := by
        rw [List.length_append, List.length_replicate, hlen]
        push_cast
        rw [hlen] at hdp
        push_cast at hdp
        omega
      simp only []
      rw [e1]
      exact h
    · rename_i hdp
      split
      · rename_i hlt
        apply toGo_mkNumber neg _ _ _ mg
        rw [← valueOf_append, List.take_append_drop]
        have e1 : (0 : Int) - ((ds.drop (x + ((digitsOf d).length : Int)).toNat).length : Int) =
            x + (z : Int) := by
          rw [List.length_drop]
          rw [hlen] at hdp hlt ⊢
          push_cast at hdp hlt ⊢
          omega
        simp only []
        rw [e1]
        exact h
      · rename_i hge
        simp only [toGo]
        apply convertNumber_ok neg _ mg
        have hxz : 0 ≤ x + (z : Int) := by
          rw [hlen] at hge
          push_cast at hge
          omega
        unfold decimalMag at h ⊢
        rw [if_pos hxz] at h
        simp only [le_refl, if_true, Int.toNat_zero, pow_zero, Nat.mul_one]
        have e1 : (x + ((digitsOf d).length : Int)).toNat - ds.length = (x + (z : Int)).toNat := by
          rw [hlen]
          push_cast
          omega
        rw [e1]
        exact h

theorem pickDecimal_readsBack (m k : Nat) (x : Int) (d : Nat) (h : pickDecimal m k x = some d) :
    readsBack (reduceMag m k) d x = true := by
  unfold pickDecimal at h
  simp only [] at h
  split_ifs at h <;> simp only [Option.some.injEq] at h <;> subst h <;>
    first | assumption | tauto

theorem roundRatio_some (num den : Nat) (h : num < den * float64Overflow) :
    ∃ mg, roundRatio num den = some mg := by
  unfold roundRatio
  rw [if_neg (by omega)]
  split
  · exact ⟨_, rfl⟩
  · simp only []
    split <;> exact ⟨_, rfl⟩

theorem reduceMag_int : ∀ (k m n : Nat), reduceMag m k = .int n → n ≤ m
  | 0, m, n, h => by
    simp only [reduceMag, Mag.int.injEq] at h
    omega
  | k + 1, m, n, h => by
    simp only [reduceMag] at h
    split at h
    · simp only [Mag.int.injEq] at h; omega
    · split at h
      · have := reduceMag_int k (m / 2) n h
        have := Nat.div_le_self m 2
        omega
      · cases h

theorem reduceMag_frac : ∀ (k m m1 k1 : Nat), reduceMag m k = .frac m1 k1 → 1 ≤ m1 ∧ m1 ≤ m
  | 0, m, m1, k1, h => by simp [reduceMag] at h
  | k + 1, m, m1, k1, h => by
    simp only [reduceMag] at h
    split at h
    · cases h
    · split at h
      · have := reduceMag_frac k (m / 2) m1 k1 h
        have := Nat.div_le_self m 2
        omega
      · simp only [Mag.frac.injEq] at h
        omega

/-- The exact decimal of `m / 2 ^ k` is in the float64 range. -/
theorem exact_decimal_some (m k : Nat) (hm : m < 2 ^ 53) :
    ∃ mg, decimalMag (normDecimal (m * 5 ^ k) (-(k : Int))).1
      (normDecimal (m * 5 ^ k) (-(k : Int))).2 = some mg := by
  obtain ⟨z, hx2, hval, _, _⟩ := normDecimal_spec (m * 5 ^ k) (-(k : Int))
  rw [hx2]
  generalize (normDecimal (m * 5 ^ k) (-(k : Int))).1 = D at hval
  unfold decimalMag
  split
  · rename_i hz
    have hkz : k ≤ z := by omega
    have e1 : (-(k : Int) + (z : Int)).toNat = z - k := by omega
    rw [e1]
    have hmul : D * 10 ^ (z - k) * 2 ^ k = m := by
      have h5 : 0 < 5 ^ k := by positivity
      apply Nat.eq_of_mul_eq_mul_right h5
      rw [← hval]
      have : 10 ^ z = 10 ^ (z - k) * (2 ^ k * 5 ^ k) := by
        rw [← Nat.mul_pow, ← Nat.pow_add]
        congr 1
        omega
      rw [this]
      ring
    have h2 : 0 < 2 ^ k := by positivity
    have hle : D * 10 ^ (z - k) ≤ m := by
      rw [← hmul]
      exact Nat.le_mul_of_pos_right _ h2
    have hlt : D * 10 ^ (z - k) < 2 ^ 64 := by
      have : (2 : Nat) ^ 53 < 2 ^ 64 := by decide
      omega
    rw [if_pos (roundFloat64_lt _ hlt)]
    exact ⟨_, rfl⟩
  · rename_i hz
    have hkz : z < k := by omega
    have e1 : (-(-(k : Int) + (z : Int))).toNat = k - z := by omega
    rw [e1]
    apply roundRatio_some
    have hmul : D * 2 ^ k = m * 10 ^ (k - z) := by
      have h10 : 0 < 10 ^ z := by positivity
      apply Nat.eq_of_mul_eq_mul_right h10
      have e2 : m * 10 ^ (k - z) * 10 ^ z = m * 5 ^ k * 2 ^ k := by
        rw [Nat.mul_assoc, ← Nat.pow_add]
        have : k - z + z = k := by omega
        rw [this, Nat.mul_assoc, ← Nat.mul_pow]
      rw [e2, ← hval]
      ring
    have h2 : 0 < 2 ^ k := by positivity
    have hle : D ≤ m * 10 ^ (k - z) := by
      rw [← hmul]
      exact Nat.le_mul_of_pos_right _ h2
    have hp : 0 < 10 ^ (k - z) := by positivity
    have hov : m < float64Overflow := by
      have : (2 : Nat) ^ 53 < float64Overflow := by decide
      omega
    calc D ≤ m * 10 ^ (k - z) := hle
      _ < float64Overflow * 10 ^ (k - z) := Nat.mul_lt_mul_of_pos_right hov hp
      _ = 10 ^ (k - z) * float64Overflow := Nat.mul_comm _ _

/-- The decimal that the search finds is positive and in the float64 range. -/
theorem shortestRatioF_some (m k : Nat) (hm1 : 1 ≤ m) (hm : m < 2 ^ 53) :
    ∀ (fuel : Nat) (x : Int), 1 ≤ (shortestRatioF fuel m k x).1 ∧
      ∃ mg, decimalMag (normDecimal (shortestRatioF fuel m k x).1 (shortestRatioF fuel m k x).2).1
        (normDecimal (shortestRatioF fuel m k x).1 (shortestRatioF fuel m k x).2).2 = some mg := by
  intro fuel
  induction fuel with
  | zero =>
    intro x
    simp only [shortestRatioF]
    refine ⟨?_, exact_decimal_some m k hm⟩
    have h5 : 0 < 5 ^ k := by positivity
    exact Nat.mul_pos hm1 h5
  | succ fuel ih =>
    intro x
    simp only [shortestRatioF]
    cases hp : pickDecimal m k x with
    | none => exact ih _
    | some d =>
      have hr := pickDecimal_readsBack m k x d hp
      simp only [readsBack, Bool.and_eq_true, decide_eq_true_eq] at hr
      exact ⟨hr.1, _, hr.2⟩

theorem roundFloat64_small (n : Nat) (h : n < 2 ^ 53) : roundFloat64 n = n := by
  have hb : bitLen n ≤ 53 := bitLenF_le n n 53 h
  unfold roundFloat64
  rw [if_pos hb]

theorem depth_mkNumber (neg : Bool) (mag : Nat) (frac : List (Fin 10)) (exp : Option Exponent) :
    depth (mkNumber neg mag frac exp) = 0 := by
  cases frac with
  | nil => cases exp <;> simp [mkNumber, depth]
  | cons d ds => simp [mkNumber, depth]

theorem depth_floatJson (neg fmt : Bool) (d : Nat) (x : Int) :
    depth (floatJson neg fmt d x) = 0 := by
  unfold floatJson
  simp only []
  split
  · split
    · simp [depth]
    · exact depth_mkNumber _ _ _ _
  · split
    · exact depth_mkNumber _ _ _ _
    · split
      · exact depth_mkNumber _ _ _ _
      · simp [depth]

theorem depth_integralJson (neg : Bool) (mag : Nat) : depth (integralJson neg mag) = 0 := by
  unfold integralJson
  split
  · simp [depth]
  · exact depth_floatJson _ _ _ _

theorem depth_fractionJson (neg : Bool) (m k : Nat) : depth (fractionJson neg m k) = 0 := by
  unfold fractionJson
  split
  · exact depth_integralJson _ _
  · exact depth_floatJson _ _ _ _

/-- The literal written for a float64 of integral magnitude is decoded. -/
theorem toGo_integralJson (neg : Bool) (mag : Nat) (h1 : roundFloat64 mag = mag)
    (h2 : mag < float64Bound) : ∃ g, toGo (integralJson neg mag) = .ok g := by
  have hr := formatFloat_round mag h1
  unfold integralJson
  split
  · simp only [toGo, convertNumber, hr, h2, if_true]
    exact ⟨_, rfl⟩
  · rename_i hbig
    have hd : 1 ≤ formatFloat mag := by
      rcases Nat.eq_zero_or_pos (formatFloat mag) with h0 | h0
      · rw [h0] at hr
        have hz : roundFloat64 0 = 0 := by decide
        omega
      · exact h0
    obtain ⟨z, hx2, hval, _, _⟩ := normDecimal_spec (formatFloat mag) 0
    apply toGo_floatJson neg true (formatFloat mag) 0 hd (.int mag)
    rw [hx2]
    unfold decimalMag
    have hz : (0 : Int) ≤ 0 + (z : Int) := by omega
    have e1 : ((0 : Int) + (z : Int)).toNat = z := by omega
    rw [if_pos hz, e1, hval, hr, if_pos h2]

/-- The literal written for the float64 of magnitude `m / 2 ^ k` is decoded. -/
theorem toGo_fractionJson (neg : Bool) (m k : Nat) (hm : m < 2 ^ 53) :
    ∃ g, toGo (fractionJson neg m k) = .ok g := by
  unfold fractionJson
  cases hred : reduceMag m k with
  | int n =>
    simp only []
    have hn : n < 2 ^ 53 := lt_of_le_of_lt (reduceMag_int k m n hred) hm
    have hb : (2 : Nat) ^ 53 < float64Bound := by decide
    exact toGo_integralJson neg n (roundFloat64_small n hn) (by omega)
  | frac m1 k1 =>
    simp only []
    obtain ⟨h1, h2⟩ := reduceMag_frac k m m1 k1 hred
    obtain ⟨hd, mg, hmg⟩ := shortestRatioF_some m1 k1 h1 (by omega) 17 (decimalPoint m1 k1 - 1)
    exact toGo_floatJson neg _ _ _ hd mg hmg

end json

namespace json

open Json

theorem mem_foldl_mapSet {α : Type} (l : List (String × α)) :
    ∀ (acc : List (String × α)) (p : String × α),
      p ∈ l.foldl (fun a kv => mapSet kv.1 kv.2 a) acc → p ∈ acc ∨ p ∈ l := by
  induction l with
  | nil => intro acc p h; exact Or.inl h
  | cons hd tl ih =>
    intro acc p h
    simp only [List.foldl_cons] at h
    rcases ih _ p h with h1 | h1
    · rcases mem_mapSet _ _ _ p h1 with h2 | h2
      · right; rw [h2]; exact List.mem_cons_self _ _
      · exact Or.inl h2
    · exact Or.inr (List.mem_cons_of_mem _ h1)

theorem mem_mapOfList {α : Type} (l : List (String × α)) (p : String × α)
    (h : p ∈ mapOfList l) : p ∈ l := by
  rcases mem_foldl_mapSet l [] p h with h1 | h1
  · cases h1
  · exact h1

theorem nesting_le_nestingList (xs : List GoValue) (x : GoValue) (h : x ∈ xs) :
    nesting x ≤ nestingList xs := by
  induction xs with
  | nil => cases h
  | cons y ys ih =>
    simp only [nestingList]
    rcases List.mem_cons.1 h with e | e
    · subst e; exact le_max_left _ _
    · exact le_trans (ih e) (le_max_right _ _)

theorem nesting_le_nestingEntries (kvs : List (String × GoValue)) (p : String × GoValue)
    (h : p ∈ kvs) : nesting p.2 ≤ nestingEntries kvs := by
  induction kvs with
  | nil => cases h
  | cons q qs ih =>
    obtain ⟨k, v⟩ := q
    simp only [nestingEntries]
    rcases List.mem_cons.1 h with e | e
    · subst e; exact le_max_left _ _
    · exact le_trans (ih e) (le_max_right _ _)

/-- Elements that are encoded and decoded: so is the array of them. -/
theorem elems_encode (l : List (Except String Json)) (n : Nat)
    (h : ∀ r ∈ l, ∃ j, r = .ok j ∧ depth j ≤ n ∧ ∃ g, toGo j = .ok g) :
    ∃ js, sequenceElems l = .ok js ∧ depthElems js ≤ n ∧ ∃ gs, toGoList js = .ok gs := by
  induction l with
  | nil => exact ⟨[], rfl, by simp [depthElems], [], rfl⟩
  | cons r rs ih =>
    obtain ⟨j, hj, hd, g, hg⟩ := h r (List.mem_cons_self _ _)
    obtain ⟨js, h1, h2, gs, h3⟩ := ih (fun r2 hr => h r2 (List.mem_cons_of_mem _ hr))
    subst hj
    refine ⟨j :: js, by simp [sequenceElems, h1], ?_, g :: gs, by simp [toGoList, hg, h3]⟩
    simp only [depthElems]
    exact max_le hd h2

/-- Members that are encoded and decoded: so is the object of them. -/
theorem members_encode (l : List (String × Except String Json)) (n : Nat)
    (h : ∀ p ∈ l, ∃ j, p.2 = .ok j ∧ depth j ≤ n ∧ ∃ g, toGo j = .ok g) :
    ∃ ms, sequenceMembers l = .ok ms ∧ depthMembers ms ≤ n ∧
      ∀ acc, ∃ r, toGoMembers ms acc = .ok r := by
  induction l with
  | nil => exact ⟨[], rfl, by simp [depthMembers], fun acc => ⟨acc, rfl⟩⟩
  | cons p ps ih =>
    obtain ⟨k, r⟩ := p
    obtain ⟨j, hj, hd, g, hg⟩ := h (k, r) (List.mem_cons_self _ _)
    obtain ⟨ms, h1, h2, h3⟩ := ih (fun q hq => h q (List.mem_cons_of_mem _ hq))
    simp only at hj
    subst hj
    refine ⟨(k, j) :: ms, by simp [sequenceMembers, h1], ?_, ?_⟩
    · simp only [depthMembers]
      exact max_le hd h2
    · intro acc
      simp only [toGoMembers, hg]
      exact h3 _

theorem encodes_slice (xs : List GoValue) (h : ∀ x ∈ xs, Encodes x) : Encodes (.slice xs) := by
  have hall : ∀ r ∈ marshalList xs,
      ∃ j, r = .ok j ∧ depth j ≤ nestingList xs ∧ ∃ g, toGo j = .ok g := by
    intro r hr
    rw [marshalList_eq_map] at hr
    obtain ⟨x, hx, rfl⟩ := List.mem_map.1 hr
    obtain ⟨j, h1, h2, h3⟩ := h x hx
    exact ⟨j, h1, le_trans h2 (nesting_le_nestingList xs x hx), h3⟩
  obtain ⟨js, h1, h2, gs, h3⟩ := elems_encode _ _ hall
  refine ⟨.arr js, by simp [marshalValue, h1], ?_, .slice gs, by simp [toGo, h3]⟩
  simp only [depth, nesting]
  omega

theorem encodes_map (kvs : List (String × GoValue)) (h : ∀ p ∈ kvs, Encodes p.2) :
    Encodes (.map kvs) := by
  have hall : ∀ p ∈ mapOfList (marshalEntries kvs),
      ∃ j, p.2 = .ok j ∧ depth j ≤ nestingEntries kvs ∧ ∃ g, toGo j = .ok g := by
    intro p hp
    have hp2 := mem_mapOfList _ p hp
    rw [marshalEntries_eq_map] at hp2
    obtain ⟨q, hq, rfl⟩ := List.mem_map.1 hp2
    obtain ⟨j, h1, h2, h3⟩ := h q hq
    exact ⟨j, h1, le_trans h2 (nesting_le_nestingEntries kvs q hq), h3⟩
  obtain ⟨ms, h1, h2, h3⟩ := members_encode _ _ hall
  obtain ⟨r, hr⟩ := h3 []
  refine ⟨.obj ms, by simp [marshalValue, h1], ?_, .map r, by simp [toGo, hr]⟩
  simp only [depth, nesting]
  omega

mutual
/-- Plain JSON data is encoded, no deeper than it is nested, and decoded. -/
theorem plain_encodes : ∀ (g : GoValue), isPlainJSON g = true → Encodes g
  | .nil, _ => ⟨.null, rfl, by simp [depth], .nil, rfl⟩
  | .bool b, _ => ⟨.bool b, rfl, by simp [depth], .bool b, rfl⟩
  | .int i, h => by
    simp only [isPlainJSON, decide_eq_true_eq] at h
    have hn : i.natAbs < 2 ^ 64 := by omega
    refine ⟨.num (decide (i < 0)) i.natAbs, rfl, by simp [depth], ?_⟩
    simp only [toGo, convertNumber, roundFloat64_lt _ hn, if_true]
    exact ⟨_, rfl⟩
  | .float64 neg mag, h => by
    simp only [isPlainJSON, decide_eq_true_eq] at h
    exact ⟨integralJson neg mag, rfl, by simp [depth_integralJson],
      toGo_integralJson neg mag h.1 h.2⟩
  | .fraction neg m k, h => by
    simp only [isPlainJSON, decide_eq_true_eq] at h
    exact ⟨fractionJson neg m k, rfl, by simp [depth_fractionJson],
      toGo_fractionJson neg m k h.1⟩
  | .str s, _ => ⟨.str s, rfl, by simp [depth], .str s, rfl⟩
  | .slice xs, h => by
    simp only [isPlainJSON] at h
    exact encodes_slice xs (plainList_encodes xs h)
  | .map kvs, h => by
    simp only [isPlainJSON] at h
    exact encodes_map kvs (plainEntries_encodes kvs h)
  | .ptr _, h => by simp [isPlainJSON] at h
  | .struct _, h => by simp [isPlainJSON] at h
  | .unsupported _, h => by simp [isPlainJSON] at h
theorem plainList_encodes : ∀ (xs : List GoValue), isPlainList xs = true →
    ∀ x ∈ xs, Encodes x
  | [], _, x, hx => by cases hx
  | y :: ys, h, x, hx => by
    simp only [isPlainList, Bool.and_eq_true] at h
    rcases List.mem_cons.1 hx with e | e
    · subst e; exact plain_encodes _ h.1
    · exact plainList_encodes ys h.2 x e
theorem plainEntries_encodes : ∀ (kvs : List (String × GoValue)), isPlainEntries kvs = true →
    ∀ p ∈ kvs, Encodes p.2
  | [], _, p, hp => by cases hp
  | (k, v) :: qs, h, p, hp => by
    simp only [isPlainEntries, Bool.and_eq_true] at h
    rcases List.mem_cons.1 hp with e | e
    · subst e; exact plain_encodes _ h.1
    · exact plainEntries_encodes qs h.2 p e
end

end json

namespace pipelines

open Json json

theorem mem_marshalFields (fs : List (String × Bool × GoValue))
    (p : String × Except String Json) (h : p ∈ marshalFields fs) :
    ∃ f ∈ fs, p.2 = marshalValue f.2.2 := by
  induction fs with
  | nil => simp [marshalFields] at h
  | cons f fs ih =>
    obtain ⟨k, o, v⟩ := f
    simp only [marshalFields] at h
    split at h
    · obtain ⟨g, hg, e⟩ := ih h
      exact ⟨g, List.mem_cons_of_mem _ hg, e⟩
    · rcases List.mem_cons.1 h with e | e
      · exact ⟨(k, o, v), List.mem_cons_self _ _, by rw [e]⟩
      · obtain ⟨g, hg, e2⟩ := ih e
        exact ⟨g, List.mem_cons_of_mem _ hg, e2⟩

/-- The shared body returns bytes when every field of the struct is encoded to a
document below the decoder's depth limit that the decoder accepts. -/
theorem marshalWithType_ok_of (name : String) (fs : List (String × Bool × GoValue))
    (h : ∀ f ∈ fs, FieldEncodes f.2.2) :
    ∃ bytes, marshalWithType name (.struct fs) = .ok bytes := by
  have hall : ∀ p ∈ marshalFields fs,
      ∃ j, p.2 = .ok j ∧ depth j ≤ maxNestingDepth - 1 ∧ ∃ g, toGo j = .ok g := by
    intro p hp
    obtain ⟨f, hf, e⟩ := mem_marshalFields fs p hp
    obtain ⟨j, h1, h2, h3⟩ := h f hf
    exact ⟨j, by rw [e, h1], by omega, h3⟩
  obtain ⟨ms1, h1, h2, h3⟩ := members_encode _ _ hall
  obtain ⟨kvs, hk⟩ := h3 []
  have hd : depth (.obj ms1) ≤ maxNestingDepth := by
    have : 0 < maxNestingDepth := by decide
    simp only [depth]; omega
  obtain ⟨hsorted, hmar, _⟩ :=
    toGoMembers_spec ms1 [] kvs hk (by simp [KeysSorted]) (by simp)
  have hsorted2 := mapSet_sorted "type" (GoValue.str name) kvs hsorted
  have hmar2 : ∀ p ∈ mapSet "type" (GoValue.str name) kvs, Marshals p.2 := by
    intro p hp
    rcases mem_mapSet _ _ _ p hp with hp | hp
    · subst hp; exact ⟨.str name, by simp [marshalValue]⟩
    · exact hmar p hp
  obtain ⟨ms2, h4, _, _⟩ := marshal_map_spec _ hsorted2 hmar2
  refine ⟨String.mk (render (.obj ms2)), ?_⟩
  unfold marshalWithType
  rw [marshal_struct, h1]
  simp only []
  rw [unmarshal_render_obj, if_pos hd, hk]
  simp only [json.Marshal, h4]

theorem fieldEncodes_dynamic (p : Option GoValue)
    (h : ∀ v, p = some v → isPlainJSON v = true ∧ nesting v < maxNestingDepth) :
    FieldEncodes (.ptr p) := by
  cases p with
  | none => exact ⟨.null, rfl, by decide, .nil, rfl⟩
  | some v =>
    obtain ⟨h1, h2⟩ := h v rfl
    obtain ⟨j, h3, h4, h5⟩ := plain_encodes v h1
    exact ⟨j, by simp [marshalValue, h3], by omega, h5⟩

theorem fieldEncodes_bool (p : Option Bool) : FieldEncodes (.ptr (p.map .bool)) := by
  cases p with
  | none => exact ⟨.null, rfl, by decide, .nil, rfl⟩
  | some b => exact ⟨.bool b, rfl, by simp [depth, maxNestingDepth], .bool b, rfl⟩

theorem fieldEncodes_int64 (p : Option Int)
    (h : ∀ i, p = some i → -9223372036854775808 ≤ i ∧ i < 9223372036854775808) :
    FieldEncodes (.ptr (p.map .int)) := by
  cases p with
  | none => exact ⟨.null, rfl, by decide, .nil, rfl⟩
  | some i =>
    obtain ⟨h1, h2⟩ := h i rfl
    obtain ⟨j, h3, h4, h5⟩ := plain_encodes (.int i)
      (by simp only [isPlainJSON, decide_eq_true_eq]; omega)
    refine ⟨j, by simpa [marshalValue] using h3, ?_, h5⟩
    simp only [nesting] at h4
    have : 0 < maxNestingDepth := by decide
    omega

theorem fieldEncodes_str (s : String) : FieldEncodes (.str s) :=
  ⟨.str s, rfl, by simp [depth, maxNestingDepth], .str s, rfl⟩

/-- C15 (amended): `MarshalJSON` returns bytes and no error for every copy
source whose dynamic fields are nil or point to plain JSON data (nil, a boolean,
an integer, any finite float64 with or without a fraction, a string, a slice or
a map of such values) in which slices and maps are nested at most 9999 deep (so
that the encoded object stays within the 10000 levels that the decoder
accepts), with `int64` fields in the range of `int64`. -/
theorem C15_marshalJSON_total_on_shallow_plain_data (s : CopySource)
    (hd : ∀ v ∈ s.dynamicValues, isPlainJSON v = true ∧ nesting v < maxNestingDepth)
    (hi : ∀ i ∈ s.int64Values, -9223372036854775808 ≤ i ∧ i < 9223372036854775808) :
    ∃ bytes, s.MarshalJSON = .ok bytes := by
  rw [CopySource.marshalJSON_eq]
  cases s with
  | azurePostgreSql s =>
    apply marshalWithType_ok_of
    simp only [CopySource.dynamicValues, CopySource.int64Values, List.mem_filterMap,
      List.mem_cons, List.mem_nil_iff, or_false, id] at hd hi
    simp only [List.forall_mem_cons, List.not_mem_nil, false_imp_iff, implies_true,
      and_true]
    exact ⟨fieldEncodes_dynamic _ (fun v e => hd v ⟨_, Or.inl rfl, e⟩),
      fieldEncodes_dynamic _ (fun v e => hd v ⟨_, Or.inr (Or.inl rfl), e⟩),
      fieldEncodes_dynamic _ (fun v e => hd v ⟨_, Or.inr (Or.inr (Or.inl rfl)), e⟩),
      fieldEncodes_bool _,
      fieldEncodes_int64 _ (fun i e => hi i ⟨_, Or.inl rfl, e⟩),
      fieldEncodes_int64 _ (fun i e => hi i ⟨_, Or.inr rfl, e⟩),
      fieldEncodes_dynamic _ (fun v e => hd v ⟨_, Or.inr (Or.inr (Or.inr rfl)), e⟩),
      fieldEncodes_str _⟩
  | magento s =>
    apply marshalWithType_ok_of
    simp only [CopySource.dynamicValues, CopySource.int64Values, List.mem_filterMap,
      List.mem_cons, List.mem_nil_iff, or_false, id] at hd hi
    simp only [List.forall_mem_cons, List.not_mem_nil, false_imp_iff, implies_true,
      and_true]
    exact ⟨fieldEncodes_dynamic _ (fun v e => hd v ⟨_, Or.inl rfl, e⟩),
      fieldEncodes_dynamic _ (fun v e => hd v ⟨_, Or.inr (Or.inl rfl), e⟩),
      fieldEncodes_dynamic _ (fun v e => hd v ⟨_, Or.inr (Or.inr (Or.inl rfl)), e⟩),
      fieldEncodes_bool _,
      fieldEncodes_int64 _ (fun i e => hi i ⟨_, Or.inl rfl, e⟩),
      fieldEncodes_int64 _ (fun i e => hi i ⟨_, Or.inr rfl, e⟩),
      fieldEncodes_dynamic _ (fun v e => hd v ⟨_, Or.inr (Or.inr (Or.inr rfl)), e⟩),
      fieldEncodes_str _⟩
  | microsoftAccess s =>
    apply marshalWithType_ok_of
    simp only [CopySource.dynamicValues, CopySource.int64Values, List.mem_filterMap,
      List.mem_cons, List.mem_nil_iff, or_false, id] at hd hi
    simp only [List.forall_mem_cons, List.not_mem_nil, false_imp_iff, implies_true,
      and_true]
    exact ⟨fieldEncodes_dynamic _ (fun v e => hd v ⟨_, Or.inl rfl, e⟩),
      fieldEncodes_dynamic _ (fun v e => hd v ⟨_, Or.inr (Or.inl rfl), e⟩),
      fieldEncodes_bool _,
      fieldEncodes_int64 _ (fun i e => hi i ⟨_, Or.inl rfl, e⟩),
      fieldEncodes_int64 _ (fun i e => hi i ⟨_, Or.inr rfl, e⟩),
      fieldEncodes_dynamic _ (fun v e => hd v ⟨_, Or.inr (Or.inr rfl), e⟩),
      fieldEncodes_str _⟩
  | postgreSqlV2 s =>
    apply marshalWithType_ok_of
    simp only [CopySource.dynamicValues, CopySource.int64Values, List.mem_filterMap,
      List.mem_cons, List.mem_nil_iff, or_false, id] at hd hi
    simp only [List.forall_mem_cons, List.not_mem_nil, false_imp_iff, implies_true,
      and_true]
    exact ⟨fieldEncodes_dynamic _ (fun v e => hd v ⟨_, Or.inl rfl, e⟩),
      fieldEncodes_dynamic _ (fun v e => hd v ⟨_, Or.inr (Or.inl rfl), e⟩),
      fieldEncodes_dynamic _ (fun v e => hd v ⟨_, Or.inr (Or.inr (Or.inl rfl)), e⟩),
      fieldEncodes_bool _,
      fieldEncodes_int64 _ (fun i e => hi i ⟨_, Or.inl rfl, e⟩),
      fieldEncodes_int64 _ (fun i e => hi i ⟨_, Or.inr rfl, e⟩),
      fieldEncodes_dynamic _ (fun v e => hd v ⟨_, Or.inr (Or.inr (Or.inr rfl)), e⟩),
      fieldEncodes_str _⟩

/-- Witness of C15: a `MagentoSource` with plain JSON data in its dynamic fields,
among them the numbers 7, 0.5 and 1e21. -/
theorem C15_marshalJSON_total_on_shallow_plain_data_witness :
    ∃ bytes, (CopySource.magento plainSource).MarshalJSON = .ok bytes :=
  C15_marshalJSON_total_on_shallow_plain_data (.magento plainSource) (by decide) (by decide)

theorem isPlainJSON_nestedSlice (n : Nat) : isPlainJSON (nestedSlice n) = true := by
  induction n with
  | zero => rfl
  | succ n ih => simp [nestedSlice, isPlainJSON, isPlainList, ih]

theorem marshalValue_nestedSlice (n : Nat) : marshalValue (nestedSlice n) = .ok (nestedArr n) := by
  induction n with
  | zero => rfl
  | succ n ih => simp [nestedSlice, nestedArr, marshalValue, marshalList, sequenceElems, ih]

theorem depth_nestedArr (n : Nat) : depth (nestedArr n) = n + 1 := by
  induction n with
  | zero => rfl
  | succ n ih => simp [nestedArr, depth, depthElems, ih]

/-- Plain JSON data nested as deep as the decoder's limit: the decoding step of
`MarshalJSON` fails. -/
theorem marshalJSON_nested (n : Nat) (h : maxNestingDepth ≤ n + 1) :
    AzurePostgreSqlSource.MarshalJSON
        { AzurePostgreSqlSource.zero with AdditionalColumns := some (nestedSlice n) } =
      .error "unmarshaling AzurePostgreSqlSource: exceeded max depth" := by
  have hm : json.Marshal (AzurePostgreSqlSource.wrapper
      { AzurePostgreSqlSource.zero with AdditionalColumns := some (nestedSlice n) }) =
      .ok (String.mk (render (.obj [("additionalColumns", nestedArr n), ("type", .str "")]))) := by
    unfold AzurePostgreSqlSource.wrapper
    rw [marshal_struct]
    simp [marshalFields, isEmptyValue, AzurePostgreSqlSource.zero, marshalValue,
      marshalValue_nestedSlice, sequenceMembers]
  unfold AzurePostgreSqlSource.MarshalJSON
  rw [hm]
  simp only []
  rw [unmarshal_render_obj]
  have hd : ¬ depth (.obj [("additionalColumns", nestedArr n), ("type", .str "")]) ≤
      maxNestingDepth := by
    simp only [depth, depthMembers, depth_nestedArr]
    omega
  rw [if_neg hd]
  rfl

/-- C15 as it is written fails: `AdditionalColumns` pointing to ten thousand
nested slices is plain JSON data, and `MarshalJSON` returns the error of its
decoding step. -/
theorem C15_deeply_nested_value_fails :
    isPlainJSON (nestedSlice 9999) = true ∧
    (CopySource.azurePostgreSql deepSource).dynamicValues = [nestedSlice 9999] ∧
    (CopySource.azurePostgreSql deepSource).MarshalJSON =
      .error "unmarshaling AzurePostgreSqlSource: exceeded max depth" :=
  ⟨isPlainJSON_nestedSlice 9999, rfl, marshalJSON_nested 9999 (by decide)⟩

end pipelines
